import Mathlib

/-!
Verification of the `ethtrie` Modified Merkle Patricia Trie engine.

The development shallowly embeds the Rust sources (`src/trie.rs`, `src/db.rs`,
`src/hasher.rs`, `src/errors.rs`) into Lean.  Bytes are `Nat` values below 256,
byte strings are `List Nat`, and 32-byte digests are byte strings produced by a
concrete executable Keccak-256.  The modules `nibbles.rs` and `node.rs` are not
part of the sources; their definitions are modelled from the specification and
are marked as such in their doc comments.

Stateful Rust code (the trie engine mutates `passing_keys`, `gen_keys`, the
node cache and the backing store) is embedded by explicit state passing.
The `Rc<RefCell<...>>` interior sharing of nodes is embedded as a pure tree:
per the specification, ownership is a tree and in-place mutation through the
shared handle is observationally the rebuild-on-return strategy.
-/

namespace EthTrie

/-- A byte: a natural number, below 256 in every reachable state. -/
abbrev Byte := Nat

/-- A byte string. -/
abbrev Bytes := List Nat

/-- A 32-byte digest (`H256` in the source). -/
abbrev Digest := List Nat

/-! ## Keccak-256 (source: `src/hasher.rs`, via the `tiny_keccak` crate)

The digest function is an external collaborator of the engine; it is embedded
concretely so that root digests, store keys and proofs are all executable. -/

/-- 64-bit rotate left. -/
def rotl64 (x n : Nat) : Nat :=
  ((x <<< (n % 64)) ||| (x >>> (64 - n % 64))) % (2 ^ 64)

/-- 64-bit bitwise complement. -/
def not64 (x : Nat) : Nat := x ^^^ (2 ^ 64 - 1)

/-- The 24 Keccak-f round constants. -/
def keccakRC : List Nat :=
  [0x0000000000000001, 0x0000000000008082, 0x800000000000808a, 0x8000000080008000,
   0x000000000000808b, 0x0000000080000001, 0x8000000080008081, 0x8000000000008009,
   0x000000000000008a, 0x0000000000000088, 0x0000000080008009, 0x000000008000000a,
   0x000000008000808b, 0x800000000000008b, 0x8000000000008089, 0x8000000000008003,
   0x8000000000008002, 0x8000000000000080, 0x000000000000800a, 0x800000008000000a,
   0x8000000080008081, 0x8000000000008080, 0x0000000080000001, 0x8000000080008008]

/-- Keccak-f rotation offsets, indexed by lane position `x + 5 * y`. -/
def keccakRot : List Nat :=
  [0, 1, 62, 28, 27] ++
    [36, 44, 6, 55, 20] ++
    [3, 10, 43, 25, 39] ++
    [41, 45, 15, 21, 8] ++
    [18, 2, 61, 56, 14]

/-- Lane `x + 5 * y` of a 25-lane state. -/
def lane (s : List Nat) (i : Nat) : Nat := s.getD i 0

/-- Keccak-f theta step. -/
def keccakTheta (s : List Nat) : List Nat :=
  let c := (List.range 5).map (fun x =>
    lane s x ^^^ lane s (x + 5) ^^^ lane s (x + 10) ^^^ lane s (x + 15) ^^^ lane s (x + 20))
  let d := (List.range 5).map (fun x =>
    lane c ((x + 4) % 5) ^^^ rotl64 (lane c ((x + 1) % 5)) 1)
  (List.range 25).map (fun i => lane s i ^^^ lane d (i % 5))

/-- Keccak-f rho and pi steps: lane `(x, y)` is rotated and moved to
position `(y, (2 * x + 3 * y) % 5)`. -/
def keccakRhoPi (s : List Nat) : List Nat :=
  (List.range 25).foldl
    (fun t i =>
      let x := i % 5
      let y := i / 5
      t.set (y + 5 * ((2 * x + 3 * y) % 5)) (rotl64 (lane s i) (lane keccakRot i)))
    (List.replicate 25 0)

/-- Keccak-f chi step. -/
def keccakChi (s : List Nat) : List Nat :=
  (List.range 25).map (fun i =>
    let x := i % 5
    let y := i / 5
    lane s i ^^^ (not64 (lane s ((x + 1) % 5 + 5 * y)) &&& lane s ((x + 2) % 5 + 5 * y)))

/-- One Keccak-f round: theta, rho, pi, chi, iota. -/
def keccakRound (s : List Nat) (rc : Nat) : List Nat :=
  let t := keccakChi (keccakRhoPi (keccakTheta s))
  t.set 0 (lane t 0 ^^^ rc)

/-- The Keccak-f[1600] permutation: 24 rounds. -/
def keccakF (s : List Nat) : List Nat := keccakRC.foldl keccakRound s

/-- Interpret 8 bytes (little endian) as one 64-bit lane. -/
def bytesToLane (b : List Nat) : Nat :=
  b.foldr (fun byte acc => acc * 256 + byte) 0

/-- The 8 little-endian bytes of a 64-bit lane. -/
def laneToBytes (x : Nat) : List Nat :=
  [x % 256, x / 2 ^ 8 % 256, x / 2 ^ 16 % 256, x / 2 ^ 24 % 256,
   x / 2 ^ 32 % 256, x / 2 ^ 40 % 256, x / 2 ^ 48 % 256, x / 2 ^ 56 % 256]

/-- Split a byte string into chunks of 136 bytes; `fuel` bounds the number of
chunks (any `fuel` at least `l.length` is enough). -/
def chunks136 : Nat → List Nat → List (List Nat)
  | 0, _ => []
  | _, [] => []
  | fuel + 1, l => l.take 136 :: chunks136 fuel (l.drop 136)

/-- Keccak multi-rate padding for rate 136 with the legacy 0x01 domain byte. -/
def keccakPad (msg : List Nat) : List Nat :=
  let padLen := 136 - msg.length % 136
  if padLen == 1 then msg ++ [0x81]
  else msg ++ 0x01 :: (List.replicate (padLen - 2) 0 ++ [0x80])

/-- Absorb one 136-byte block into the state and permute. -/
def keccakAbsorb (s : List Nat) (block : List Nat) : List Nat :=
  let blockLanes := (List.range 17).map (fun i => bytesToLane ((block.drop (8 * i)).take 8))
  keccakF ((List.range 25).map (fun i =>
    if i < 17 then lane s i ^^^ lane blockLanes i else lane s i))

/-- Keccak-256 of a byte string: 32-byte digest (source: `keccak256` in
`src/hasher.rs`). -/
def keccak256 (msg : List Nat) : Digest :=
  let padded := keccakPad msg
  let s := (chunks136 (padded.length) padded).foldl keccakAbsorb (List.replicate 25 0)
  laneToBytes (lane s 0) ++ laneToBytes (lane s 1) ++ laneToBytes (lane s 2) ++
    laneToBytes (lane s 3)

/-! ## RLP (external collaborator: the `rlp` crate)

Only the primitives the trie engine uses are embedded: string and list
serialization (`RlpStream`) and the lazy item accessors (`Rlp::prototype`,
`at`, `data`, `as_raw`, `is_data`, `size`, `is_empty`).  Non-canonical length
encodings are not rejected, which the engine never relies on. -/

/-- Big-endian value of a byte string. -/
def beVal (l : List Nat) : Nat := l.foldl (fun acc b => acc * 256 + b) 0

/-- Minimal big-endian bytes of `n`; the first argument is recursion fuel,
any value at least `n` is enough. -/
def beBytesF : Nat → Nat → List Nat
  | 0, _ => []
  | fuel + 1, n => if n == 0 then [] else beBytesF fuel (n / 256) ++ [n % 256]

/-- Minimal big-endian bytes of `n` (empty for 0). -/
def beBytes (n : Nat) : List Nat := beBytesF n n

/-- RLP encoding of a byte string (`RlpStream::append`). -/
def rlpStr (b : Bytes) : Bytes :=
  if b.length == 1 && b.getD 0 0 < 0x80 then b
  else if b.length < 56 then (0x80 + b.length) :: b
  else
    let lb := beBytes b.length
    (0xb7 + lb.length) :: (lb ++ b)

/-- Wrap an already-encoded concatenation of items as an RLP list
(`RlpStream::out` for a list stream). -/
def rlpWrapList (payload : Bytes) : Bytes :=
  if payload.length < 56 then (0xc0 + payload.length) :: payload
  else
    let lb := beBytes payload.length
    (0xf7 + lb.length) :: (lb ++ payload)

/-- The canonical empty-data value (`rlp::NULL_RLP`). -/
def nullRlp : Bytes := [0x80]

/-- Header length and payload length of the first RLP item of `b`
(a single byte below 0x80 reports header length 0 and payload length 1). -/
def rlpHeadInfo (b : Bytes) : Option (Nat × Nat) :=
  match b with
  | [] => none
  | b0 :: rest =>
    if b0 < 0x80 then some (0, 1)
    else if b0 < 0xb8 then some (1, b0 - 0x80)
    else if b0 < 0xc0 then
      let ll := b0 - 0xb7
      if rest.length < ll then none else some (1 + ll, beVal (rest.take ll))
    else if b0 < 0xf8 then some (1, b0 - 0xc0)
    else
      let ll := b0 - 0xf7
      if rest.length < ll then none else some (1 + ll, beVal (rest.take ll))

/-- Split a byte string into consecutive RLP items; `fuel` bounds the item
count (any value at least `b.length` is enough). -/
def rlpItems : Nat → Bytes → Option (List Bytes)
  | _, [] => some []
  | 0, _ :: _ => none
  | fuel + 1, b =>
    match rlpHeadInfo b with
    | none => none
    | some (h, p) =>
      if h + p ≤ b.length then
        match rlpItems fuel (b.drop (h + p)) with
        | none => none
        | some rest => some (b.take (h + p) :: rest)
      else none

/-- Errors of the trie engine (source: `src/errors.rs`). -/
inductive TrieError where
  | decoder : TrieError
  | invalidData : TrieError
  | invalidStateRoot : TrieError
  | invalidProof : TrieError
deriving DecidableEq, Repr

/-- Raw byte strings of the elements of an RLP list item. -/
def rlpListItems (b : Bytes) : Option (List Bytes) :=
  match rlpHeadInfo b with
  | none => none
  | some (h, p) =>
    if 0xc0 ≤ b.getD 0 0 ∧ h + p == b.length then rlpItems b.length (b.drop h)
    else none

/-- Raw bytes of the `i`-th element of an RLP list (`Rlp::at(i).as_raw()`). -/
def rlpAtRaw (b : Bytes) (i : Nat) : Except TrieError Bytes :=
  match rlpListItems b with
  | none => Except.error TrieError.decoder
  | some items =>
    match items.get? i with
    | none => Except.error TrieError.decoder
    | some it => Except.ok it

/-- Payload of an RLP data item (`Rlp::data`). -/
def rlpDataOf (b : Bytes) : Except TrieError Bytes :=
  match rlpHeadInfo b with
  | none => Except.error TrieError.decoder
  | some (h, p) =>
    if b.getD 0 0 < 0xc0 ∧ h + p == b.length then Except.ok (b.drop h)
    else Except.error TrieError.decoder

/-- Payload length of the first item (`Rlp::size` for data items). -/
def rlpSize (b : Bytes) : Nat :=
  match rlpHeadInfo b with
  | some (_, p) => p
  | none => 0

/-- Whether the item is a data (non-list) item (`Rlp::is_data`). -/
def rlpIsDataB (b : Bytes) : Bool := !b.isEmpty && decide (b.getD 0 0 < 0xc0)

/-- Whether the item is the empty data or empty list value (`Rlp::is_empty`). -/
def rlpIsEmptyB (b : Bytes) : Bool := b.getD 0 0 == 0x80 || b.getD 0 0 == 0xc0

/-- Shape of an RLP item (`rlp::Prototype`). -/
inductive RlpProto where
  | data (n : Nat) : RlpProto
  | list (n : Nat) : RlpProto
deriving DecidableEq, Repr

/-- Prototype of an RLP item (`Rlp::prototype`), validating that the item
spans the whole input. -/
def rlpProto (b : Bytes) : Except TrieError RlpProto :=
  match rlpHeadInfo b with
  | none => Except.error TrieError.decoder
  | some (h, p) =>
    if h + p == b.length then
      if b.getD 0 0 < 0xc0 then Except.ok (RlpProto.data p)
      else
        match rlpItems b.length (b.drop h) with
        | none => Except.error TrieError.decoder
        | some items => Except.ok (RlpProto.list items.length)
    else Except.error TrieError.decoder

/-! ## Nibble paths

The module `nibbles.rs` is declared in `src/lib.rs` but its source is not in
the repository snapshot; every definition in this namespace is modelled from
the specification (section 4.1 and the glossary). -/

namespace Nibbles

/-- Modelled from the spec: `from_raw(bytes, is_leaf)` splits each byte into
high and low nibble and appends the terminator sentinel 16 when `is_leaf`. -/
def fromRaw (raw : Bytes) (isLeaf : Bool) : List Nat :=
  (raw.foldr (fun b acc => b / 16 :: b % 16 :: acc) []) ++ (if isLeaf then [16] else [])

/-- Modelled from the spec: `from_hex` takes pre-split nibbles. -/
def fromHex (l : List Nat) : List Nat := l

/-- Modelled from the spec: `at(i)`, the `i`-th nibble. -/
def hexAt (p : List Nat) (i : Nat) : Nat := p.getD i 0

/-- Modelled from the spec: `common_prefix`, the length of the longest shared
prefix of two nibble sequences (renamed to fit this file's lexical rules). -/
def commonLen : List Nat → List Nat → Nat
  | a :: t1, b :: t2 => if a == b then commonLen t1 t2 + 1 else 0
  | _, _ => 0

/-- Modelled from the spec: `offset(k)` drops the first `k` nibbles. -/
def offsetBy (p : List Nat) (k : Nat) : List Nat := p.drop k

/-- Modelled from the spec: `slice(i, j)` is the nibble range `[i, j)`. -/
def slice (p : List Nat) (i j : Nat) : List Nat := (p.take j).drop i

/-- Modelled from the spec: `join` concatenates two nibble sequences. -/
def joinN (a b : List Nat) : List Nat := a ++ b

/-- Modelled from the spec: a path is a leaf path when it ends with the
terminator sentinel 16. -/
def isLeafN (p : List Nat) : Bool := p.getLast? == some 16

/-- Pack nibble pairs into bytes, high nibble first. -/
def packPairs : List Nat → List Nat
  | a :: b :: t => (a * 16 + b) :: packPairs t
  | _ => []

/-- Modelled from the spec: compact (hex-prefix) encoding; the leading nibble
carries the leaf bit (0x2) and the odd-length bit (0x1). -/
def encodeCompact (p : List Nat) : Bytes :=
  let isL := isLeafN p
  let hex0 := if isL then p.dropLast else p
  let flag := if hex0.length % 2 == 1 then 0x10 + hexAt hex0 0 else 0x00
  let hex1 := if hex0.length % 2 == 1 then hex0.drop 1 else hex0
  (flag + if isL then 0x20 else 0x00) :: packPairs hex1

/-- Split each byte of a byte string into its two nibbles. -/
def unpackBytes (b : Bytes) : List Nat :=
  b.foldr (fun x acc => x / 16 :: x % 16 :: acc) []

/-- Modelled from the spec: inverse of the compact encoding, recovering the
odd leading nibble and the terminator flag. -/
def fromCompact (b : Bytes) : List Nat :=
  let flag := b.getD 0 0
  let core := (if flag / 16 % 2 == 1 then [flag % 16] else []) ++ unpackBytes (b.drop 1)
  core ++ (if flag / 32 % 2 == 1 then [16] else [])

/-- Modelled from the spec: raw (two nibbles per byte) encoding, only valid on
paths of even length; returns the packed bytes and the terminator flag. -/
def encodeRawN (p : List Nat) : Bytes × Bool :=
  let isL := isLeafN p
  let hex := if isL then p.dropLast else p
  (packPairs hex, isL)

end Nibbles

/-! ## Nodes

The module `node.rs` is also missing from the snapshot; the node algebra is
modelled from the specification (section 3).  The `Rc<RefCell<..>>` handles
are embedded as a pure tree. -/

/-- Modelled from the spec: the node variants Empty, Leaf, Extension, Branch
and HashRef. -/
inductive Node where
  | empty : Node
  | leaf (key : List Nat) (value : Bytes) : Node
  | extension (pref : List Nat) (child : Node) : Node
  | branch (children : List Node) (value : Option Bytes) : Node
  | hash (digest : Digest) : Node
deriving Repr

/-- Modelled from the spec: the 16 empty child slots of a fresh branch. -/
def emptyChildren : List Node := List.replicate 16 Node.empty

/-- Modelled from the spec: leaf constructor (`Node::from_leaf`). -/
def Node.fromLeaf (key : List Nat) (value : Bytes) : Node := Node.leaf key value

/-- Modelled from the spec: extension constructor (`Node::from_extension`). -/
def Node.fromExtension (pref : List Nat) (child : Node) : Node :=
  Node.extension pref child

/-- Modelled from the spec: branch constructor (`Node::from_branch`). -/
def Node.fromBranch (children : List Node) (value : Option Bytes) : Node :=
  Node.branch children value

/-- Modelled from the spec: hash-reference constructor (`Node::from_hash`). -/
def Node.fromHash (d : Digest) : Node := Node.hash d

/-- Whether a node is the Empty node. -/
def Node.isEmptyN : Node → Bool
  | Node.empty => true
  | _ => false

/-- Modelled from the spec: `BranchNode::insert` on the pair of children and
value; slot 16 stores a leaf's value as the branch value (the source panics
when a non-leaf reaches slot 16, which is unreachable). -/
def branchInsert (cs : List Node) (v : Option Bytes) (i : Nat) (n : Node) :
    List Node × Option Bytes :=
  if i == 16 then
    match n with
    | Node.leaf _ lv => (cs, some lv)
    | _ => (cs, v)
  else (cs.set i n, v)

/-- Result of encoding a child: spliced raw bytes or a digest reference
(source: `RawNodeOrHash` used by `encode_node`). -/
inductive RawNodeOrHash where
  | rawNode (raw : Bytes) : RawNodeOrHash
  | hashRef (d : Digest) : RawNodeOrHash
deriving Repr

/-! ## Store (source: `src/db.rs`)

`MemoryDB` with its `light` flag, embedded as an association list keyed by
digest; `insert` replaces, `remove` is honored only by light stores. -/

/-- The in-memory store (source: `MemoryDB` in `src/db.rs`). -/
structure MemDB where
  light : Bool
  storage : List (Digest × Bytes)
deriving DecidableEq, Repr

/-- Source: `MemoryDB::new`. -/
def MemDB.new (light : Bool) : MemDB := { light := light, storage := [] }

/-- Source: `MemoryDB::get`. -/
def MemDB.get (db : MemDB) (k : Digest) : Option Bytes := db.storage.lookup k

/-- Source: `MemoryDB::insert` (replacing semantics of a hash map). -/
def MemDB.insert (db : MemDB) (k : Digest) (v : Bytes) : MemDB :=
  { db with storage := (k, v) :: db.storage.filter (fun p => !(p.1 == k)) }

/-- Source: `MemoryDB::remove`; honored only when the store is light. -/
def MemDB.remove (db : MemDB) (k : Digest) : MemDB :=
  if db.light then { db with storage := db.storage.filter (fun p => !(p.1 == k)) }
  else db

/-- Source: `HashDB::remove_batch`. -/
def MemDB.removeBatch (db : MemDB) (keys : List Digest) : MemDB :=
  keys.foldl MemDB.remove db

/-- Insert a digest into a digest set (`HashSet::insert`). -/
def insertKey (l : List Digest) (d : Digest) : List Digest :=
  if l.contains d then l else d :: l

/-- Insert into a digest-keyed map (`HashMap::insert`, replacing). -/
def assocInsert (l : List (Digest × Bytes)) (k : Digest) (v : Bytes) :
    List (Digest × Bytes) :=
  (k, v) :: l.filter (fun p => !(p.1 == k))

/-- The trie engine state (source: `PatriciaTrie` in `src/trie.rs`): current
root node and digest, the borrowed store, the pending write cache and the
passing and gen key sets. -/
structure TrieState where
  root : Node
  rootHash : Digest
  db : MemDB
  cache : List (Digest × Bytes)
  passing : List Digest
  gen : List Digest

/-! ## Termination measures

Two auxiliary node measures used only in `termination_by` clauses: `measI`
(empty nodes weigh 0) for the descent operations and `measD` (empty nodes
weigh 1, short child lists padded to 16) for `degenerate` and the encoder. -/

mutual

/-- Node measure for get/insert/delete termination; extension prefixes are
counted twice so that the extension-split case of insertion strictly
decreases. -/
def measI : Node → Nat
  | Node.empty => 0
  | Node.leaf _ _ => 1
  | Node.hash _ => 1
  | Node.extension pref c => 2 * pref.length + 1 + measI c
  | Node.branch cs _ => 1 + measIL cs

/-- List version of `measI`. -/
def measIL : List Node → Nat
  | [] => 0
  | c :: t => measI c + measIL t

end

mutual

/-- Node measure for degenerate/encode termination. -/
def measD : Node → Nat
  | Node.empty => 1
  | Node.leaf _ _ => 1
  | Node.hash _ => 1
  | Node.extension pref c => pref.length + 1 + measD c
  | Node.branch cs _ => 1 + measDL cs + (16 - cs.length)

/-- List version of `measD`. -/
def measDL : List Node → Nat
  | [] => 0
  | c :: t => measD c + measDL t

end

/-- Setting a slot adds at most the new node's weight to the list measure. -/
theorem measIL_set_le (l : List Node) (i : Nat) (x : Node) :
    measIL (l.set i x) ≤ measIL l + measI x := by
  induction l generalizing i with
  | nil => simp [List.set, measIL]
  | cons c t ih =>
    cases i with
    | zero => simp only [List.set, measIL]; omega
    | succ j =>
      have := ih j
      simp only [List.set, measIL]
      omega

/-- The 16 empty slots weigh nothing under `measI`. -/
theorem measIL_emptyChildren : measIL emptyChildren = 0 := by
  simp [emptyChildren, measIL, List.replicate, measI]

/-- Indexing into a child list never exceeds the list measure. -/
theorem measI_getD_le (cs : List Node) (i : Nat) :
    measI (cs.getD i Node.empty) ≤ measIL cs := by
  induction cs generalizing i with
  | nil =>
    have h0 : (([] : List Node).getD i Node.empty) = Node.empty := by
      simp [List.getD]
    rw [h0]
    simp [measI, measIL]
  | cons c t ih =>
    cases i with
    | zero =>
      rw [List.getD_cons_zero]
      simp only [measIL]
      omega
    | succ j =>
      rw [List.getD_cons_succ]
      have := ih j
      simp only [measIL]
      omega

/-- Every node weighs at least 1 under `measD`. -/
theorem measD_pos (n : Node) : 1 ≤ measD n := by
  cases n <;> simp [measD] <;> omega

/-- A node list's length bounds its `measD` sum from below. -/
theorem measDL_ge_length (t : List Node) : t.length ≤ measDL t := by
  induction t with
  | nil => simp [measDL]
  | cons x xs ihx =>
    have := measD_pos x
    simp only [List.length_cons, measDL]
    omega

/-- A selected child plus the remaining slots is bounded by the list
measure under `measD`. -/
theorem measD_getD_le (cs : List Node) (i : Nat) (h : i < cs.length) :
    measD (cs.getD i Node.empty) + cs.length ≤ measDL cs + 1 := by
  induction cs generalizing i with
  | nil => simp at h
  | cons c t ih =>
    cases i with
    | zero =>
      rw [List.getD_cons_zero]
      have ht := measDL_ge_length t
      simp only [List.length_cons, measDL]
      omega
    | succ j =>
      simp only [List.length_cons] at h
      have hj : j < t.length := Nat.lt_of_succ_lt_succ h
      have := ih j hj
      have := measD_pos c
      rw [List.getD_cons_succ]
      simp only [List.length_cons, measDL]
      omega

/-- Prefix-match length is bounded by the first argument's length. -/
theorem commonLen_le_left (a b : List Nat) : Nibbles.commonLen a b ≤ a.length := by
  induction a generalizing b with
  | nil => simp [Nibbles.commonLen]
  | cons x t ih =>
    cases b with
    | nil => simp [Nibbles.commonLen]
    | cons y s =>
      simp only [Nibbles.commonLen]
      split
      · have := ih s
        simp
        omega
      · simp

/-- Prefix-match length is bounded by the second argument's length. -/
theorem commonLen_le_right (a b : List Nat) : Nibbles.commonLen a b ≤ b.length := by
  induction a generalizing b with
  | nil => simp [Nibbles.commonLen]
  | cons x t ih =>
    cases b with
    | nil => simp [Nibbles.commonLen]
    | cons y s =>
      simp only [Nibbles.commonLen]
      split
      · have := ih s
        simp
        omega
      · simp

/-! ## Node decoding (source: `decode_node` in `src/trie.rs`)

The mutual fuel argument bounds the recursion depth; every recursive call is
on a strictly shorter byte string, so any fuel above the input length is
enough.  `decodeNode` supplies such a fuel. -/

mutual

/-- Source: `decode_node`, decoding one RLP blob into a node. -/
def decodeNodeF : Nat → Bytes → Except TrieError Node
  | 0, _ => Except.error TrieError.decoder
  | fuel + 1, data =>
    match rlpProto data with
    | Except.error e => Except.error e
    | Except.ok (RlpProto.data 0) => Except.ok Node.empty
    | Except.ok (RlpProto.list 2) =>
      match rlpAtRaw data 0 with
      | Except.error e => Except.error e
      | Except.ok keyRaw =>
        match rlpDataOf keyRaw with
        | Except.error e => Except.error e
        | Except.ok keyData =>
          let key := Nibbles.fromCompact keyData
          if Nibbles.isLeafN key then
            match rlpAtRaw data 1 with
            | Except.error e => Except.error e
            | Except.ok valRaw =>
              match rlpDataOf valRaw with
              | Except.error e => Except.error e
              | Except.ok val => Except.ok (Node.fromLeaf key val)
          else
            match rlpAtRaw data 1 with
            | Except.error e => Except.error e
            | Except.ok subRaw =>
              match decodeNodeF fuel subRaw with
              | Except.error e => Except.error e
              | Except.ok n => Except.ok (Node.fromExtension key n)
    | Except.ok (RlpProto.list 17) =>
      match rlpListItems data with
      | none => Except.error TrieError.decoder
      | some items =>
        match decodeChildrenF fuel (items.take 16) with
        | Except.error e => Except.error e
        | Except.ok children =>
          match items.get? 16 with
          | none => Except.error TrieError.decoder
          | some valRaw =>
            if rlpIsEmptyB valRaw then
              Except.ok (Node.fromBranch children none)
            else
              match rlpDataOf valRaw with
              | Except.error e => Except.error e
              | Except.ok v => Except.ok (Node.fromBranch children (some v))
    | Except.ok _ =>
      if rlpIsDataB data && rlpSize data == 32 then
        match rlpDataOf data with
        | Except.error e => Except.error e
        | Except.ok d => Except.ok (Node.fromHash d)
      else Except.error TrieError.invalidData

/-- Decode the 16 child slots of a branch (the `for` loop of the 17-list
case of `decode_node`). -/
def decodeChildrenF : Nat → List Bytes → Except TrieError (List Node)
  | _, [] => Except.ok []
  | fuel, it :: rest =>
    match decodeNodeF fuel it with
    | Except.error e => Except.error e
    | Except.ok n =>
      match decodeChildrenF fuel rest with
      | Except.error e => Except.error e
      | Except.ok ns => Except.ok (n :: ns)

end

/-- Source: `decode_node` entry point; the fuel is one more than the input
length, which bounds the recursion depth. -/
def decodeNode (data : Bytes) : Except TrieError Node :=
  decodeNodeF (data.length + 1) data

/-! ## The trie engine (source: `src/trie.rs`)

Each descent operation carries a fuel argument that is consumed only when a
`HashRef` is materialized from the store (the one recursion step that is not
structurally decreasing); running out of fuel reports a decoder error, an
artifact never reachable with sufficient fuel.  On hash-free trees the
operations are independent of the fuel. -/

/-- Source: `recover_from_db`; a digest absent from the store yields the
Empty node, not an error. -/
def recoverFromDb (st : TrieState) (key : Digest) : Except TrieError Node :=
  match st.db.get key with
  | some value => decodeNode value
  | none => Except.ok Node.empty

/-- Source: `get_at`, the recursive lookup. -/
def getAt (fuel : Nat) (st : TrieState) (n : Node) (part : List Nat) :
    Except TrieError (Option Bytes) :=
  match n with
  | Node.empty => Except.ok none
  | Node.leaf key value =>
    if key == part then Except.ok (some value) else Except.ok none
  | Node.branch children value =>
    if part.isEmpty || Nibbles.hexAt part 0 == 16 then Except.ok value
    else getAt fuel st (children.getD (Nibbles.hexAt part 0) Node.empty)
      (Nibbles.offsetBy part 1)
  | Node.extension pref child =>
    if Nibbles.commonLen part pref == pref.length then
      getAt fuel st child (Nibbles.offsetBy part (Nibbles.commonLen part pref))
    else Except.ok none
  | Node.hash d =>
    match fuel with
    | 0 => Except.error TrieError.decoder
    | f + 1 =>
      match recoverFromDb st d with
      | Except.error e => Except.error e
      | Except.ok n2 => getAt f st n2 part
termination_by (fuel, measI n)
decreasing_by
  · apply Prod.Lex.right
    have := measI_getD_le children (Nibbles.hexAt part 0)
    simp only [measI]
    omega
  · apply Prod.Lex.right
    simp only [measI]
    omega
  · apply Prod.Lex.left
    omega

/-- Source: `insert_at`, the recursive insertion; returns the engine state
(whose passing-keys set may grow) and the replacement node. -/
def insertAt (fuel : Nat) (st : TrieState) (n : Node) (part : List Nat)
    (value : Bytes) : Except TrieError (TrieState × Node) :=
  match n with
  | Node.empty => Except.ok (st, Node.fromLeaf part value)
  | Node.leaf key oldVal =>
    let matchIndex := Nibbles.commonLen part key
    if matchIndex == key.length then
      Except.ok (st, Node.leaf key value)
    else
      let p1 := branchInsert emptyChildren none (Nibbles.hexAt key matchIndex)
        (Node.fromLeaf (Nibbles.offsetBy key (matchIndex + 1)) oldVal)
      let p2 := branchInsert p1.1 p1.2 (Nibbles.hexAt part matchIndex)
        (Node.fromLeaf (Nibbles.offsetBy part (matchIndex + 1)) value)
      if matchIndex == 0 then Except.ok (st, Node.branch p2.1 p2.2)
      else Except.ok (st, Node.fromExtension (Nibbles.slice part 0 matchIndex)
        (Node.branch p2.1 p2.2))
  | Node.branch children value0 =>
    if Nibbles.hexAt part 0 == 0x10 then
      Except.ok (st, Node.branch children (some value))
    else
      match insertAt fuel st (children.getD (Nibbles.hexAt part 0) Node.empty)
        (Nibbles.offsetBy part 1) value with
      | Except.error e => Except.error e
      | Except.ok (st1, newChild) =>
        Except.ok (st1, Node.branch (children.set (Nibbles.hexAt part 0) newChild) value0)
  | Node.extension pref child =>
    let matchIndex := Nibbles.commonLen part pref
    if hpe : pref.isEmpty then
      Except.error TrieError.invalidData
    else if h0 : matchIndex == 0 then
      let p1 := branchInsert emptyChildren none (Nibbles.hexAt pref 0)
        (if pref.length == 1 then child
         else Node.fromExtension (Nibbles.offsetBy pref 1) child)
      insertAt fuel st (Node.branch p1.1 p1.2) part value
    else if h1 : matchIndex == pref.length then
      match insertAt fuel st child (Nibbles.offsetBy part matchIndex) value with
      | Except.error e => Except.error e
      | Except.ok (st1, newNode) =>
        Except.ok (st1, Node.fromExtension pref newNode)
    else
      match insertAt fuel st
        (Node.fromExtension (Nibbles.offsetBy pref matchIndex) child)
        (Nibbles.offsetBy part matchIndex) value with
      | Except.error e => Except.error e
      | Except.ok (st1, newNode) =>
        Except.ok (st1, Node.fromExtension (Nibbles.slice pref 0 matchIndex) newNode)
  | Node.hash d =>
    let st1 := { st with passing := insertKey st.passing d }
    match fuel with
    | 0 => Except.error TrieError.decoder
    | f + 1 =>
      match recoverFromDb st1 d with
      | Except.error e => Except.error e
      | Except.ok n2 => insertAt f st1 n2 part value
termination_by (fuel, measI n)
decreasing_by
  · apply Prod.Lex.right
    have := measI_getD_le children (Nibbles.hexAt part 0)
    simp only [measI]
    omega
  · apply Prod.Lex.right
    have hlen : 1 ≤ pref.length := by
      rcases pref with _ | ⟨a, t⟩
      · simp at hpe
      · simp
    have hemp := measIL_emptyChildren
    simp only [branchInsert]
    split
    · simp only [measI]
      split
      · rename_i hp1
        simp only [beq_iff_eq] at hp1
        simp only [measI]
        omega
      · simp only [measI, Node.fromExtension]
        omega
    · simp only [measI]
      split
      · rename_i hp1
        have hle := measIL_set_le emptyChildren (Nibbles.hexAt pref 0) child
        rw [measIL_emptyChildren] at hle
        simp only [beq_iff_eq] at hp1
        omega
      · rename_i hp1
        have hle := measIL_set_le emptyChildren (Nibbles.hexAt pref 0)
          (Node.fromExtension (Nibbles.offsetBy pref 1) child)
        rw [measIL_emptyChildren] at hle
        simp only [measI, Node.fromExtension, Nibbles.offsetBy, List.length_drop] at hle ⊢
        omega
  · apply Prod.Lex.right
    simp only [measI]
    omega
  · apply Prod.Lex.right
    have ha : Nibbles.commonLen part pref ≤ pref.length := commonLen_le_right part pref
    have hb : Nibbles.commonLen part pref ≠ 0 := by
      intro hc
      exact h0 (beq_iff_eq.mpr hc)
    simp only [measI, Node.fromExtension, Nibbles.offsetBy, List.length_drop]
    omega
  · apply Prod.Lex.left
    omega

/-- The indexes of the non-empty child slots of a branch (the enumeration
loop at the head of `degenerate`). -/
def usedIndexesOf (children : List Node) : List Nat :=
  (children.enum.filter (fun p => !(p.2.isEmptyN))).map Prod.fst

/-- A used index is a valid index into the child list. -/
theorem usedIndexesOf_lt (children : List Node) (i : Nat)
    (h : i ∈ usedIndexesOf children) : i < children.length := by
  rcases List.mem_map.mp h with ⟨⟨j, c⟩, hmemf, hfst⟩
  have hm := (List.mem_filter.mp hmemf).1
  have := List.fst_lt_of_mem_enum hm
  simpa [← hfst] using this

/-- Source: `degenerate`, collapsing structurally weakened nodes. -/
def degenerate (fuel : Nat) (st : TrieState) (n : Node) :
    Except TrieError (TrieState × Node) :=
  match n with
  | Node.branch children value =>
    if (usedIndexesOf children).isEmpty && value.isSome then
      Except.ok (st, Node.fromLeaf (Nibbles.fromRaw [] true) (value.getD []))
    else if h1 : (usedIndexesOf children).length == 1 && value.isNone then
      degenerate fuel st
        (Node.fromExtension (Nibbles.fromHex [(usedIndexesOf children).getD 0 0])
          (children.getD ((usedIndexesOf children).getD 0 0) Node.empty))
    else Except.ok (st, Node.branch children value)
  | Node.extension pref child =>
    match child with
    | Node.extension pref2 child2 =>
      degenerate fuel st (Node.fromExtension (Nibbles.joinN pref pref2) child2)
    | Node.leaf k v => Except.ok (st, Node.fromLeaf (Nibbles.joinN pref k) v)
    | Node.hash d =>
      let st1 := { st with passing := insertKey st.passing d }
      match fuel with
      | 0 => Except.error TrieError.decoder
      | f + 1 =>
        match recoverFromDb st1 d with
        | Except.error e => Except.error e
        | Except.ok newNode => degenerate f st1 (Node.fromExtension pref newNode)
    | _ => Except.ok (st, Node.extension pref child)
  | _ => Except.ok (st, n)
termination_by (fuel, measD n)
decreasing_by
  · apply Prod.Lex.right
    have hmem : (usedIndexesOf children).getD 0 0 ∈ usedIndexesOf children := by
      rcases Bool.and_eq_true_iff.mp h1 with ⟨ha, _⟩
      simp only [beq_iff_eq] at ha
      rcases List.length_eq_one.mp ha with ⟨a, hl⟩
      simp [hl]
    have hlt := usedIndexesOf_lt children _ hmem
    have := measD_getD_le children ((usedIndexesOf children).getD 0 0) hlt
    simp only [measD, Node.fromExtension, Nibbles.fromHex, List.length_cons,
      List.length_nil]
    omega
  · apply Prod.Lex.right
    simp only [measD, Node.fromExtension, Nibbles.joinN, List.length_append]
    omega
  · apply Prod.Lex.left
    omega

/-- Source: `delete_at`, the recursive deletion; returns the state, the
replacement node and whether something was deleted.  The two early returns of
the source (leaf hit and branch value clear) bypass the trailing
`degenerate`. -/
def deleteAt (fuel : Nat) (st : TrieState) (n : Node) (part : List Nat) :
    Except TrieError (TrieState × Node × Bool) :=
  match n with
  | Node.empty => Except.ok (st, Node.empty, false)
  | Node.leaf key value =>
    if key == part then Except.ok (st, Node.empty, true)
    else Except.ok (st, Node.leaf key value, false)
  | Node.branch children value =>
    if Nibbles.hexAt part 0 == 0x10 then
      Except.ok (st, Node.branch children none, true)
    else
      match deleteAt fuel st (children.getD (Nibbles.hexAt part 0) Node.empty)
        (Nibbles.offsetBy part 1) with
      | Except.error e => Except.error e
      | Except.ok (st1, newChild, deleted) =>
        let b := Node.branch
          (if deleted then children.set (Nibbles.hexAt part 0) newChild else children)
          value
        if deleted then
          match degenerate fuel st1 b with
          | Except.error e => Except.error e
          | Except.ok (st2, n2) => Except.ok (st2, n2, deleted)
        else Except.ok (st1, b, deleted)
  | Node.extension pref child =>
    if Nibbles.commonLen part pref == pref.length then
      match deleteAt fuel st child
        (Nibbles.offsetBy part (Nibbles.commonLen part pref)) with
      | Except.error e => Except.error e
      | Except.ok (st1, newChild, deleted) =>
        let e := Node.extension pref (if deleted then newChild else child)
        if deleted then
          match degenerate fuel st1 e with
          | Except.error e2 => Except.error e2
          | Except.ok (st2, n2) => Except.ok (st2, n2, deleted)
        else Except.ok (st1, e, deleted)
    else Except.ok (st, Node.extension pref child, false)
  | Node.hash d =>
    let st1 := { st with passing := insertKey st.passing d }
    match fuel with
    | 0 => Except.error TrieError.decoder
    | f + 1 =>
      match recoverFromDb st1 d with
      | Except.error e => Except.error e
      | Except.ok n2 =>
        match deleteAt f st1 n2 part with
        | Except.error e => Except.error e
        | Except.ok (st2, newN, deleted) =>
          if deleted then
            match degenerate f st2 newN with
            | Except.error e => Except.error e
            | Except.ok (st3, n3) => Except.ok (st3, n3, deleted)
          else Except.ok (st2, newN, deleted)
termination_by (fuel, measI n)
decreasing_by
  · apply Prod.Lex.right
    have := measI_getD_le children (Nibbles.hexAt part 0)
    simp only [measI]
    omega
  · apply Prod.Lex.right
    simp only [measI]
    omega
  · apply Prod.Lex.left
    omega

/-- Source: `get_path_at`, collecting the nodes materialized from the store
along the descent for `key`, child first. -/
def getPathAt (fuel : Nat) (st : TrieState) (n : Node) (part : List Nat) :
    Except TrieError (List Node) :=
  match n with
  | Node.empty => Except.ok []
  | Node.leaf _ _ => Except.ok []
  | Node.branch children _ =>
    if part.isEmpty || Nibbles.hexAt part 0 == 16 then Except.ok []
    else getPathAt fuel st (children.getD (Nibbles.hexAt part 0) Node.empty)
      (Nibbles.offsetBy part 1)
  | Node.extension pref child =>
    if Nibbles.commonLen part pref == pref.length then
      getPathAt fuel st child (Nibbles.offsetBy part (Nibbles.commonLen part pref))
    else Except.ok []
  | Node.hash d =>
    match fuel with
    | 0 => Except.error TrieError.decoder
    | f + 1 =>
      match recoverFromDb st d with
      | Except.error e => Except.error e
      | Except.ok n2 =>
        match getPathAt f st n2 part with
        | Except.error e => Except.error e
        | Except.ok rest => Except.ok (rest ++ [n2])
termination_by (fuel, measI n)
decreasing_by
  · apply Prod.Lex.right
    have := measI_getD_le children (Nibbles.hexAt part 0)
    simp only [measI]
    omega
  · apply Prod.Lex.right
    simp only [measI]
    omega
  · apply Prod.Lex.left
    omega

/-! ## Encoding (source: `encode_node` / `encode_raw` in `src/trie.rs`)

The Rust code mutates `self.cache` and `self.gen_keys` through `RefCell`
while encoding; the embedding threads the pair explicitly.  `EncSt` is that
pair. -/

/-- The cache and gen-keys pair mutated during encoding. -/
structure EncSt where
  cache : List (Digest × Bytes)
  gen : List Digest

/-- The digest of a hash node, if the node is one (the `if let` test at the
head of `encode_node`). -/
def Node.hashDigest? : Node → Option Digest
  | Node.hash d => some d
  | _ => none

mutual

/-- Source: `encode_node`: a hash node yields its digest; otherwise the raw
encoding is spliced when shorter than 32 bytes, else hashed, cached and
recorded in the gen keys. -/
def encodeNode (es : EncSt) (n : Node) : EncSt × RawNodeOrHash :=
  match n.hashDigest? with
  | some d => (es, RawNodeOrHash.hashRef d)
  | none =>
    let r := encodeRaw es n
    if r.2.length < 32 then (r.1, RawNodeOrHash.rawNode r.2)
    else
      let h := keccak256 r.2
      ({ cache := assocInsert r.1.cache h r.2, gen := insertKey r.1.gen h },
        RawNodeOrHash.hashRef h)
termination_by (measD n, 1)
decreasing_by
  apply Prod.Lex.right
  omega

/-- Source: `encode_raw`: the canonical RLP encoding of a node; branch and
extension children are encoded through `encode_node`.  The source's
`unreachable` on hash nodes is embedded as the digest's raw bytes (never
taken: `encode_raw` is only called on non-hash nodes). -/
def encodeRaw (es : EncSt) (n : Node) : EncSt × Bytes :=
  match n with
  | Node.empty => (es, nullRlp)
  | Node.leaf key value =>
    (es, rlpWrapList (rlpStr (Nibbles.encodeCompact key) ++ rlpStr value))
  | Node.branch children value =>
    let r := encodeChildren es children
    let valuePart := match value with
      | some v => rlpStr v
      | none => [0x80]
    (r.1, rlpWrapList (r.2 ++ valuePart))
  | Node.extension pref child =>
    let r := encodeNode es child
    let childPart := match r.2 with
      | RawNodeOrHash.hashRef d => rlpStr d
      | RawNodeOrHash.rawNode raw => raw
    (r.1, rlpWrapList (rlpStr (Nibbles.encodeCompact pref) ++ childPart))
  | Node.hash d => (es, d)
termination_by (measD n, 0)
decreasing_by
  · apply Prod.Lex.left
    simp only [measD]
    have := measDL_ge_length children
    omega
  · apply Prod.Lex.left
    simp only [measD]
    omega

/-- The 16-slot loop of the branch case of `encode_raw`, threading the
encoder state left to right. -/
def encodeChildren (es : EncSt) (children : List Node) : EncSt × Bytes :=
  match children with
  | [] => (es, [])
  | c :: rest =>
    let r := encodeNode es c
    let childPart := match r.2 with
      | RawNodeOrHash.hashRef d => rlpStr d
      | RawNodeOrHash.rawNode raw => raw
    let rr := encodeChildren r.1 rest
    (rr.1, childPart ++ rr.2)
termination_by (measDL children, 2)
decreasing_by
  · simp only [measDL]
    rcases Nat.eq_zero_or_pos (measDL t) with hz | hp
    · rw [hz]
      apply Prod.Lex.right
      omega
    · apply Prod.Lex.left
      omega
  · apply Prod.Lex.left
    simp only [measDL]
    have := measD_pos c
    omega

end

/-! ## Commit and public API (source: `src/trie.rs`) -/

/-- Source: `root()`: encode the current root, flush the cache to the store,
prune `passing` minus `gen`, clear the bookkeeping sets and re-materialize
the root from the store. -/
def rootOp (st : TrieState) : Except TrieError (TrieState × Digest) :=
  let r := encodeNode { cache := st.cache, gen := st.gen } st.root
  let es1 := match r.2 with
    | RawNodeOrHash.rawNode raw =>
      ({ r.1 with cache := assocInsert r.1.cache (keccak256 raw) raw } : EncSt)
    | RawNodeOrHash.hashRef _ => r.1
  let rootHash := match r.2 with
    | RawNodeOrHash.rawNode raw => keccak256 raw
    | RawNodeOrHash.hashRef h => h
  let db1 := es1.cache.foldl (fun db kv => db.insert kv.1 kv.2) st.db
  let removedKeys := st.passing.filter (fun h => !(es1.gen.contains h))
  let db2 := db1.removeBatch removedKeys
  let st1 : TrieState :=
    { root := st.root, rootHash := rootHash, db := db2,
      cache := [], passing := [], gen := [] }
  match recoverFromDb st1 rootHash with
  | Except.error e => Except.error e
  | Except.ok newRoot => Except.ok ({ st1 with root := newRoot }, rootHash)

/-- Source: `PatriciaTrie::new`: fresh trie over a store; the root digest is
the digest of the canonical empty value. -/
def Trie.new (db : MemDB) : TrieState :=
  { root := Node.empty, rootHash := keccak256 nullRlp, db := db,
    cache := [], passing := [], gen := [] }

/-- Source: `PatriciaTrie::from`: build a trie at an existing root digest; a
digest absent from the store is an invalid-state-root error. -/
def Trie.fromDb (db : MemDB) (root : Digest) : Except TrieError TrieState :=
  match db.get root with
  | some data =>
    match decodeNode data with
    | Except.error e => Except.error e
    | Except.ok n =>
      Except.ok
        { root := n, rootHash := root, db := db,
          cache := [], passing := [], gen := [] }
  | none => Except.error TrieError.invalidStateRoot

/-- Source: `get`: lookup under the nibble path of the key. -/
def Trie.getOp (fuel : Nat) (st : TrieState) (key : Bytes) :
    Except TrieError (Option Bytes) :=
  getAt fuel st st.root (Nibbles.fromRaw key true)

/-- Source: `contains`. -/
def Trie.containsOp (fuel : Nat) (st : TrieState) (key : Bytes) :
    Except TrieError Bool :=
  match getAt fuel st st.root (Nibbles.fromRaw key true) with
  | Except.error e => Except.error e
  | Except.ok v => Except.ok v.isSome

/-- Source: `remove`: delete at the key's nibble path and report whether a
deletion happened. -/
def Trie.removeOp (fuel : Nat) (st : TrieState) (key : Bytes) :
    Except TrieError (TrieState × Bool) :=
  match deleteAt fuel st st.root (Nibbles.fromRaw key true) with
  | Except.error e => Except.error e
  | Except.ok (st1, n, removed) => Except.ok ({ st1 with root := n }, removed)

/-- Source: `insert`: an empty value delegates to `remove`. -/
def Trie.insertOp (fuel : Nat) (st : TrieState) (key : Bytes) (value : Bytes) :
    Except TrieError TrieState :=
  if value.isEmpty then
    match Trie.removeOp fuel st key with
    | Except.error e => Except.error e
    | Except.ok (st1, _) => Except.ok st1
  else
    match insertAt fuel st st.root (Nibbles.fromRaw key true) value with
    | Except.error e => Except.error e
    | Except.ok (st1, n) => Except.ok { st1 with root := n }

/-- Source: `get_proof`: collect the store-resolved nodes along the key's
path, reverse them, prepend the root when non-empty, and encode each; the
encoder's cache/gen side effects persist in the trie (as through the
source's `RefCell`). -/
def Trie.getProofOp (fuel : Nat) (st : TrieState) (key : Bytes) :
    Except TrieError (TrieState × List Bytes) :=
  match getPathAt fuel st st.root (Nibbles.fromRaw key true) with
  | Except.error e => Except.error e
  | Except.ok path =>
    let path2 := match st.root with
      | Node.empty => path
      | _ => path ++ [st.root]
    let r := path2.reverse.foldl
      (fun acc n =>
        let e := encodeRaw acc.1 n
        (e.1, acc.2 ++ [e.2]))
      (({ cache := st.cache, gen := st.gen } : EncSt), ([] : List Bytes))
    Except.ok ({ st with cache := r.1.cache, gen := r.1.gen }, r.2)

/-- Source: `verify_proof`: build a fresh light in-memory store from the
proof nodes (keeping a node only when it is the claimed root or at least 32
bytes long), reconstruct a trie at `rootHash` and run `get`; any failure is
an invalid-proof error.  The receiver state is never consulted. -/
def Trie.verifyProof (fuel : Nat) (selfSt : TrieState) (rootHash : Digest)
    (key : Bytes) (proof : List Bytes) : Except TrieError (Option Bytes) :=
  let memdb := proof.foldl
    (fun db node =>
      let h := keccak256 node
      if rootHash = h ∨ 32 ≤ node.length then db.insert h node else db)
    (MemDB.new true)
  match Trie.fromDb memdb rootHash with
  | Except.error _ => Except.error TrieError.invalidProof
  | Except.ok trie =>
    match getAt fuel trie trie.root (Nibbles.fromRaw key true) with
    | Except.error _ => Except.error TrieError.invalidProof
    | Except.ok v => Except.ok v

/-! ## Iteration (source: `TrieIterator` in `src/trie.rs`)

The explicit DFS stack; the stack top is the list head.  `iterNext` is one
call of `Iterator::next` (its internal loop is fuel-bounded), `iterCollect`
drains the iterator. -/

/-- Source: `TraceStatus`. -/
inductive TraceStatus where
  | start : TraceStatus
  | doing : TraceStatus
  | child (i : Nat) : TraceStatus
  | tEnd : TraceStatus
deriving Repr

/-- Source: `TraceNode`. -/
structure TraceNode where
  node : Node
  status : TraceStatus

/-- Source: `TraceNode::advance`. -/
def TraceNode.advance (tn : TraceNode) : TraceNode :=
  { tn with status :=
      match tn.status with
      | TraceStatus.start => TraceStatus.doing
      | TraceStatus.doing =>
        match tn.node with
        | Node.branch _ _ => TraceStatus.child 0
        | _ => TraceStatus.tEnd
      | TraceStatus.child i => if i < 15 then TraceStatus.child (i + 1)
        else TraceStatus.tEnd
      | _ => TraceStatus.tEnd }

/-- The iterator's mutable state: the running nibble path and the DFS stack. -/
structure IterSt where
  nibble : List Nat
  nodes : List TraceNode

/-- Source: `TrieIterator::next`; yields the next raw key and value, or
`none` when the stack is empty, a referenced digest cannot be resolved, or
the loop fuel runs out. -/
def iterNext (fuel : Nat) (st : TrieState) (it : IterSt) :
    Option ((Bytes × Bytes) × IterSt) :=
  match fuel with
  | 0 => none
  | f + 1 =>
    match it.nodes with
    | [] => none
    | now :: restStack =>
      let advanced := now.advance :: restStack
      match now.status, now.node with
      | TraceStatus.tEnd, node =>
        let nib := match node with
          | Node.leaf k _ => it.nibble.take (it.nibble.length - k.length)
          | Node.extension p _ => it.nibble.take (it.nibble.length - p.length)
          | Node.branch _ _ => it.nibble.dropLast
          | _ => it.nibble
        iterNext f st { nibble := nib, nodes := restStack }
      | TraceStatus.doing, Node.extension p child =>
        iterNext f st
          { nibble := it.nibble ++ p,
            nodes := TraceNode.mk child TraceStatus.start :: advanced }
      | TraceStatus.doing, Node.leaf k v =>
        some (((Nibbles.encodeRawN (it.nibble ++ k)).1, v),
          { nibble := it.nibble ++ k, nodes := advanced : IterSt })
      | TraceStatus.doing, Node.branch _ value =>
        match value with
        | none => iterNext f st { it with nodes := advanced }
        | some v => some (((Nibbles.encodeRawN it.nibble).1, v),
            { it with nodes := advanced })
      | TraceStatus.doing, Node.hash d =>
        match recoverFromDb st d with
        | Except.ok n =>
          iterNext f st
            { nibble := it.nibble,
              nodes := TraceNode.mk n TraceStatus.start :: restStack }
        | Except.error _ => none
      | TraceStatus.child i, Node.branch children _ =>
        let nib := if i == 0 then it.nibble ++ [0]
          else it.nibble.dropLast ++ [i]
        iterNext f st
          { nibble := nib,
            nodes := TraceNode.mk (children.getD i Node.empty) TraceStatus.start
              :: advanced }
      | _, Node.empty => iterNext f st { it with nodes := restStack }
      | _, _ => iterNext f st { it with nodes := advanced }

/-- Source: `PatriciaTrie::iter`, the initial iterator state. -/
def Trie.iterStart (st : TrieState) : IterSt :=
  { nibble := Nibbles.fromRaw [] false, nodes := [TraceNode.mk st.root TraceStatus.start] }

/-- Drain the iterator, collecting at most `fuel` pairs. -/
def iterCollect : Nat → TrieState → IterSt → List (Bytes × Bytes)
  | 0, _, _ => []
  | f + 1, st, it =>
    match iterNext (f + 1) st it with
    | none => []
    | some (kv, it2) => kv :: iterCollect f st it2

/-- All key/value pairs yielded by iterating the trie. -/
def Trie.iterAll (fuel : Nat) (st : TrieState) : List (Bytes × Bytes) :=
  iterCollect fuel st (Trie.iterStart st)

/-! ## Specification-side predicates

These predicates are not part of the source; they delimit the states the
quantified claims range over (in-memory trees with no unresolved `HashRef`,
the structural well-formedness the engine maintains, and the shape of key
paths produced by `Nibbles::from_raw(key, true)`). -/

mutual

/-- A node tree with no unresolved `HashRef` (as built by insert/remove
sequences on a fresh trie, before any commit). -/
def hashFreeN : Node → Bool
  | Node.empty => true
  | Node.leaf _ _ => true
  | Node.hash _ => false
  | Node.extension _ c => hashFreeN c
  | Node.branch cs _ => hashFreeL cs

/-- List version of `hashFreeN`. -/
def hashFreeL : List Node → Bool
  | [] => true
  | c :: t => hashFreeN c && hashFreeL t

end

/-- A valid remaining key path: proper nibbles (below 16) followed by the
terminator sentinel 16 (the shape of every suffix of `from_raw(key, true)`
for byte keys). -/
def validSuffixB (p : List Nat) : Bool :=
  (p.getLast? == some 16) && p.dropLast.all (fun x => decide (x < 16))

mutual

/-- Structural well-formedness maintained by the engine: leaf keys are valid
suffixes, extension prefixes are non-empty and terminator-free, and branches
have exactly 16 child slots. -/
def wfN : Node → Bool
  | Node.empty => true
  | Node.leaf k _ => validSuffixB k
  | Node.extension p c => !p.isEmpty && p.all (fun x => decide (x < 16)) && wfN c
  | Node.branch cs _ => cs.length == 16 && wfL cs
  | Node.hash _ => true

/-- List version of `wfN`. -/
def wfL : List Node → Bool
  | [] => true
  | c :: t => wfN c && wfL t

end

/-- Run a sequence of public inserts left to right (the claim-side harness
for quantifying over insertion sequences). -/
def runInserts (fuel : Nat) (st : TrieState) :
    List (Bytes × Bytes) → Except TrieError TrieState
  | [] => Except.ok st
  | (k, v) :: rest =>
    match Trie.insertOp fuel st k v with
    | Except.error e => Except.error e
    | Except.ok st1 => runInserts fuel st1 rest

/-- The last value inserted for `k` in an insertion sequence. -/
def lastInserted (ops : List (Bytes × Bytes)) (k : Bytes) : Option Bytes :=
  (ops.reverse.find? (fun kv => kv.1 == k)).map (fun kv => kv.2)

/-- All bytes of a byte string are below 256 (true of every Rust `&[u8]`). -/
def bytesValid (b : Bytes) : Bool := b.all (fun x => x < 256)

/-! ## Path toolbox: prefix-match lengths and valid suffixes -/

/-- A path fully matches itself. -/
theorem commonLen_refl (p : List Nat) : Nibbles.commonLen p p = p.length := by
  induction p with
  | nil => simp [Nibbles.commonLen]
  | cons a t ih => simp [Nibbles.commonLen, ih]

/-- The two paths agree on their common prefix. -/
theorem commonLen_take (p q : List Nat) :
    p.take (Nibbles.commonLen p q) = q.take (Nibbles.commonLen p q) := by
  induction p generalizing q with
  | nil => simp [Nibbles.commonLen]
  | cons a t ih =>
    cases q with
    | nil => simp [Nibbles.commonLen]
    | cons b s =>
      simp only [Nibbles.commonLen]
      split
      · rename_i h
        simp only [beq_iff_eq] at h
        simp [List.take_succ_cons, h, ih s]
      · simp

/-- Full match against the second argument means the second is a prefix. -/
theorem commonLen_eq_right_iff (p q : List Nat) :
    Nibbles.commonLen p q = q.length ↔ q <+: p := by
  induction q generalizing p with
  | nil => simp [Nibbles.commonLen]
  | cons b s ih =>
    cases p with
    | nil =>
      simp only [Nibbles.commonLen, List.length_cons]
      constructor
      · intro h
        exact absurd h (by omega)
      · intro hp
        have hl := hp.length_le
        simp at hl
    | cons a t =>
      simp only [Nibbles.commonLen]
      split
      · rename_i h
        simp only [beq_iff_eq] at h
        subst h
        simp only [List.length_cons, Nat.add_right_cancel_iff, List.cons_prefix_cons,
          true_and]
        exact ih t
      · rename_i h
        simp only [beq_iff_eq] at h
        constructor
        · simp only [List.length_cons]
          omega
        · intro hp
          rw [List.cons_prefix_cons] at hp
          exact absurd hp.1.symm h

/-- At the end of a partial match the next nibbles differ. -/
theorem commonLen_lt_ne (p q : List Nat)
    (h1 : Nibbles.commonLen p q < p.length) (h2 : Nibbles.commonLen p q < q.length) :
    Nibbles.hexAt p (Nibbles.commonLen p q) ≠ Nibbles.hexAt q (Nibbles.commonLen p q) := by
  induction p generalizing q with
  | nil => simp at h1
  | cons a t ih =>
    cases q with
    | nil => simp at h2
    | cons b s =>
      by_cases h : a = b
      · have hc : Nibbles.commonLen (a :: t) (b :: s) = Nibbles.commonLen t s + 1 := by
          simp [Nibbles.commonLen, h]
        rw [hc] at h1 h2 ⊢
        simp only [List.length_cons] at h1 h2
        simp only [Nibbles.hexAt, List.getD_cons_succ]
        exact ih s (by omega) (by omega)
      · have hc : Nibbles.commonLen (a :: t) (b :: s) = 0 := by
          simp [Nibbles.commonLen, h]
        rw [hc]
        simpa [Nibbles.hexAt] using h

/-- Matching is symmetric. -/
theorem commonLen_comm (p q : List Nat) :
    Nibbles.commonLen p q = Nibbles.commonLen q p := by
  induction p generalizing q with
  | nil => cases q <;> simp [Nibbles.commonLen]
  | cons a t ih =>
    cases q with
    | nil => simp [Nibbles.commonLen]
    | cons b s =>
      simp only [Nibbles.commonLen]
      by_cases h : a = b
      · simp [h, ih s]
      · simp [h, Ne.symm h]

/-- Characterization of valid suffixes: a stem of proper nibbles followed by
the terminator sentinel. -/
theorem validSuffix_iff (p : List Nat) :
    validSuffixB p = true ↔ ∃ s, p = s ++ [16] ∧ ∀ x ∈ s, x < 16 := by
  constructor
  · intro h
    simp only [validSuffixB, Bool.and_eq_true, beq_iff_eq] at h
    rcases h with ⟨hlast, hstem⟩
    have hne : p ≠ [] := by
      intro he
      rw [he] at hlast
      simp at hlast
    refine ⟨p.dropLast, ?_, ?_⟩
    · have h2 := List.dropLast_append_getLast hne
      have h3 := List.getLast?_eq_getLast p hne
      rw [hlast] at h3
      have h4 : p.getLast hne = 16 := by
        injection h3 with h5
        exact h5.symm
      nth_rewrite 1 [← h2]
      rw [h4]
    · intro x hmem
      have := List.all_eq_true.mp hstem x hmem
      simpa using this
  · rintro ⟨s, rfl, hs⟩
    simp only [validSuffixB, Bool.and_eq_true, beq_iff_eq]
    constructor
    · simp [List.getLast?_append]
    · rw [List.dropLast_concat]
      rw [List.all_eq_true]
      intro x hx
      simpa using hs x hx

/-- Stems of valid suffixes never hold the terminator. -/
theorem validSuffix_stem_ne (s : List Nat) (hs : ∀ x ∈ s, x < 16) : (16 : Nat) ∉ s := by
  intro hmem
  have := hs 16 hmem
  omega

/-- A valid suffix is non-empty. -/
theorem validSuffix_ne_nil (p : List Nat) (h : validSuffixB p = true) : p ≠ [] := by
  rcases (validSuffix_iff p).mp h with ⟨s, rfl, _⟩
  simp

/-- Valid suffixes are prefix-free: a full match forces equality. -/
theorem validSuffix_prefix_eq (p q : List Nat) (hp : validSuffixB p = true)
    (hq : validSuffixB q = true) (h : q <+: p) : p = q := by
  rcases Nat.lt_or_ge q.length p.length with hlt | hge
  · exfalso
    rcases (validSuffix_iff p).mp hp with ⟨s, rfl, hs0⟩
    rcases (validSuffix_iff q).mp hq with ⟨t, rfl, ht0⟩
    have hs := validSuffix_stem_ne s hs0
    have hle : t.length + 1 ≤ s.length := by
      simp only [List.length_append, List.length_cons, List.length_nil] at hlt
      omega
    have heq := List.prefix_iff_eq_take.mp h
    have h16 : (16 : Nat) ∈ List.take (t ++ [16]).length (s ++ [16]) := by
      rw [← heq]
      simp
    have hlen2 : (t ++ [16]).length ≤ s.length := by
      simp only [List.length_append, List.length_cons, List.length_nil] at hlt ⊢
      omega
    rw [List.take_append_of_le_length hlen2] at h16
    exact hs (List.mem_of_mem_take h16)
  · exact (List.IsPrefix.eq_of_length h (Nat.le_antisymm (h.length_le) hge)).symm

/-- Dropping less than the whole of a valid suffix leaves a valid suffix. -/
theorem validSuffix_drop (p : List Nat) (k : Nat) (hp : validSuffixB p = true)
    (hk : k < p.length) : validSuffixB (p.drop k) = true := by
  rcases (validSuffix_iff p).mp hp with ⟨s, rfl, hs⟩
  have hks : k ≤ s.length := by
    simp only [List.length_append, List.length_cons, List.length_nil] at hk
    omega
  rw [validSuffix_iff]
  refine ⟨s.drop k, ?_, ?_⟩
  · rw [List.drop_append_of_le_length hks]
  · intro x hmem
    exact hs x (List.mem_of_mem_drop hmem)

/-- The head of a valid suffix is the terminator exactly for the bare
terminator path. -/
theorem validSuffix_head16 (p : List Nat) (hp : validSuffixB p = true) :
    Nibbles.hexAt p 0 = 16 ↔ p = [16] := by
  rcases (validSuffix_iff p).mp hp with ⟨s, rfl, hs0⟩
  have hs := validSuffix_stem_ne s hs0
  cases s with
  | nil => simp [Nibbles.hexAt]
  | cons a t =>
    constructor
    · intro h
      simp only [List.cons_append, Nibbles.hexAt, List.getD_cons_zero] at h
      exact absurd (h ▸ List.mem_cons_self a t) hs
    · intro h
      have := congrArg List.length h
      simp at this

/-- The bare terminator path is a valid suffix. -/
theorem validSuffix_term : validSuffixB [16] = true := by decide

/-- Interior elements of a valid suffix are not the terminator. -/
theorem validSuffix_take16 (p : List Nat) (m : Nat) (hp : validSuffixB p = true)
    (hm : m < p.length) : ∀ x ∈ p.take m, x < 16 := by
  rcases (validSuffix_iff p).mp hp with ⟨s, rfl, hs⟩
  have hms : m ≤ s.length := by
    simp only [List.length_append, List.length_cons, List.length_nil] at hm
    omega
  rw [List.take_append_of_le_length hms]
  intro x hmem
  exact hs x (List.mem_of_mem_take hmem)

/-- The byte-to-nibble expansion used by `from_raw`. -/
theorem fromRaw_true (k : Bytes) :
    Nibbles.fromRaw k true = Nibbles.fromRaw k false ++ [16] := by
  simp [Nibbles.fromRaw]

/-- Byte-wise unfolding of the nibble expansion. -/
theorem fromRaw_false_cons (b : Nat) (t : Bytes) :
    Nibbles.fromRaw (b :: t) false = b / 16 :: b % 16 :: Nibbles.fromRaw t false := by
  simp [Nibbles.fromRaw]

/-- Nibbles of valid bytes are below 16. -/
theorem fromRaw_false_lt (k : Bytes) (hk : bytesValid k = true) :
    ∀ x ∈ Nibbles.fromRaw k false, x < 16 := by
  induction k with
  | nil => simp [Nibbles.fromRaw]
  | cons b t ih =>
    simp only [bytesValid, List.all_cons, Bool.and_eq_true, decide_eq_true_eq] at hk
    intro x hx
    rw [fromRaw_false_cons] at hx
    rcases List.mem_cons.mp hx with rfl | hx2
    · omega
    · rcases List.mem_cons.mp hx2 with rfl | hx3
      · omega
      · exact ih hk.2 x hx3

/-- The nibble path of a key is a valid suffix. -/
theorem fromRaw_validSuffix (k : Bytes) (hk : bytesValid k = true) :
    validSuffixB (Nibbles.fromRaw k true) = true := by
  rw [validSuffix_iff, fromRaw_true]
  exact ⟨Nibbles.fromRaw k false, rfl, fromRaw_false_lt k hk⟩

/-- Keys are recoverable from their nibble paths. -/
theorem fromRaw_false_inj (k1 k2 : Bytes)
    (h : Nibbles.fromRaw k1 false = Nibbles.fromRaw k2 false) : k1 = k2 := by
  induction k1 generalizing k2 with
  | nil =>
    cases k2 with
    | nil => rfl
    | cons b t => simp [Nibbles.fromRaw] at h
  | cons a s ih =>
    cases k2 with
    | nil => simp [Nibbles.fromRaw] at h
    | cons b t =>
      rw [fromRaw_false_cons, fromRaw_false_cons] at h
      injection h with h1 h2
      injection h2 with h2 h3
      have hab : a = b := by
        have da := Nat.div_add_mod a 16
        have db := Nat.div_add_mod b 16
        omega
      subst hab
      have := ih t h3
      simp [this]

/-- Nibble paths of keys are injective. -/
theorem fromRaw_true_inj (k1 k2 : Bytes)
    (h : Nibbles.fromRaw k1 true = Nibbles.fromRaw k2 true) : k1 = k2 := by
  apply fromRaw_false_inj
  have h2 := congrArg List.dropLast (fromRaw_true k1 ▸ fromRaw_true k2 ▸ h)
  simpa [List.dropLast_concat] using h2

/-! ## Predicate helpers for node lists -/

/-- Membership form of `hashFreeL`. -/
theorem hashFreeL_mem (cs : List Node) (h : hashFreeL cs = true) :
    ∀ c ∈ cs, hashFreeN c = true := by
  induction cs with
  | nil => simp
  | cons c t ih =>
    simp only [hashFreeL, Bool.and_eq_true] at h
    intro x hx
    rcases List.mem_cons.mp hx with rfl | hx2
    · exact h.1
    · exact ih h.2 x hx2

/-- Selecting a child of a hash-free list is hash-free. -/
theorem hashFreeL_getD (cs : List Node) (i : Nat) (h : hashFreeL cs = true) :
    hashFreeN (cs.getD i Node.empty) = true := by
  rcases Nat.lt_or_ge i cs.length with hi | hi
  · rw [List.getD_eq_getElem cs Node.empty hi]
    exact hashFreeL_mem cs h _ (List.getElem_mem hi)
  · rw [List.getD_eq_default]
    · simp [hashFreeN]
    · exact hi

/-- Setting a hash-free child keeps a list hash-free. -/
theorem hashFreeL_set (cs : List Node) (i : Nat) (x : Node)
    (h : hashFreeL cs = true) (hx : hashFreeN x = true) :
    hashFreeL (cs.set i x) = true := by
  induction cs generalizing i with
  | nil => simpa using h
  | cons c t ih =>
    simp only [hashFreeL, Bool.and_eq_true] at h
    cases i with
    | zero => simp [List.set, hashFreeL, hx, h.2]
    | succ j => simp [List.set, hashFreeL, h.1, ih j h.2]

/-- Membership form of `wfL`. -/
theorem wfL_mem (cs : List Node) (h : wfL cs = true) :
    ∀ c ∈ cs, wfN c = true := by
  induction cs with
  | nil => simp
  | cons c t ih =>
    simp only [wfL, Bool.and_eq_true] at h
    intro x hx
    rcases List.mem_cons.mp hx with rfl | hx2
    · exact h.1
    · exact ih h.2 x hx2

/-- Selecting a child of a well-formed list is well-formed. -/
theorem wfL_getD (cs : List Node) (i : Nat) (h : wfL cs = true) :
    wfN (cs.getD i Node.empty) = true := by
  rcases Nat.lt_or_ge i cs.length with hi | hi
  · rw [List.getD_eq_getElem cs Node.empty hi]
    exact wfL_mem cs h _ (List.getElem_mem hi)
  · rw [List.getD_eq_default]
    · simp [wfN]
    · exact hi

/-- Setting a well-formed child keeps a list well-formed. -/
theorem wfL_set (cs : List Node) (i : Nat) (x : Node)
    (h : wfL cs = true) (hx : wfN x = true) : wfL (cs.set i x) = true := by
  induction cs generalizing i with
  | nil => simpa using h
  | cons c t ih =>
    simp only [wfL, Bool.and_eq_true] at h
    cases i with
    | zero => simp [List.set, wfL, hx, h.2]
    | succ j => simp [List.set, wfL, h.1, ih j h.2]

/-- The fresh child slots are hash-free and well-formed. -/
theorem emptyChildren_preds :
    hashFreeL emptyChildren = true ∧ wfL emptyChildren = true ∧
      emptyChildren.length = 16 := by decide

/-! ## Lookup-shape lemmas for `getAt` -/

/-- Lookup at a leaf compares the whole remaining path. -/
theorem getAt_leaf_eq (f : Nat) (s : TrieState) (k v q : List Nat) :
    getAt f s (Node.leaf k v) q =
      if q = k then Except.ok (some v) else Except.ok none := by
  rw [getAt]
  by_cases h : k = q
  · simp [h]
  · simp [h, Ne.symm h]

/-- Lookup at a branch on a valid suffix: the bare terminator reads the
value, anything else descends into the indexed child. -/
theorem getAt_branch_eq (f : Nat) (s : TrieState) (cs : List Node)
    (v : Option Bytes) (q : List Nat) (hq : validSuffixB q = true) :
    getAt f s (Node.branch cs v) q =
      if q = [16] then Except.ok v
      else getAt f s (cs.getD (Nibbles.hexAt q 0) Node.empty) (q.drop 1) := by
  rw [getAt]
  have hne := validSuffix_ne_nil q hq
  by_cases h : q = [16]
  · simp [h, Nibbles.hexAt]
  · have h16 : Nibbles.hexAt q 0 ≠ 16 := by
      intro hc
      exact h ((validSuffix_head16 q hq).mp hc)
    simp [hne, h16, h, Nibbles.offsetBy, List.isEmpty_iff]

/-- Lookup at an extension matches the prefix then descends. -/
theorem getAt_ext_eq (f : Nat) (s : TrieState) (pfx : List Nat) (c : Node)
    (q : List Nat) :
    getAt f s (Node.extension pfx c) q =
      if Nibbles.commonLen q pfx = pfx.length then getAt f s c (q.drop pfx.length)
      else Except.ok none := by
  rw [getAt]
  by_cases h : Nibbles.commonLen q pfx = pfx.length
  · simp [h, Nibbles.offsetBy]
  · simp [h]

/-- A prefix of an append splits into two prefix conditions. -/
theorem append_prefix_iff (a b q : List Nat) :
    (a ++ b) <+: q ↔ a <+: q ∧ b <+: q.drop a.length := by
  constructor
  · rintro ⟨r, rfl⟩
    constructor
    · exact ⟨b ++ r, by simp⟩
    · rw [List.append_assoc, List.drop_left]
      exact ⟨r, rfl⟩
  · rintro ⟨⟨r1, hr1⟩, ⟨r2, hr2⟩⟩
    have hd : q.drop a.length = r1 := by rw [← hr1, List.drop_left]
    refine ⟨r2, ?_⟩
    rw [List.append_assoc, hr2, hd, hr1]

/-- Two nonempty paths agree exactly when their heads and tails agree. -/
theorem headTail_ext (p q : List Nat) (hp : p ≠ []) (hq : q ≠ []) :
    p = q ↔ Nibbles.hexAt p 0 = Nibbles.hexAt q 0 ∧ p.drop 1 = q.drop 1 := by
  rcases p with _ | ⟨a, t⟩
  · exact absurd rfl hp
  · rcases q with _ | ⟨b, s⟩
    · exact absurd rfl hq
    · simp [Nibbles.hexAt]

/-- Agreement on initial segments below the match length. -/
theorem take_eq_of_le_commonLen (p q : List Nat) (m : Nat)
    (h : m ≤ Nibbles.commonLen p q) : p.take m = q.take m := by
  have h1 := commonLen_take p q
  have h2 : p.take m = (p.take (Nibbles.commonLen p q)).take m := by
    rw [List.take_take, Nat.min_eq_left h]
  have h3 : q.take m = (q.take (Nibbles.commonLen p q)).take m := by
    rw [List.take_take, Nat.min_eq_left h]
  rw [h2, h3, h1]

/-- Indexing a freshly set slot of the empty children. -/
theorem getD_set_emptyChildren (i j : Nat) (x : Node) (hi : i < 16) :
    (emptyChildren.set i x).getD j Node.empty =
      if j = i then x else Node.empty := by
  by_cases h : j = i
  · subst h
    rw [List.getD_eq_getElem _ _ (by simpa [emptyChildren] using hi)]
    simp [List.getElem_set_self]
  · rcases Nat.lt_or_ge j 16 with hj | hj
    · rw [List.getD_eq_getElem _ _ (by simpa [emptyChildren] using hj)]
      rw [List.getElem_set_ne (by omega), if_neg h]
      simp only [emptyChildren, List.getElem_replicate]
    · rw [List.getD_eq_default _ _ (by simpa [emptyChildren] using hj)]
      simp [h]

/-- Indexing a set slot of an arbitrary child list. -/
theorem getD_set_node (cs : List Node) (i j : Nat) (x : Node) (hi : i < cs.length) :
    (cs.set i x).getD j Node.empty =
      if j = i then x else cs.getD j Node.empty := by
  by_cases h : j = i
  · subst h
    rw [List.getD_eq_getElem _ _ (by simpa using hi)]
    simp [List.getElem_set_self]
  · rcases Nat.lt_or_ge j cs.length with hj | hj
    · rw [List.getD_eq_getElem _ _ (by simpa using hj)]
      rw [List.getElem_set_ne (by omega), if_neg h]
      rw [List.getD_eq_getElem _ _ hj]
    · rw [List.getD_eq_default _ _ (by simpa using hj)]
      rw [List.getD_eq_default _ _ hj]
      simp [h]

/-- A valid suffix other than the bare terminator has a proper head nibble
and a valid tail. -/
theorem validSuffix_step (q : List Nat) (hq : validSuffixB q = true)
    (hne : q ≠ [16]) :
    Nibbles.hexAt q 0 < 16 ∧ validSuffixB (q.drop 1) = true ∧ 2 ≤ q.length := by
  rcases (validSuffix_iff q).mp hq with ⟨s, rfl, hs⟩
  cases s with
  | nil => exact absurd rfl hne
  | cons a t =>
    refine ⟨?_, ?_, ?_⟩
    · simpa [Nibbles.hexAt] using hs a (by simp)
    · rw [validSuffix_iff]
      exact ⟨t, by simp, fun x hx => hs x (by simp [hx])⟩
    · simp

/-- Index shift of `hexAt` under `drop`. -/
theorem hexAt_drop (l : List Nat) (m : Nat) :
    Nibbles.hexAt (l.drop m) 0 = Nibbles.hexAt l m := by
  simp [Nibbles.hexAt, List.getD_eq_getElem?_getD, List.getElem?_drop]

/-- Composition of tail drops. -/
theorem drop_one_drop (l : List Nat) (m : Nat) :
    (l.drop m).drop 1 = l.drop (m + 1) := by
  rw [List.drop_drop]

/-- Extensionality by a take/drop split at any index. -/
theorem takeDrop_ext (p q : List Nat) (m : Nat) :
    p = q ↔ p.take m = q.take m ∧ p.drop m = q.drop m := by
  constructor
  · rintro rfl
    exact ⟨rfl, rfl⟩
  · rintro ⟨h1, h2⟩
    rw [← List.take_append_drop m p, ← List.take_append_drop m q, h1, h2]

/-- The semantics of the two-leaf branch built by the leaf-split case of
insertion: the branch maps `pp` to `v`, `key1` to `v0` and everything else
to nothing. -/
theorem splitBranch_spec (key1 pp : List Nat) (v0 v : Bytes) (cs2 : List Node)
    (v2 : Option Bytes)
    (hk : validSuffixB key1 = true) (hp : validSuffixB pp = true)
    (hne : Nibbles.hexAt pp 0 ≠ Nibbles.hexAt key1 0)
    (hP : branchInsert
        (branchInsert emptyChildren none (Nibbles.hexAt key1 0)
          (Node.fromLeaf (key1.drop 1) v0)).1
        (branchInsert emptyChildren none (Nibbles.hexAt key1 0)
          (Node.fromLeaf (key1.drop 1) v0)).2
        (Nibbles.hexAt pp 0) (Node.fromLeaf (pp.drop 1) v) = (cs2, v2)) :
    hashFreeN (Node.branch cs2 v2) = true ∧ wfN (Node.branch cs2 v2) = true ∧
    ∀ q, validSuffixB q = true → ∀ f s,
      getAt f s (Node.branch cs2 v2) q =
        if q = pp then Except.ok (some v)
        else if q = key1 then Except.ok (some v0) else Except.ok none := by
  by_cases hA : Nibbles.hexAt key1 0 = 16
  · -- the old leaf's remaining path is the bare terminator: its value moves
    -- into the branch value slot
    have hk16 : key1 = [16] := (validSuffix_head16 key1 hk).mp hA
    have hB : Nibbles.hexAt pp 0 ≠ 16 := fun hc => hne (hc.trans hA.symm)
    have hpp : pp ≠ [16] := fun hc => hB (by rw [hc]; rfl)
    rcases validSuffix_step pp hp hpp with ⟨hblt, hbval, hblen⟩
    simp only [branchInsert, Node.fromLeaf, beq_iff_eq] at hP
    rw [if_pos hA] at hP
    rw [if_neg hB] at hP
    dsimp only at hP
    injection hP with hcs hv2
    subst hcs
    subst hv2
    refine ⟨?_, ?_, ?_⟩
    · simp only [hashFreeN]
      exact hashFreeL_set emptyChildren _ _ emptyChildren_preds.1 (by simp [hashFreeN])
    · simp only [wfN, Bool.and_eq_true]
      constructor
      · simp [emptyChildren]
      · refine wfL_set emptyChildren _ _ emptyChildren_preds.2.1 ?_
        simp only [wfN]
        exact hbval
    · intro q hq f s
      rw [getAt_branch_eq f s _ _ q hq]
      by_cases hq16 : q = [16]
      · rw [if_pos hq16, if_neg (by rw [hq16]; exact fun hc => hpp hc.symm),
          if_pos (hq16.trans hk16.symm)]
      · rw [if_neg hq16]
        rw [getD_set_emptyChildren _ _ _ hblt]
        rcases validSuffix_step q hq hq16 with ⟨hqlt, hqval, hqlen⟩
        by_cases hj : Nibbles.hexAt q 0 = Nibbles.hexAt pp 0
        · rw [if_pos hj, getAt_leaf_eq]
          have hiff : q = pp ↔ q.drop 1 = pp.drop 1 := by
            rw [headTail_ext q pp (validSuffix_ne_nil q hq) (validSuffix_ne_nil pp hp)]
            simp [hj]
          by_cases ht : q.drop 1 = pp.drop 1
          · rw [if_pos ht, if_pos (hiff.mpr ht)]
          · rw [if_neg ht, if_neg (fun hc => ht (hiff.mp hc)),
              if_neg (fun hc => hq16 (hc.trans hk16))]
        · rw [if_neg hj]
          rw [if_neg (fun hc => hj (by rw [hc])), if_neg (fun hc => hq16 (hc.trans hk16))]
          rw [getAt]
  · -- the old leaf keeps a proper head nibble
    have hkne : key1 ≠ [16] := fun hc => hA (by rw [hc]; rfl)
    rcases validSuffix_step key1 hk hkne with ⟨halt, haval, halen⟩
    by_cases hB : Nibbles.hexAt pp 0 = 16
    · -- the new path is the bare terminator: the new value goes into the
      -- branch value slot
      have hp16 : pp = [16] := (validSuffix_head16 pp hp).mp hB
      simp only [branchInsert, Node.fromLeaf, beq_iff_eq] at hP
      rw [if_neg hA] at hP
      rw [if_pos hB] at hP
      dsimp only at hP
      injection hP with hcs hv2
      subst hcs
      subst hv2
      refine ⟨?_, ?_, ?_⟩
      · simp only [hashFreeN]
        exact hashFreeL_set emptyChildren _ _ emptyChildren_preds.1 (by simp [hashFreeN])
      · simp only [wfN, Bool.and_eq_true]
        constructor
        · simp [emptyChildren]
        · refine wfL_set emptyChildren _ _ emptyChildren_preds.2.1 ?_
          simp only [wfN]
          exact haval
      · intro q hq f s
        rw [getAt_branch_eq f s _ _ q hq]
        by_cases hq16 : q = [16]
        · rw [if_pos hq16, if_pos (hq16.trans hp16.symm)]
        · rw [if_neg hq16]
          rw [getD_set_emptyChildren _ _ _ halt]
          rcases validSuffix_step q hq hq16 with ⟨hqlt, hqval, hqlen⟩
          by_cases hj : Nibbles.hexAt q 0 = Nibbles.hexAt key1 0
          · rw [if_pos hj, getAt_leaf_eq]
            have hiff : q = key1 ↔ q.drop 1 = key1.drop 1 := by
              rw [headTail_ext q key1 (validSuffix_ne_nil q hq) (validSuffix_ne_nil key1 hk)]
              simp [hj]
            by_cases ht : q.drop 1 = key1.drop 1
            · rw [if_pos ht, if_neg (fun hc => hq16 (hc.trans hp16)), if_pos (hiff.mpr ht)]
            · rw [if_neg ht, if_neg (fun hc => hq16 (hc.trans hp16)),
                if_neg (fun hc => ht (hiff.mp hc))]
          · rw [if_neg hj]
            rw [if_neg (fun hc => hq16 (hc.trans hp16)), if_neg (fun hc => hj (by rw [hc]))]
            rw [getAt]
    · -- both remaining paths keep proper head nibbles
      have hpne : pp ≠ [16] := fun hc => hB (by rw [hc]; rfl)
      rcases validSuffix_step pp hp hpne with ⟨hblt, hbval, hblen⟩
      simp only [branchInsert, Node.fromLeaf, beq_iff_eq] at hP
      rw [if_neg hA] at hP
      rw [if_neg hB] at hP
      dsimp only at hP
      injection hP with hcs hv2
      subst hcs
      subst hv2
      have hlen1 : (emptyChildren.set (Nibbles.hexAt key1 0)
          (Node.leaf (key1.drop 1) v0)).length = 16 := by
        simp [emptyChildren]
      refine ⟨?_, ?_, ?_⟩
      · simp only [hashFreeN]
        refine hashFreeL_set _ _ _ ?_ (by simp [hashFreeN])
        exact hashFreeL_set emptyChildren _ _ emptyChildren_preds.1 (by simp [hashFreeN])
      · simp only [wfN, Bool.and_eq_true]
        constructor
        · simp [emptyChildren]
        · refine wfL_set _ _ _ ?_ ?_
          · refine wfL_set emptyChildren _ _ emptyChildren_preds.2.1 ?_
            simp only [wfN]
            exact haval
          · simp only [wfN]
            exact hbval
      · intro q hq f s
        rw [getAt_branch_eq f s _ _ q hq]
        by_cases hq16 : q = [16]
        · rw [if_pos hq16, if_neg (fun hc => hpne (hq16 ▸ hc).symm),
            if_neg (fun hc => hkne (hq16 ▸ hc).symm)]
        · rw [if_neg hq16]
          rcases validSuffix_step q hq hq16 with ⟨hqlt, hqval, hqlen⟩
          rw [getD_set_node _ _ _ _ (by rw [hlen1]; exact hblt)]
          by_cases hjB : Nibbles.hexAt q 0 = Nibbles.hexAt pp 0
          · rw [if_pos hjB, getAt_leaf_eq]
            have hiff : q = pp ↔ q.drop 1 = pp.drop 1 := by
              rw [headTail_ext q pp (validSuffix_ne_nil q hq) (validSuffix_ne_nil pp hp)]
              simp [hjB]
            by_cases ht : q.drop 1 = pp.drop 1
            · rw [if_pos ht, if_pos (hiff.mpr ht)]
            · rw [if_neg ht, if_neg (fun hc => ht (hiff.mp hc)),
                if_neg (fun hc => hne (by rw [← hc]; exact hjB.symm))]
          · rw [if_neg hjB]
            rw [getD_set_emptyChildren _ _ _ halt]
            by_cases hjA : Nibbles.hexAt q 0 = Nibbles.hexAt key1 0
            · rw [if_pos hjA, getAt_leaf_eq]
              have hiff : q = key1 ↔ q.drop 1 = key1.drop 1 := by
                rw [headTail_ext q key1 (validSuffix_ne_nil q hq) (validSuffix_ne_nil key1 hk)]
                simp [hjA]
              by_cases ht : q.drop 1 = key1.drop 1
              · rw [if_pos ht, if_neg (fun hc => hjB (by rw [hc])), if_pos (hiff.mpr ht)]
              · rw [if_neg ht, if_neg (fun hc => hjB (by rw [hc])),
                  if_neg (fun hc => ht (hiff.mp hc))]
            · rw [if_neg hjA]
              rw [if_neg (fun hc => hjB (by rw [hc])), if_neg (fun hc => hjA (by rw [hc]))]
              rw [getAt]

/-- Lookup at the Empty node finds nothing. -/
theorem getAt_empty_eq (f : Nat) (s : TrieState) (q : List Nat) :
    getAt f s Node.empty q = Except.ok none := by
  rw [getAt]

/-- The head of a non-empty path is one of its elements. -/
theorem hexAt_zero_mem (l : List Nat) (h : l ≠ []) : Nibbles.hexAt l 0 ∈ l := by
  cases l with
  | nil => exact absurd rfl h
  | cons a t => simp [Nibbles.hexAt]

/-- Head unfolding of the prefix-match length. -/
theorem commonLen_cons_cons (x a : Nat) (t r : List Nat) :
    Nibbles.commonLen (x :: t) (a :: r) =
      if x = a then Nibbles.commonLen t r + 1 else 0 := by
  by_cases h : x = a
  · simp [Nibbles.commonLen, h]
  · simp [Nibbles.commonLen, h]

/-- Full match against an append decomposes at the seam. -/
theorem commonLen_append_full (q a b : List Nat) :
    Nibbles.commonLen q (a ++ b) = (a ++ b).length ↔
      (Nibbles.commonLen q a = a.length ∧
        Nibbles.commonLen (q.drop a.length) b = b.length) := by
  rw [commonLen_eq_right_iff, commonLen_eq_right_iff, commonLen_eq_right_iff]
  exact append_prefix_iff a b q

/-- The semantics of the branch built by the extension-split case of
insertion: it looks up exactly as the original extension. -/
theorem extSplit_get (pref : List Nat) (sub : Node) (q : List Nat)
    (hq : validSuffixB q = true) (hpne : pref ≠ [])
    (hplt : ∀ x ∈ pref, x < 16) (cs2 : List Node) (v2 : Option Bytes)
    (hP : branchInsert emptyChildren none (Nibbles.hexAt pref 0)
        (if pref.length == 1 then sub else Node.fromExtension (pref.drop 1) sub) =
          (cs2, v2)) (f : Nat) (s : TrieState) :
    getAt f s (Node.branch cs2 v2) q = getAt f s (Node.extension pref sub) q := by
  have hi0 : Nibbles.hexAt pref 0 < 16 := hplt _ (hexAt_zero_mem pref hpne)
  simp only [branchInsert, beq_iff_eq] at hP
  rw [if_neg (by omega)] at hP
  injection hP with hcs hv2
  subst hcs
  subst hv2
  rw [getAt_branch_eq f s _ _ q hq, getAt_ext_eq]
  rcases pref with _ | ⟨a, r⟩
  · exact absurd rfl hpne
  · have hi0a : Nibbles.hexAt (a :: r) 0 = a := rfl
    by_cases hq16 : q = [16]
    · rw [if_pos hq16]
      have hc0 : Nibbles.commonLen q (a :: r) = 0 := by
        rw [hq16, commonLen_cons_cons]
        rw [hi0a] at hi0
        rw [if_neg (by omega)]
      rw [if_neg (by rw [hc0]; simp)]
    · rw [if_neg hq16]
      rcases validSuffix_step q hq hq16 with ⟨hqlt, hqval, hqlen⟩
      rcases q with _ | ⟨x, t⟩
      · exact absurd rfl (validSuffix_ne_nil _ hq)
      · have hxj : Nibbles.hexAt (x :: t) 0 = x := rfl
        rw [commonLen_cons_cons]
        rw [hi0a, getD_set_emptyChildren _ _ _ (by rw [hi0a] at hi0; exact hi0)]
        by_cases hxa : x = a
        · rw [if_pos hxa, if_pos (by rw [hxj, hxa])]
          by_cases hr1 : (a :: r).length = 1
          · have hr : r = [] := by
              simp only [List.length_cons] at hr1
              exact List.eq_nil_of_length_eq_zero (by omega)
            rw [if_pos hr1]
            subst hr
            rw [if_pos (by simp [Nibbles.commonLen])]
            simp [Nibbles.commonLen]
          · rw [if_neg hr1]
            simp only [Node.fromExtension, List.drop_one, List.tail_cons]
            rw [getAt_ext_eq]
            by_cases hm : Nibbles.commonLen t r = r.length
            · rw [if_pos hm, if_pos (by simp only [List.length_cons]; omega)]
              congr 1
            · rw [if_neg hm, if_neg (by simp only [List.length_cons]; omega)]
        · rw [if_neg hxa, if_neg (by rw [hxj]; exact hxa)]
          rw [if_neg (by simp only [List.length_cons]; omega)]
          exact getAt_empty_eq f s t

/-- A valid suffix contains the terminator. -/
theorem validSuffix_mem16 (p : List Nat) (hp : validSuffixB p = true) : (16 : Nat) ∈ p := by
  rcases (validSuffix_iff p).mp hp with ⟨s, rfl, _⟩
  simp

/-- A valid suffix is never exhausted by matching against a terminator-free
sequence. -/
theorem validSuffix_commonLen_lt (p r : List Nat) (hp : validSuffixB p = true)
    (hr : ∀ x ∈ r, x < 16) : Nibbles.commonLen p r < p.length := by
  have hle1 := commonLen_le_left p r
  rcases Nat.lt_or_ge (Nibbles.commonLen p r) p.length with h | h
  · exact h
  · exfalso
    have heq : Nibbles.commonLen p r = p.length := Nat.le_antisymm hle1 h
    have hpre : p <+: r := by
      rw [commonLen_comm] at heq
      exact (commonLen_eq_right_iff r p).mp heq
    have h16 := validSuffix_mem16 p hp
    exact absurd (hr 16 (hpre.subset h16)) (by omega)

/-- A zero-length match between non-empty sequences means the heads differ. -/
theorem commonLen_zero_head_ne (p q : List Nat) (hp : p ≠ []) (hq : q ≠ [])
    (h : Nibbles.commonLen p q = 0) : Nibbles.hexAt p 0 ≠ Nibbles.hexAt q 0 := by
  have h1 : 0 < p.length := List.length_pos.mpr hp
  have h2 : 0 < q.length := List.length_pos.mpr hq
  have hne := commonLen_lt_ne p q (by rw [h]; exact h1) (by rw [h]; exact h2)
  rwa [h] at hne

/-- The branch built by the extension-split case of insertion is hash-free
and well-formed when its source extension is. -/
theorem extSplit_preds (pref : List Nat) (sub : Node)
    (hpne : pref ≠ []) (hplt : ∀ x ∈ pref, x < 16)
    (hfc : hashFreeN sub = true) (hwc : wfN sub = true) (cs2 : List Node)
    (v2 : Option Bytes)
    (hP : branchInsert emptyChildren none (Nibbles.hexAt pref 0)
        (if pref.length == 1 then sub else Node.fromExtension (pref.drop 1) sub) =
          (cs2, v2)) :
    hashFreeN (Node.branch cs2 v2) = true ∧ wfN (Node.branch cs2 v2) = true := by
  have hi0 : Nibbles.hexAt pref 0 < 16 := hplt _ (hexAt_zero_mem pref hpne)
  simp only [branchInsert, beq_iff_eq] at hP
  rw [if_neg (by omega)] at hP
  injection hP with hcs hv2
  subst hcs
  subst hv2
  constructor
  · simp only [hashFreeN]
    refine hashFreeL_set _ _ _ emptyChildren_preds.1 ?_
    by_cases h1 : pref.length = 1
    · rw [if_pos h1]
      exact hfc
    · rw [if_neg h1]
      simpa [Node.fromExtension, hashFreeN] using hfc
  · simp only [wfN, Bool.and_eq_true, beq_iff_eq]
    refine ⟨by simp [emptyChildren], ?_⟩
    refine wfL_set _ _ _ emptyChildren_preds.2.1 ?_
    by_cases h1 : pref.length = 1
    · rw [if_pos h1]
      exact hwc
    · rw [if_neg h1]
      simp only [Node.fromExtension, wfN, Bool.and_eq_true]
      have hlen1 : pref.length ≠ 1 := h1
      have hlen0 : 0 < pref.length := List.length_pos.mpr hpne
      have hne2 : pref.drop 1 ≠ [] := by
        intro hc
        have hlc := congrArg List.length hc
        simp only [List.length_drop, List.length_nil] at hlc
        omega
      refine ⟨⟨by simpa [List.isEmpty_iff, List.drop_one] using hne2, ?_⟩, hwc⟩
      rw [List.all_eq_true]
      intro x hx
      simp only [decide_eq_true_eq]
      exact hplt x (List.mem_of_mem_drop hx)

theorem insertAt_spec (fuel : Nat) (st : TrieState) (n : Node) (p : List Nat) (v : Bytes) :
    hashFreeN n = true → wfN n = true → validSuffixB p = true →
    ∃ n2 : Node,
      (∀ f (s : TrieState), insertAt f s n p v = Except.ok (s, n2)) ∧
      hashFreeN n2 = true ∧ wfN n2 = true ∧
      ∀ q, validSuffixB q = true → ∀ f (s : TrieState),
        getAt f s n2 q = if q = p then Except.ok (some v) else getAt f s n q := by
  induction fuel, st, n, p, v using insertAt.induct with
  | case1 fuel st part value =>
    intro _ _ hp
    refine ⟨Node.fromLeaf part value, ?_, ?_, ?_, ?_⟩
    · intro f s
      rw [insertAt]
    · simp [Node.fromLeaf, hashFreeN]
    · simp only [Node.fromLeaf, wfN]
      exact hp
    · intro q hq f s
      simp only [Node.fromLeaf]
      rw [getAt_leaf_eq, getAt_empty_eq]
  | case2 fuel st part value key value1 hm0 hbeq =>
    intro hf hw hp
    have hm : Nibbles.commonLen part key = key.length := by simpa [hm0] using hbeq
    have hkey : part = key := by
      apply validSuffix_prefix_eq part key hp hw
      exact (commonLen_eq_right_iff part key).mp hm
    refine ⟨Node.leaf key value, ?_, by simp [hashFreeN], by simpa [wfN] using hw, ?_⟩
    · intro f s
      rw [insertAt]
      simp only [beq_iff_eq, if_pos hm]
    · intro q hq f s
      rw [getAt_leaf_eq, getAt_leaf_eq]
      rw [← hkey]
      by_cases h : q = part
      · rw [if_pos h, if_pos h]
      · rw [if_neg h, if_neg h, if_neg h]
  | case5 fuel st part value children value1 hm =>
    intro hf hw hp
    simp only [beq_iff_eq] at hm
    have hp16 : part = [16] := (validSuffix_head16 part hp).mp hm
    refine ⟨Node.branch children (some value), ?_, by simpa [hashFreeN] using hf,
      ?_, ?_⟩
    · intro f s
      rw [insertAt]
      simp only [beq_iff_eq]
      rw [if_pos hm]
    · simp only [wfN] at hw ⊢
      exact hw
    · intro q hq f s
      rw [getAt_branch_eq f s _ _ q hq, getAt_branch_eq f s _ _ q hq]
      by_cases h : q = [16]
      · rw [if_pos h, if_pos h, if_pos (h.trans hp16.symm)]
      · rw [if_neg h, if_neg h, if_neg (fun hc => h (hc.trans hp16))]
  | case6 fuel st part value children value0 h16 e heq ih =>
    intro hf hw hp
    exfalso
    have h16' : Nibbles.hexAt part 0 ≠ 16 := by simpa using h16
    have hpne : part ≠ [16] := fun hc => h16' (by rw [hc]; rfl)
    rcases validSuffix_step part hp hpne with ⟨hlt, hval, hlen⟩
    simp only [hashFreeN] at hf
    simp only [wfN, Bool.and_eq_true, beq_iff_eq] at hw
    rcases ih (hashFreeL_getD children _ hf) (wfL_getD children _ hw.2) hval with
      ⟨n2, huniv, _⟩
    exact Except.noConfusion ((huniv fuel st).symm.trans heq)
  | case8 fuel st part value pref child hemp =>
    intro hf hw hp
    exfalso
    simp [wfN, hemp] at hw
  | case10 fuel st part value pref child hm0 hnemp hne0 heqL e heq ih =>
    intro hf hw hp
    exfalso
    have hm : Nibbles.commonLen part pref = pref.length := by simpa [hm0] using heqL
    simp only [hashFreeN] at hf
    simp only [wfN, Bool.and_eq_true] at hw
    rcases hw with ⟨⟨h1, h2⟩, h3⟩
    have hplt : ∀ x ∈ pref, x < 16 := by
      intro x hx
      simpa using List.all_eq_true.mp h2 x hx
    have hml : Nibbles.commonLen part pref < part.length :=
      validSuffix_commonLen_lt part pref hp hplt
    have hval2 : validSuffixB (Nibbles.offsetBy part hm0) = true := by
      show validSuffixB (part.drop (Nibbles.commonLen part pref)) = true
      exact validSuffix_drop part _ hp hml
    rcases ih hf h3 hval2 with ⟨n2, huniv, _⟩
    exact Except.noConfusion ((huniv fuel st).symm.trans heq)
  | case12 fuel st part value pref child hm0 hnemp hne0 hneL e heq ih =>
    intro hf hw hp
    exfalso
    simp only [hashFreeN] at hf
    simp only [wfN, Bool.and_eq_true] at hw
    rcases hw with ⟨⟨h1, h2⟩, h3⟩
    have hprefne : pref ≠ [] := by
      intro hc
      rw [hc] at h1
      simp at h1
    have hplt : ∀ x ∈ pref, x < 16 := by
      intro x hx
      simpa using List.all_eq_true.mp h2 x hx
    have hne0' : Nibbles.commonLen part pref ≠ 0 := by simpa [hm0] using hne0
    have hneL' : Nibbles.commonLen part pref ≠ pref.length := by simpa [hm0] using hneL
    have hmlep : Nibbles.commonLen part pref ≤ pref.length := commonLen_le_right part pref
    have hml : Nibbles.commonLen part pref < part.length :=
      validSuffix_commonLen_lt part pref hp hplt
    have hfe : hashFreeN (Node.fromExtension (Nibbles.offsetBy pref hm0) child) = true := by
      simpa [Node.fromExtension, hashFreeN] using hf
    have hwe : wfN (Node.fromExtension (Nibbles.offsetBy pref hm0) child) = true := by
      show wfN (Node.extension (pref.drop (Nibbles.commonLen part pref)) child) = true
      simp only [wfN, Bool.and_eq_true]
      have hdne : pref.drop (Nibbles.commonLen part pref) ≠ [] := by
        intro hc
        have hlc := congrArg List.length hc
        simp only [List.length_drop, List.length_nil] at hlc
        omega
      refine ⟨⟨by simpa [List.isEmpty_iff] using hdne, ?_⟩, h3⟩
      rw [List.all_eq_true]
      intro x hx
      simp only [decide_eq_true_eq]
      exact hplt x (List.mem_of_mem_drop hx)
    have hval2 : validSuffixB (Nibbles.offsetBy part hm0) = true := by
      show validSuffixB (part.drop (Nibbles.commonLen part pref)) = true
      exact validSuffix_drop part _ hp hml
    rcases ih hfe hwe hval2 with ⟨n2, huniv, _⟩
    exact Except.noConfusion ((huniv fuel st).symm.trans heq)
  | case14 st part value d =>
    intro hf hw hp
    simp [hashFreeN] at hf
  | case15 st part value d st1 f e heq =>
    intro hf hw hp
    simp [hashFreeN] at hf
  | case16 st part value d st1 f n2 heq ih =>
    intro hf hw hp
    simp [hashFreeN] at hf
  | case7 fuel st part value children value0 h16 st1 newChild heq ih =>
    intro hf hw hp
    have h16' : Nibbles.hexAt part 0 ≠ 16 := by simpa using h16
    have hpne : part ≠ [16] := fun hc => h16' (by rw [hc]; rfl)
    rcases validSuffix_step part hp hpne with ⟨hlt, hval, hlen⟩
    simp only [hashFreeN] at hf
    simp only [wfN, Bool.and_eq_true, beq_iff_eq] at hw
    rcases ih (hashFreeL_getD children _ hf) (wfL_getD children _ hw.2) hval with
      ⟨n2, huniv, hn2f, hn2w, hget⟩
    have hjlt : Nibbles.hexAt part 0 < children.length := by
      rw [hw.1]
      exact hlt
    refine ⟨Node.branch (children.set (Nibbles.hexAt part 0) n2) value0, ?_, ?_, ?_, ?_⟩
    · intro f s
      rw [insertAt]
      rw [if_neg (by simpa using h16)]
      rw [huniv f s]
    · simp only [hashFreeN]
      exact hashFreeL_set children _ _ hf hn2f
    · simp only [wfN, Bool.and_eq_true, beq_iff_eq]
      exact ⟨by rw [List.length_set]; exact hw.1, wfL_set children _ _ hw.2 hn2w⟩
    · intro q hq f s
      rw [getAt_branch_eq f s _ _ q hq, getAt_branch_eq f s _ _ q hq]
      by_cases hq16 : q = [16]
      · rw [if_pos hq16, if_neg (fun hc => hpne (hc.symm.trans hq16)), if_pos hq16]
      · rw [if_neg hq16]
        rcases validSuffix_step q hq hq16 with ⟨hqlt, hqval, hqlen⟩
        rw [getD_set_node _ _ _ _ hjlt]
        by_cases hj : Nibbles.hexAt q 0 = Nibbles.hexAt part 0
        · rw [if_pos hj, hget (q.drop 1) hqval f s]
          have hiff : q = part ↔ q.drop 1 = Nibbles.offsetBy part 1 := by
            rw [headTail_ext q part (validSuffix_ne_nil q hq) (validSuffix_ne_nil part hp)]
            simp [hj, Nibbles.offsetBy]
          by_cases ht : q.drop 1 = Nibbles.offsetBy part 1
          · rw [if_pos ht, if_pos (hiff.mpr ht)]
          · rw [if_neg ht, if_neg (fun hc => ht (hiff.mp hc)), if_neg hq16, hj]
        · rw [if_neg hj, if_neg (fun hc : q = part => hj (by rw [hc])), if_neg hq16]
  | case9 fuel st part value pref child hm0 hnemp heq0 hp1 ih =>
    intro hf hw hp
    simp only [hashFreeN] at hf
    simp only [wfN, Bool.and_eq_true] at hw
    rcases hw with ⟨⟨h1, h2⟩, h3⟩
    have hprefne : pref ≠ [] := by
      intro hc
      rw [hc] at h1
      simp at h1
    have hplt : ∀ x ∈ pref, x < 16 := by
      intro x hx
      simpa using List.all_eq_true.mp h2 x hx
    have hP : branchInsert emptyChildren none (Nibbles.hexAt pref 0)
        (if pref.length == 1 then child
         else Node.fromExtension (pref.drop 1) child) = (hp1.1, hp1.2) := rfl
    obtain ⟨hbf, hbw⟩ := extSplit_preds pref child hprefne hplt hf h3 hp1.1 hp1.2 hP
    rcases ih hbf hbw hp with ⟨n2, huniv, hn2f, hn2w, hget⟩
    refine ⟨n2, ?_, hn2f, hn2w, ?_⟩
    · intro f s
      rw [insertAt]
      have hnemp' : ¬pref.isEmpty = true := hnemp
      have heq0' : (Nibbles.commonLen part pref == 0) = true := heq0
      simp only [dif_neg hnemp', dif_pos heq0']
      exact huniv f s
    · intro q hq f s
      rw [hget q hq f s]
      by_cases hqp : q = part
      · rw [if_pos hqp, if_pos hqp]
      · rw [if_neg hqp, if_neg hqp]
        exact extSplit_get pref child q hq hprefne hplt hp1.1 hp1.2 hP f s
  | case11 fuel st part value pref child hm0 hnemp hne0 heqL st1 newNode heq ih =>
    intro hf hw hp
    have hm : Nibbles.commonLen part pref = pref.length := by simpa [hm0] using heqL
    simp only [hashFreeN] at hf
    simp only [wfN, Bool.and_eq_true] at hw
    rcases hw with ⟨⟨h1, h2⟩, h3⟩
    have hprefne : pref ≠ [] := by
      intro hc
      rw [hc] at h1
      simp at h1
    have hplt : ∀ x ∈ pref, x < 16 := by
      intro x hx
      simpa using List.all_eq_true.mp h2 x hx
    have hml : Nibbles.commonLen part pref < part.length :=
      validSuffix_commonLen_lt part pref hp hplt
    have hval2 : validSuffixB (Nibbles.offsetBy part hm0) = true := by
      show validSuffixB (part.drop (Nibbles.commonLen part pref)) = true
      exact validSuffix_drop part _ hp hml
    rcases ih hf h3 hval2 with ⟨n2, huniv, hn2f, hn2w, hget⟩
    have huniv' : ∀ f (s : TrieState), insertAt f s child
        (Nibbles.offsetBy part (Nibbles.commonLen part pref)) value =
          Except.ok (s, n2) := huniv
    have hget' : ∀ q, validSuffixB q = true → ∀ f (s : TrieState),
        getAt f s n2 q =
          if q = part.drop pref.length then Except.ok (some value)
          else getAt f s child q := by
      intro q hq f s
      have hx := hget q hq f s
      rwa [show Nibbles.offsetBy part hm0 = part.drop pref.length from by
        show part.drop (Nibbles.commonLen part pref) = part.drop pref.length
        rw [hm]] at hx
    refine ⟨Node.extension pref n2, ?_, ?_, ?_, ?_⟩
    · intro f s
      rw [insertAt]
      have hnemp' : ¬pref.isEmpty = true := hnemp
      have hne0' : ¬(Nibbles.commonLen part pref == 0) = true := hne0
      have heqL' : (Nibbles.commonLen part pref == pref.length) = true := heqL
      simp only [dif_neg hnemp', dif_neg hne0', dif_pos heqL']
      rw [huniv' f s]
      rfl
    · simpa [hashFreeN] using hn2f
    · simp only [wfN, Bool.and_eq_true]
      exact ⟨⟨h1, h2⟩, hn2w⟩
    · intro q hq f s
      rw [getAt_ext_eq, getAt_ext_eq]
      by_cases hmq : Nibbles.commonLen q pref = pref.length
      · rw [if_pos hmq, if_pos hmq]
        have hqml : Nibbles.commonLen q pref < q.length :=
          validSuffix_commonLen_lt q pref hq hplt
        have hqval : validSuffixB (q.drop pref.length) = true := by
          rw [← hmq]
          exact validSuffix_drop q _ hq hqml
        rw [hget' (q.drop pref.length) hqval f s]
        have h1q : q.take pref.length = pref := by
          have hpre := (commonLen_eq_right_iff q pref).mp hmq
          exact (List.prefix_iff_eq_take.mp hpre).symm
        have h1p : part.take pref.length = pref := by
          have hpre := (commonLen_eq_right_iff part pref).mp hm
          exact (List.prefix_iff_eq_take.mp hpre).symm
        have hiff : q = part ↔ q.drop pref.length = part.drop pref.length := by
          rw [takeDrop_ext q part pref.length]
          simp [h1q, h1p]
        by_cases ht : q.drop pref.length = part.drop pref.length
        · rw [if_pos ht, if_pos (hiff.mpr ht)]
        · rw [if_neg ht, if_neg (fun hc => ht (hiff.mp hc))]
      · rw [if_neg hmq, if_neg hmq,
          if_neg (fun hc : q = part => hmq (by rw [hc]; exact hm))]
  | case13 fuel st part value pref child hm0 hnemp hne0 hneL st1 newNode heq ih =>
    intro hf hw hp
    simp only [hashFreeN] at hf
    simp only [wfN, Bool.and_eq_true] at hw
    rcases hw with ⟨⟨h1, h2⟩, h3⟩
    have hprefne : pref ≠ [] := by
      intro hc
      rw [hc] at h1
      simp at h1
    have hplt : ∀ x ∈ pref, x < 16 := by
      intro x hx
      simpa using List.all_eq_true.mp h2 x hx
    have hne0' : Nibbles.commonLen part pref ≠ 0 := by simpa [hm0] using hne0
    have hneL' : Nibbles.commonLen part pref ≠ pref.length := by simpa [hm0] using hneL
    have hmlep : Nibbles.commonLen part pref ≤ pref.length := commonLen_le_right part pref
    have hmltp : Nibbles.commonLen part pref < pref.length :=
      lt_of_le_of_ne hmlep hneL'
    have hml : Nibbles.commonLen part pref < part.length :=
      validSuffix_commonLen_lt part pref hp hplt
    have hfe : hashFreeN (Node.fromExtension (Nibbles.offsetBy pref hm0) child) = true := by
      simpa [Node.fromExtension, hashFreeN] using hf
    have hwe : wfN (Node.fromExtension (Nibbles.offsetBy pref hm0) child) = true := by
      show wfN (Node.extension (pref.drop (Nibbles.commonLen part pref)) child) = true
      simp only [wfN, Bool.and_eq_true]
      have hdne : pref.drop (Nibbles.commonLen part pref) ≠ [] := by
        intro hc
        have hlc := congrArg List.length hc
        simp only [List.length_drop, List.length_nil] at hlc
        omega
      refine ⟨⟨by simpa [List.isEmpty_iff] using hdne, ?_⟩, h3⟩
      rw [List.all_eq_true]
      intro x hx
      simp only [decide_eq_true_eq]
      exact hplt x (List.mem_of_mem_drop hx)
    have hval2 : validSuffixB (Nibbles.offsetBy part hm0) = true := by
      show validSuffixB (part.drop (Nibbles.commonLen part pref)) = true
      exact validSuffix_drop part _ hp hml
    rcases ih hfe hwe hval2 with ⟨n2, huniv, hn2f, hn2w, hget⟩
    have huniv' : ∀ f (s : TrieState), insertAt f s
        (Node.fromExtension (Nibbles.offsetBy pref (Nibbles.commonLen part pref)) child)
        (Nibbles.offsetBy part (Nibbles.commonLen part pref)) value =
          Except.ok (s, n2) := huniv
    have hget' : ∀ q, validSuffixB q = true → ∀ f (s : TrieState),
        getAt f s n2 q =
          if q = part.drop (Nibbles.commonLen part pref) then Except.ok (some value)
          else getAt f s (Node.extension (pref.drop (Nibbles.commonLen part pref)) child) q :=
      hget
    have hlenTake : (pref.take (Nibbles.commonLen part pref)).length =
        Nibbles.commonLen part pref := by
      rw [List.length_take, Nat.min_eq_left (le_of_lt hmltp)]
    have hptake : part.take (Nibbles.commonLen part pref) =
        pref.take (Nibbles.commonLen part pref) :=
      take_eq_of_le_commonLen part pref _ (le_refl _)
    refine ⟨Node.extension (pref.take (Nibbles.commonLen part pref)) n2, ?_, ?_, ?_, ?_⟩
    · intro f s
      rw [insertAt]
      have hnemp' : ¬pref.isEmpty = true := hnemp
      have hne0b : ¬(Nibbles.commonLen part pref == 0) = true := hne0
      have hneLb : ¬(Nibbles.commonLen part pref == pref.length) = true := hneL
      simp only [dif_neg hnemp', dif_neg hne0b, dif_neg hneLb]
      rw [huniv' f s]
      rfl
    · simpa [hashFreeN] using hn2f
    · simp only [wfN, Bool.and_eq_true]
      have htne : pref.take (Nibbles.commonLen part pref) ≠ [] := by
        intro hc
        have hlc := congrArg List.length hc
        rw [hlenTake] at hlc
        simp only [List.length_nil] at hlc
        exact hne0' hlc
      refine ⟨⟨by simpa [List.isEmpty_iff] using htne, ?_⟩, hn2w⟩
      rw [List.all_eq_true]
      intro x hx
      simp only [decide_eq_true_eq]
      exact hplt x (List.mem_of_mem_take hx)
    · intro q hq f s
      rw [getAt_ext_eq, getAt_ext_eq, hlenTake]
      have htlt : ∀ x ∈ pref.take (Nibbles.commonLen part pref), x < 16 :=
        fun x hx => hplt x (List.mem_of_mem_take hx)
      have hsplit := commonLen_append_full q (pref.take (Nibbles.commonLen part pref))
        (pref.drop (Nibbles.commonLen part pref))
      rw [List.take_append_drop, hlenTake] at hsplit
      by_cases hmq : Nibbles.commonLen q (pref.take (Nibbles.commonLen part pref)) =
          Nibbles.commonLen part pref
      · rw [if_pos hmq]
        have hpre : pref.take (Nibbles.commonLen part pref) <+: q := by
          apply (commonLen_eq_right_iff q _).mp
          rw [hlenTake]
          exact hmq
        have hqtake : q.take (Nibbles.commonLen part pref) =
            pref.take (Nibbles.commonLen part pref) := by
          have hx := List.prefix_iff_eq_take.mp hpre
          rw [hlenTake] at hx
          exact hx.symm
        have hqml : Nibbles.commonLen part pref < q.length := by
          have hx := validSuffix_commonLen_lt q (pref.take (Nibbles.commonLen part pref)) hq htlt
          rw [hmq] at hx
          exact hx
        have hqval : validSuffixB (q.drop (Nibbles.commonLen part pref)) = true :=
          validSuffix_drop q _ hq hqml
        rw [hget' (q.drop (Nibbles.commonLen part pref)) hqval f s]
        have hiff : q = part ↔ q.drop (Nibbles.commonLen part pref) =
            part.drop (Nibbles.commonLen part pref) := by
          rw [takeDrop_ext q part (Nibbles.commonLen part pref)]
          simp [hqtake, hptake]
        by_cases ht : q.drop (Nibbles.commonLen part pref) =
            part.drop (Nibbles.commonLen part pref)
        · rw [if_pos ht, if_pos (hiff.mpr ht)]
        · rw [if_neg ht, if_neg (fun hc => ht (hiff.mp hc)), getAt_ext_eq]
          have hcond : Nibbles.commonLen q pref = pref.length ↔
              Nibbles.commonLen (q.drop (Nibbles.commonLen part pref))
                (pref.drop (Nibbles.commonLen part pref)) =
                  (pref.drop (Nibbles.commonLen part pref)).length := by
            rw [hsplit]
            simp [hmq]
          by_cases hc2 : Nibbles.commonLen (q.drop (Nibbles.commonLen part pref))
              (pref.drop (Nibbles.commonLen part pref)) =
                (pref.drop (Nibbles.commonLen part pref)).length
          · rw [if_pos hc2, if_pos (hcond.mpr hc2)]
            have harg : (q.drop (Nibbles.commonLen part pref)).drop
                ((pref.drop (Nibbles.commonLen part pref)).length) = q.drop pref.length := by
              rw [List.drop_drop, List.length_drop]
              congr 1
              omega
            rw [harg]
          · rw [if_neg hc2, if_neg (fun hcc => hc2 (hcond.mp hcc))]
      · rw [if_neg hmq]
        have hpartm : Nibbles.commonLen part (pref.take (Nibbles.commonLen part pref)) =
            Nibbles.commonLen part pref := by
          have hpre : pref.take (Nibbles.commonLen part pref) <+: part := by
            rw [← hptake]
            exact List.take_prefix _ _
          have hx := (commonLen_eq_right_iff part _).mpr hpre
          rw [hlenTake] at hx
          exact hx
        rw [if_neg (fun hc : q = part => hmq (by rw [hc]; exact hpartm))]
        have hrno : ¬Nibbles.commonLen q pref = pref.length := by
          intro hcc
          exact hmq (hsplit.mp hcc).1
        rw [if_neg hrno]
  | case3 fuel st part value key value1 hm0 hne1 heq0 =>
    intro hf hw hp
    have hm : Nibbles.commonLen part key = 0 := by simpa [hm0] using heq0
    have hkv : validSuffixB key = true := by simpa [wfN] using hw
    have hne : Nibbles.hexAt part 0 ≠ Nibbles.hexAt key 0 :=
      commonLen_zero_head_ne part key (validSuffix_ne_nil part hp)
        (validSuffix_ne_nil key hkv) hm
    obtain ⟨cs2, v2, hP⟩ : ∃ cs2 v2, branchInsert
        (branchInsert emptyChildren none (Nibbles.hexAt key 0)
          (Node.fromLeaf (key.drop 1) value1)).1
        (branchInsert emptyChildren none (Nibbles.hexAt key 0)
          (Node.fromLeaf (key.drop 1) value1)).2
        (Nibbles.hexAt part 0) (Node.fromLeaf (part.drop 1) value) = (cs2, v2) :=
      ⟨_, _, rfl⟩
    obtain ⟨hbf, hbw, hget⟩ := splitBranch_spec key part value1 value cs2 v2 hkv hp hne hP
    refine ⟨Node.branch cs2 v2, ?_, hbf, hbw, ?_⟩
    · intro f s
      rw [insertAt]
      have hne1' : ¬(Nibbles.commonLen part key == key.length) = true := hne1
      have heq0' : (Nibbles.commonLen part key == 0) = true := heq0
      simp only [if_neg hne1', if_pos heq0']
      rw [hm]
      simp only [Nibbles.offsetBy, Nat.zero_add]
      rw [hP]
    · intro q hq f s
      rw [hget q hq f s, getAt_leaf_eq]
  | case4 fuel st part value key value1 hm0 hne1 hne0 =>
    intro hf hw hp
    have hne1' : Nibbles.commonLen part key ≠ key.length := by simpa [hm0] using hne1
    have hne0' : Nibbles.commonLen part key ≠ 0 := by simpa [hm0] using hne0
    have hkv : validSuffixB key = true := by simpa [wfN] using hw
    have hmk : Nibbles.commonLen part key < key.length :=
      lt_of_le_of_ne (commonLen_le_right part key) hne1'
    have hmp : Nibbles.commonLen part key < part.length := by
      rcases Nat.lt_or_ge (Nibbles.commonLen part key) part.length with h | h
      · exact h
      · exfalso
        have heq : Nibbles.commonLen part key = part.length :=
          Nat.le_antisymm (commonLen_le_left part key) h
        have hpre : part <+: key := by
          rw [commonLen_comm] at heq
          exact (commonLen_eq_right_iff key part).mp heq
        have hkp : key = part := validSuffix_prefix_eq key part hkv hp hpre
        apply hne1'
        rw [hkp, commonLen_refl]
    have hkdv : validSuffixB (key.drop (Nibbles.commonLen part key)) = true :=
      validSuffix_drop key _ hkv hmk
    have hpdv : validSuffixB (part.drop (Nibbles.commonLen part key)) = true :=
      validSuffix_drop part _ hp hmp
    have hne : Nibbles.hexAt (part.drop (Nibbles.commonLen part key)) 0 ≠
        Nibbles.hexAt (key.drop (Nibbles.commonLen part key)) 0 := by
      rw [hexAt_drop, hexAt_drop]
      exact commonLen_lt_ne part key hmp hmk
    obtain ⟨cs2, v2, hP⟩ : ∃ cs2 v2, branchInsert
        (branchInsert emptyChildren none
          (Nibbles.hexAt (key.drop (Nibbles.commonLen part key)) 0)
          (Node.fromLeaf ((key.drop (Nibbles.commonLen part key)).drop 1) value1)).1
        (branchInsert emptyChildren none
          (Nibbles.hexAt (key.drop (Nibbles.commonLen part key)) 0)
          (Node.fromLeaf ((key.drop (Nibbles.commonLen part key)).drop 1) value1)).2
        (Nibbles.hexAt (part.drop (Nibbles.commonLen part key)) 0)
        (Node.fromLeaf ((part.drop (Nibbles.commonLen part key)).drop 1) value) =
          (cs2, v2) := ⟨_, _, rfl⟩
    obtain ⟨hbf, hbw, hget⟩ := splitBranch_spec (key.drop (Nibbles.commonLen part key))
      (part.drop (Nibbles.commonLen part key)) value1 value cs2 v2 hkdv hpdv hne hP
    have hlenTake : (part.take (Nibbles.commonLen part key)).length =
        Nibbles.commonLen part key := by
      rw [List.length_take, Nat.min_eq_left (le_of_lt hmp)]
    have hktake : part.take (Nibbles.commonLen part key) =
        key.take (Nibbles.commonLen part key) :=
      take_eq_of_le_commonLen part key _ (le_refl _)
    refine ⟨Node.extension (part.take (Nibbles.commonLen part key)) (Node.branch cs2 v2),
      ?_, ?_, ?_, ?_⟩
    · intro f s
      rw [insertAt]
      have hne1b : ¬(Nibbles.commonLen part key == key.length) = true := hne1
      have hne0b : ¬(Nibbles.commonLen part key == 0) = true := hne0
      simp only [if_neg hne1b, if_neg hne0b]
      rw [← hexAt_drop key (Nibbles.commonLen part key),
        ← hexAt_drop part (Nibbles.commonLen part key)]
      simp only [Nibbles.offsetBy, Nibbles.slice]
      rw [← List.drop_drop 1 (Nibbles.commonLen part key) key,
        ← List.drop_drop 1 (Nibbles.commonLen part key) part]
      rw [hP]
      rfl
    · simpa [hashFreeN] using hbf
    · simp only [wfN, Bool.and_eq_true]
      have htne : part.take (Nibbles.commonLen part key) ≠ [] := by
        intro hc
        have hlc := congrArg List.length hc
        rw [hlenTake] at hlc
        simp only [List.length_nil] at hlc
        exact hne0' hlc
      refine ⟨⟨by simpa [List.isEmpty_iff] using htne, ?_⟩,
        by simpa [wfN, Bool.and_eq_true] using hbw⟩
      rw [List.all_eq_true]
      intro x hx
      simp only [decide_eq_true_eq]
      exact validSuffix_take16 part _ hp hmp x hx
    · intro q hq f s
      rw [getAt_ext_eq, getAt_leaf_eq, hlenTake]
      have htlt : ∀ x ∈ part.take (Nibbles.commonLen part key), x < 16 :=
        validSuffix_take16 part _ hp hmp
      by_cases hmq : Nibbles.commonLen q (part.take (Nibbles.commonLen part key)) =
          Nibbles.commonLen part key
      · rw [if_pos hmq]
        have hpre : part.take (Nibbles.commonLen part key) <+: q := by
          apply (commonLen_eq_right_iff q _).mp
          rw [hlenTake]
          exact hmq
        have hqtake : q.take (Nibbles.commonLen part key) =
            part.take (Nibbles.commonLen part key) := by
          have hx := List.prefix_iff_eq_take.mp hpre
          rw [hlenTake] at hx
          exact hx.symm
        have hqml : Nibbles.commonLen part key < q.length := by
          have hx := validSuffix_commonLen_lt q (part.take (Nibbles.commonLen part key)) hq htlt
          rw [hmq] at hx
          exact hx
        have hqval : validSuffixB (q.drop (Nibbles.commonLen part key)) = true :=
          validSuffix_drop q _ hq hqml
        rw [hget (q.drop (Nibbles.commonLen part key)) hqval f s]
        have hiffp : q = part ↔ q.drop (Nibbles.commonLen part key) =
            part.drop (Nibbles.commonLen part key) := by
          rw [takeDrop_ext q part (Nibbles.commonLen part key)]
          simp [hqtake]
        have hiffk : q = key ↔ q.drop (Nibbles.commonLen part key) =
            key.drop (Nibbles.commonLen part key) := by
          rw [takeDrop_ext q key (Nibbles.commonLen part key)]
          rw [hqtake, hktake]
          simp
        by_cases ht1 : q.drop (Nibbles.commonLen part key) =
            part.drop (Nibbles.commonLen part key)
        · rw [if_pos ht1, if_pos (hiffp.mpr ht1)]
        · rw [if_neg ht1, if_neg (fun hc => ht1 (hiffp.mp hc))]
          by_cases ht2 : q.drop (Nibbles.commonLen part key) =
              key.drop (Nibbles.commonLen part key)
          · rw [if_pos ht2, if_pos (hiffk.mpr ht2)]
          · rw [if_neg ht2, if_neg (fun hc => ht2 (hiffk.mp hc))]
      · rw [if_neg hmq]
        have hpartm : Nibbles.commonLen part (part.take (Nibbles.commonLen part key)) =
            Nibbles.commonLen part key := by
          have hx := (commonLen_eq_right_iff part
            (part.take (Nibbles.commonLen part key))).mpr
              (List.take_prefix (Nibbles.commonLen part key) part)
          rw [hlenTake] at hx
          exact hx
        have hkeym : Nibbles.commonLen key (part.take (Nibbles.commonLen part key)) =
            Nibbles.commonLen part key := by
          have hpre : part.take (Nibbles.commonLen part key) <+: key := by
            rw [hktake]
            exact List.take_prefix _ _
          have hx := (commonLen_eq_right_iff key _).mpr hpre
          rw [hlenTake] at hx
          exact hx
        rw [if_neg (fun hc : q = part => hmq (by rw [hc]; exact hpartm)),
          if_neg (fun hc : q = key => hmq (by rw [hc]; exact hkeym))]

/-- Unfolding of the last-inserted value over a leading insert. -/
theorem lastInserted_cons (k0 v0 : Bytes) (rest : List (Bytes × Bytes)) (k : Bytes) :
    lastInserted ((k0, v0) :: rest) k =
      match lastInserted rest k with
      | some v => some v
      | none => if k0 = k then some v0 else none := by
  simp only [lastInserted, List.reverse_cons, List.find?_append]
  cases hfind : List.find? (fun kv => kv.1 == k) rest.reverse with
  | some kv => simp [Option.or]
  | none =>
    simp only [Option.or]
    by_cases hk : k0 = k
    · simp [List.find?, hk]
    · simp only [List.find?]
      rw [show (k0 == k) = false from beq_eq_false_iff_ne.mpr hk]
      simp [hk]

/-- Running a sequence of raw-key inserts with non-empty values on a
hash-free well-formed root succeeds with a state-independent result, and
the final root looks up every key to its last inserted value. -/
theorem runInserts_spec (ops : List (Bytes × Bytes)) (st : TrieState)
    (hf : hashFreeN st.root = true) (hw : wfN st.root = true)
    (hops : ∀ kv ∈ ops, bytesValid kv.1 = true ∧ kv.2 ≠ []) :
    ∃ st2 : TrieState,
      (∀ f, runInserts f st ops = Except.ok st2) ∧
      hashFreeN st2.root = true ∧ wfN st2.root = true ∧
      ∀ k, bytesValid k = true → ∀ f (s : TrieState),
        getAt f s st2.root (Nibbles.fromRaw k true) =
          match lastInserted ops k with
          | some v => Except.ok (some v)
          | none => getAt f s st.root (Nibbles.fromRaw k true) := by
  induction ops generalizing st with
  | nil =>
    refine ⟨st, ?_, hf, hw, ?_⟩
    · intro f
      rw [runInserts]
    · intro k hk f s
      simp [lastInserted]
  | cons kv rest ih =>
    obtain ⟨k0, v0⟩ := kv
    have hk0 : bytesValid k0 = true := (hops (k0, v0) (by simp)).1
    have hv0 : v0 ≠ [] := (hops (k0, v0) (by simp)).2
    have hv0' : ¬(v0.isEmpty = true) := by simpa [List.isEmpty_iff] using hv0
    rcases insertAt_spec 0 st st.root (Nibbles.fromRaw k0 true) v0 hf hw
      (fromRaw_validSuffix k0 hk0) with ⟨n2, huniv, hn2f, hn2w, hget⟩
    rcases ih { st with root := n2 } hn2f hn2w
      (fun kv2 hkv2 => hops kv2 (by simp [hkv2])) with ⟨st2, hrun, hf2, hw2, hget2⟩
    refine ⟨st2, ?_, hf2, hw2, ?_⟩
    · intro f
      rw [runInserts]
      rw [show Trie.insertOp f st k0 v0 = Except.ok { st with root := n2 } from by
        rw [Trie.insertOp, if_neg hv0', huniv f st]]
      exact hrun f
    · intro k hk f s
      rw [hget2 k hk f s, lastInserted_cons]
      cases hl : lastInserted rest k with
      | some v => rfl
      | none =>
        show getAt f s n2 (Nibbles.fromRaw k true) = _
        rw [hget (Nibbles.fromRaw k true) (fromRaw_validSuffix k hk) f s]
        by_cases hkk : k0 = k
        · rw [if_pos (by rw [hkk]), if_pos hkk]
        · rw [if_neg (fun hc => hkk (fromRaw_true_inj k k0 hc).symm), if_neg hkk]

/-- C2: from a fresh trie, any sequence of inserts with non-empty values
and no intervening removes succeeds, and afterwards every key inserted in
the sequence reads back the last value inserted for it. -/
theorem claim_c2_insert_sequence_get_last (db : MemDB) (ops : List (Bytes × Bytes))
    (hops : ∀ kv ∈ ops, bytesValid kv.1 = true ∧ kv.2 ≠ [])
    (k : Bytes) (hk : k ∈ ops.map Prod.fst) :
    ∃ st2 : TrieState, ∃ v : Bytes,
      (∀ f, runInserts f (Trie.new db) ops = Except.ok st2) ∧
      lastInserted ops k = some v ∧
      ∀ f, Trie.getOp f st2 k = Except.ok (some v) := by
  rcases List.mem_map.mp hk with ⟨kv, hkv, hfst⟩
  have hkval : bytesValid k = true := by
    rw [← hfst]
    exact (hops kv hkv).1
  rcases runInserts_spec ops (Trie.new db) (by simp [Trie.new, hashFreeN])
    (by simp [Trie.new, wfN]) hops with ⟨st2, hrun, hf2, hw2, hget2⟩
  have hsome : ∃ v, lastInserted ops k = some v := by
    have hfindsome : (List.find? (fun x => x.1 == k) ops.reverse).isSome := by
      rw [List.find?_isSome]
      exact ⟨kv, List.mem_reverse.mpr hkv, by simp [hfst]⟩
    rcases Option.isSome_iff_exists.mp hfindsome with ⟨x, hx⟩
    exact ⟨x.2, by simp [lastInserted, hx]⟩
  rcases hsome with ⟨v, hv⟩
  refine ⟨st2, v, hrun, hv, ?_⟩
  intro f
  rw [Trie.getOp]
  have hx := hget2 k hkval f st2
  rw [hv] at hx
  exact hx

/-- Witness for C2 at a concrete one-insert sequence. -/
theorem claim_c2_insert_sequence_get_last_witness :
    ∃ st2 : TrieState, ∃ v : Bytes,
      (∀ f, runInserts f (Trie.new ⟨true, []⟩) [([0], [1])] = Except.ok st2) ∧
      lastInserted [([0], [1])] [0] = some v ∧
      ∀ f, Trie.getOp f st2 [0] = Except.ok (some v) :=
  claim_c2_insert_sequence_get_last ⟨true, []⟩ [([0], [1])]
    (by decide) [0] (by decide)

theorem rlpProto_not_isr (b : Bytes) :
    rlpProto b ≠ Except.error TrieError.invalidStateRoot := by
  rw [rlpProto]
  repeat' split
  all_goals simp

theorem rlpAtRaw_not_isr (b : Bytes) (i : Nat) :
    rlpAtRaw b i ≠ Except.error TrieError.invalidStateRoot := by
  rw [rlpAtRaw]
  repeat' split
  all_goals simp

theorem rlpDataOf_not_isr (b : Bytes) :
    rlpDataOf b ≠ Except.error TrieError.invalidStateRoot := by
  rw [rlpDataOf]
  repeat' split
  all_goals simp

theorem decode_not_isr (fuel : Nat) :
    (∀ data, decodeNodeF fuel data ≠ Except.error TrieError.invalidStateRoot) ∧
      (∀ items, decodeChildrenF fuel items ≠
        Except.error TrieError.invalidStateRoot) := by
  induction fuel with
  | zero =>
    have hnode : ∀ data, decodeNodeF 0 data ≠
        Except.error TrieError.invalidStateRoot := by
      intro data
      rw [decodeNodeF]
      simp
    refine ⟨hnode, ?_⟩
    intro items
    induction items with
    | nil =>
      rw [decodeChildrenF]
      simp
    | cons it rest ihr =>
      rw [decodeChildrenF]
      cases h1 : decodeNodeF 0 it with
      | error e =>
        intro hc
        injection hc with hc2
        subst hc2
        exact hnode it h1
      | ok n =>
        cases h2 : decodeChildrenF 0 rest with
        | error e =>
          intro hc
          injection hc with hc2
          subst hc2
          exact ihr h2
        | ok ns => simp
  | succ fuel ih =>
    have hnode : ∀ data, decodeNodeF (fuel + 1) data ≠
        Except.error TrieError.invalidStateRoot := by
      intro data hc
      rw [decodeNodeF] at hc
      repeat' split at hc
      all_goals try simp only [ite_self] at hc
      all_goals repeat' split at hc
      all_goals
        first
        | exact Except.noConfusion hc
        | (injection hc with hc2
           first
           | exact TrieError.noConfusion hc2
           | (subst hc2
              first
              | exact rlpProto_not_isr _ ‹_›
              | exact rlpAtRaw_not_isr _ _ ‹_›
              | exact rlpDataOf_not_isr _ ‹_›
              | exact ih.1 _ ‹_›
              | exact ih.2 _ ‹_›))
    refine ⟨hnode, ?_⟩
    intro items
    induction items with
    | nil =>
      rw [decodeChildrenF]
      simp
    | cons it rest ihr =>
      rw [decodeChildrenF]
      cases h1 : decodeNodeF (fuel + 1) it with
      | error e =>
        intro hc
        injection hc with hc2
        subst hc2
        exact hnode it h1
      | ok n =>
        cases h2 : decodeChildrenF (fuel + 1) rest with
        | error e =>
          intro hc
          injection hc with hc2
          subst hc2
          exact ihr h2
        | ok ns => simp

theorem degenerate_db : ∀ fuel st n st1 n1,
    degenerate fuel st n = Except.ok (st1, n1) → st1.db = st.db := by
  intro fuel st n
  induction fuel, st, n using degenerate.induct
  all_goals intro sta na heq
  case case7 st pref d st1 f e hx =>
    rw [degenerate] at heq
    have hx2 : recoverFromDb { st with passing := insertKey st.passing d } d =
        Except.error e := hx
    simp only [hx2] at heq
    exact Except.noConfusion heq
  case case8 st pref d st1 f n hx ih =>
    rw [degenerate] at heq
    have hx2 : recoverFromDb { st with passing := insertKey st.passing d } d =
        Except.ok n := hx
    simp only [hx2] at heq
    exact ih sta na heq
  all_goals rw [degenerate.eq_def] at heq
  all_goals repeat' split at heq
  all_goals try exact Except.noConfusion heq
  all_goals try (injection heq with h2; injection h2 with ha hb; rw [← ha])
  all_goals try simp_all
  all_goals try (apply_assumption <;> try exact heq)

theorem deleteAt_db : ∀ fuel st n part sta na del,
    deleteAt fuel st n part = Except.ok (sta, na, del) → sta.db = st.db := by
  intro fuel st n part
  induction fuel, st, n, part using deleteAt.induct
  all_goals intro sta na del heq
  case case14 st part d =>
    rw [deleteAt] at heq
    simp at heq
  case case15 st part d st1 f e hx =>
    rw [deleteAt] at heq
    have hx2 : recoverFromDb { st with passing := insertKey st.passing d } d =
        Except.error e := hx
    simp only [hx2] at heq
    exact Except.noConfusion heq
  case case16 st part d st1 f n hx1 e hx ih =>
    rw [deleteAt] at heq
    have hxa : recoverFromDb { st with passing := insertKey st.passing d } d =
        Except.ok n := hx1
    have hxb : deleteAt f { st with passing := insertKey st.passing d } n part =
        Except.error e := hx
    simp only [hxa, hxb] at heq
    exact Except.noConfusion heq
  case case17 st part d st1 f n hx2 st2 newChild e hx1 hx ih =>
    rw [deleteAt] at heq
    have hxa : recoverFromDb { st with passing := insertKey st.passing d } d =
        Except.ok n := hx2
    have hxb : deleteAt f { st with passing := insertKey st.passing d } n part =
        Except.ok (st2, newChild, true) := hx
    have hxc : degenerate f st2 newChild = Except.error e := hx1
    simp only [hxa, hxb, hxc] at heq
    exact Except.noConfusion heq
  case case18 st part d st1 f n hx2 st2 newChild st3 n3 hx1 hx ih =>
    rw [deleteAt] at heq
    have hxa : recoverFromDb { st with passing := insertKey st.passing d } d =
        Except.ok n := hx2
    have hxb : deleteAt f { st with passing := insertKey st.passing d } n part =
        Except.ok (st2, newChild, true) := hx
    have hxc : degenerate f st2 newChild = Except.ok (st3, n3) := hx1
    simp only [hxa, hxb, hxc] at heq
    injection heq with h2
    injection h2 with ha hb
    rw [← ha]
    refine Eq.trans (degenerate_db f st2 newChild st3 n3 hxc) ?_
    exact ih st2 newChild true hxb
  case case19 st part d st1 f n hx1 st2 newChild deleted hx hdel ih =>
    rw [deleteAt] at heq
    have hxa : recoverFromDb { st with passing := insertKey st.passing d } d =
        Except.ok n := hx1
    have hxb : deleteAt f { st with passing := insertKey st.passing d } n part =
        Except.ok (st2, newChild, deleted) := hx
    simp only [hxa, hxb] at heq
    rw [if_neg hdel] at heq
    injection heq with h2
    injection h2 with ha hb
    rw [← ha]
    exact ih st2 newChild deleted hxb
  case case6 fuel st part children value h st1 newChild e hx1 b hx ih =>
    rw [deleteAt, if_neg h] at heq
    have hx2 : degenerate fuel st1
        (Node.branch (children.set (Nibbles.hexAt part 0) newChild) value) =
          Except.error e := hx
    simp only [if_true, dif_pos, hx1, hx2] at heq
    exact Except.noConfusion heq
  case case7 fuel st part children value h st1 newChild st2 n2 hx1 b hx ih =>
    rw [deleteAt, if_neg h] at heq
    have hx2 : degenerate fuel st1
        (Node.branch (children.set (Nibbles.hexAt part 0) newChild) value) =
          Except.ok (st2, n2) := hx
    simp only [if_true, dif_pos, hx1, hx2] at heq
    injection heq with h2
    injection h2 with ha hb
    rw [← ha]
    exact Eq.trans (degenerate_db fuel st1 _ st2 n2 hx2) (ih st1 newChild true hx1)
  case case10 fuel st part pref child h st1 newChild e1 hx1 enode hx ih =>
    rw [deleteAt, if_pos h] at heq
    have hx2 : degenerate fuel st1 (Node.extension pref newChild) =
        Except.error e1 := hx
    simp only [if_true, dif_pos, hx1, hx2] at heq
    exact Except.noConfusion heq
  case case11 fuel st part pref child h st1 newChild st2 n2 hx1 enode hx ih =>
    rw [deleteAt, if_pos h] at heq
    have hx2 : degenerate fuel st1 (Node.extension pref newChild) =
        Except.ok (st2, n2) := hx
    simp only [if_true, dif_pos, hx1, hx2] at heq
    injection heq with h2
    injection h2 with ha hb
    rw [← ha]
    exact Eq.trans (degenerate_db fuel st1 _ st2 n2 hx2) (ih st1 newChild true hx1)
  all_goals rw [deleteAt.eq_def] at heq
  all_goals repeat' split at heq
  all_goals try exact Except.noConfusion heq
  all_goals try (injection heq with h2; injection h2 with ha hb; rw [← ha]; try rfl; try solve_by_elim; try (refine Eq.trans (degenerate_db _ _ _ _ _ ‹_›) ?_; solve_by_elim))
  all_goals try (repeat' split at heq)
  all_goals try exact Except.noConfusion heq
  all_goals try (injection heq with h2; injection h2 with ha hb; rw [← ha]; try rfl; try solve_by_elim; try (refine Eq.trans (degenerate_db _ _ _ _ _ ‹_›) ?_; solve_by_elim))
  all_goals try simp_all

theorem insertAt_db : ∀ fuel st n part value sta na,
    insertAt fuel st n part value = Except.ok (sta, na) → sta.db = st.db := by
  intro fuel st n part value
  induction fuel, st, n, part, value using insertAt.induct
  all_goals intro sta na heq
  case case14 st part value d =>
    rw [insertAt] at heq
    simp at heq
  case case15 st part value d st1 f e hx =>
    rw [insertAt] at heq
    have hx2 : recoverFromDb { st with passing := insertKey st.passing d } d =
        Except.error e := hx
    simp only [hx2] at heq
    exact Except.noConfusion heq
  case case16 st part value d st1 f n hx ih =>
    rw [insertAt] at heq
    have hx2 : recoverFromDb { st with passing := insertKey st.passing d } d =
        Except.ok n := hx
    simp only [hx2] at heq
    exact ih sta na heq
  case case9 fuel st part value pref child hm0 hnemp heq0 hp1 ih =>
    rw [insertAt] at heq
    have hnemp' : ¬pref.isEmpty = true := hnemp
    have heq0' : (Nibbles.commonLen part pref == 0) = true := heq0
    simp only [dif_neg hnemp', dif_pos heq0'] at heq
    exact ih sta na heq
  case case10 fuel st part value pref child hm0 hnemp hne0 heqL e hx ih =>
    rw [insertAt] at heq
    have hnemp' : ¬pref.isEmpty = true := hnemp
    have hne0' : ¬(Nibbles.commonLen part pref == 0) = true := hne0
    have heqL' : (Nibbles.commonLen part pref == pref.length) = true := heqL
    have hx2 : insertAt fuel st child
        (Nibbles.offsetBy part (Nibbles.commonLen part pref)) value =
          Except.error e := hx
    simp only [dif_neg hnemp', dif_neg hne0', dif_pos heqL', hx2] at heq
    exact Except.noConfusion heq
  case case11 fuel st part value pref child hm0 hnemp hne0 heqL st1 newNode hx ih =>
    rw [insertAt] at heq
    have hnemp' : ¬pref.isEmpty = true := hnemp
    have hne0' : ¬(Nibbles.commonLen part pref == 0) = true := hne0
    have heqL' : (Nibbles.commonLen part pref == pref.length) = true := heqL
    have hx2 : insertAt fuel st child
        (Nibbles.offsetBy part (Nibbles.commonLen part pref)) value =
          Except.ok (st1, newNode) := hx
    simp only [dif_neg hnemp', dif_neg hne0', dif_pos heqL', hx2] at heq
    injection heq with h2
    injection h2 with ha hb
    rw [← ha]
    exact ih st1 newNode hx2
  case case12 fuel st part value pref child hm0 hnemp hne0 hneL e hx ih =>
    rw [insertAt] at heq
    have hnemp' : ¬pref.isEmpty = true := hnemp
    have hne0' : ¬(Nibbles.commonLen part pref == 0) = true := hne0
    have hneL' : ¬(Nibbles.commonLen part pref == pref.length) = true := hneL
    have hx2 : insertAt fuel st
        (Node.fromExtension (Nibbles.offsetBy pref (Nibbles.commonLen part pref)) child)
        (Nibbles.offsetBy part (Nibbles.commonLen part pref)) value =
          Except.error e := hx
    simp only [dif_neg hnemp', dif_neg hne0', dif_neg hneL', hx2] at heq
    exact Except.noConfusion heq
  case case13 fuel st part value pref child hm0 hnemp hne0 hneL st1 newNode hx ih =>
    rw [insertAt] at heq
    have hnemp' : ¬pref.isEmpty = true := hnemp
    have hne0' : ¬(Nibbles.commonLen part pref == 0) = true := hne0
    have hneL' : ¬(Nibbles.commonLen part pref == pref.length) = true := hneL
    have hx2 : insertAt fuel st
        (Node.fromExtension (Nibbles.offsetBy pref (Nibbles.commonLen part pref)) child)
        (Nibbles.offsetBy part (Nibbles.commonLen part pref)) value =
          Except.ok (st1, newNode) := hx
    simp only [dif_neg hnemp', dif_neg hne0', dif_neg hneL', hx2] at heq
    injection heq with h2
    injection h2 with ha hb
    rw [← ha]
    exact ih st1 newNode hx2
  all_goals rw [insertAt.eq_def] at heq
  all_goals repeat' split at heq
  all_goals try exact Except.noConfusion heq
  all_goals try (injection heq with h2; injection h2 with ha hb; rw [← ha]; try rfl; try solve_by_elim)
  all_goals try simp_all
  all_goals try (repeat' split at heq)
  all_goals try exact Except.noConfusion heq
  all_goals try (injection heq with h2; injection h2 with ha hb; rw [← ha]; try rfl; try solve_by_elim)
  all_goals try simp_all

/-- C9: `root()` is the only operation writing the store: `get` and
`contains` return values without a state, and the states returned by
`insert` and `remove` carry the input state's store unchanged. -/
theorem claim_c9_only_root_writes_store (f : Nat) (st : TrieState) (k v : Bytes) :
    (∀ st1 b, Trie.removeOp f st k = Except.ok (st1, b) → st1.db = st.db) ∧
    (∀ st1, Trie.insertOp f st k v = Except.ok st1 → st1.db = st.db) := by
  have hrem : ∀ st1 b, Trie.removeOp f st k = Except.ok (st1, b) → st1.db = st.db := by
    intro st1 b hdel
    rw [Trie.removeOp] at hdel
    cases hx : deleteAt f st st.root (Nibbles.fromRaw k true) with
    | error e =>
      rw [hx] at hdel
      exact Except.noConfusion hdel
    | ok r =>
      obtain ⟨st2, n2, del2⟩ := r
      rw [hx] at hdel
      injection hdel with h2
      injection h2 with ha hb
      rw [← ha]
      exact deleteAt_db f st st.root (Nibbles.fromRaw k true) st2 n2 del2 hx
  refine ⟨hrem, ?_⟩
  intro st1 hins
  rw [Trie.insertOp] at hins
  by_cases hv : v.isEmpty = true
  · rw [if_pos hv] at hins
    cases hx : Trie.removeOp f st k with
    | error e =>
      rw [hx] at hins
      exact Except.noConfusion hins
    | ok r =>
      obtain ⟨st2, b2⟩ := r
      rw [hx] at hins
      injection hins with h2
      rw [← h2]
      exact hrem st2 b2 hx
  · rw [if_neg hv] at hins
    cases hx : insertAt f st st.root (Nibbles.fromRaw k true) v with
    | error e =>
      rw [hx] at hins
      exact Except.noConfusion hins
    | ok r =>
      obtain ⟨st2, n2⟩ := r
      rw [hx] at hins
      injection hins with h2
      rw [← h2]
      exact insertAt_db f st st.root (Nibbles.fromRaw k true) v st2 n2 hx

/-- Witness for C9 on a concrete fresh trie, one insert and one remove. -/
theorem claim_c9_only_root_writes_store_witness :
    ∃ st1 st2 : TrieState, ∃ b : Bool,
      Trie.insertOp 0 (Trie.new ⟨true, []⟩) [0] [1] = Except.ok st1 ∧
      st1.db = (Trie.new ⟨true, []⟩).db ∧
      Trie.removeOp 0 (Trie.new ⟨true, []⟩) [0] = Except.ok (st2, b) ∧
      st2.db = (Trie.new ⟨true, []⟩).db := by
  have hins : Trie.insertOp 0 (Trie.new ⟨true, []⟩) [0] [1] =
      Except.ok { Trie.new ⟨true, []⟩ with
        root := Node.fromLeaf (Nibbles.fromRaw [0] true) [1] } := by
    rw [Trie.insertOp, if_neg (by decide)]
    rw [show (Trie.new ⟨true, []⟩).root = Node.empty from rfl]
    rw [insertAt]
  have hrem : Trie.removeOp 0 (Trie.new ⟨true, []⟩) [0] =
      Except.ok ({ Trie.new ⟨true, []⟩ with root := Node.empty }, false) := by
    rw [Trie.removeOp]
    rw [show (Trie.new ⟨true, []⟩).root = Node.empty from rfl]
    rw [deleteAt]
  refine ⟨_, _, false, hins, ?_, hrem, ?_⟩
  · exact (claim_c9_only_root_writes_store 0 (Trie.new ⟨true, []⟩) [0] [1]).2 _ hins
  · exact (claim_c9_only_root_writes_store 0 (Trie.new ⟨true, []⟩) [0] [1]).1 _ false hrem

/-- C10: the result of proof verification depends only on the root hash,
the key and the proof: the verifying trie's own state is never consulted. -/
theorem claim_c10_verify_proof_pure (f : Nat) (st1 st2 : TrieState)
    (rootHash : Digest) (key : Bytes) (proof : List Bytes) :
    Trie.verifyProof f st1 rootHash key proof =
      Trie.verifyProof f st2 rootHash key proof := rfl

/-- C7: `from(store, d)` reports an invalid state root exactly when `d` is
absent from the store, while the descent operations treat a dangling
`HashRef` as the Empty node: recovery yields Empty and lookup under it
finds nothing. -/
theorem claim_c7_missing_digest_semantics (db : MemDB) (d : Digest)
    (st : TrieState) (f : Nat) (part : List Nat) :
    (Trie.fromDb db d = Except.error TrieError.invalidStateRoot ↔
      db.get d = none) ∧
    (st.db.get d = none →
      recoverFromDb st d = Except.ok Node.empty ∧
      getAt (f + 1) st (Node.hash d) part = Except.ok none) := by
  constructor
  · constructor
    · intro h
      cases hget : db.get d with
      | none => rfl
      | some data =>
        exfalso
        rw [Trie.fromDb, hget] at h
        dsimp only at h
        cases hdec : decodeNode data with
        | error e =>
          rw [hdec] at h
          injection h with h2
          rw [h2] at hdec
          exact (decode_not_isr (data.length + 1)).1 data hdec
        | ok n =>
          rw [hdec] at h
          exact Except.noConfusion h
    · intro h
      rw [Trie.fromDb, h]
  · intro h
    refine ⟨?_, ?_⟩
    · rw [recoverFromDb, h]
    · rw [getAt]
      rw [show recoverFromDb st d = Except.ok Node.empty from by
        rw [recoverFromDb, h]]
      dsimp only
      rw [getAt]

/-- Witness for C7: a fresh store misses digest `[0]`, recovery yields the
Empty node and lookup under the dangling reference finds nothing. -/
theorem claim_c7_missing_digest_semantics_witness :
    recoverFromDb (Trie.new ⟨true, []⟩) [0] = Except.ok Node.empty ∧
    getAt 1 (Trie.new ⟨true, []⟩) (Node.hash [0]) [16] = Except.ok none :=
  (claim_c7_missing_digest_semantics ⟨true, []⟩ [0] (Trie.new ⟨true, []⟩) 0
    [16]).2 rfl

/-- C8 amended: `degenerate` on an Extension whose child is a `HashRef`
with a digest absent from the store succeeds: the missing reference is
recovered as the Empty node and the extension is returned with an Empty
child (no decode error is raised). -/
theorem claim_c8_amended_missing_child_digest (st : TrieState) (pref : List Nat)
    (d : Digest) (f : Nat) (h : st.db.get d = none) :
    degenerate (f + 1) st (Node.extension pref (Node.hash d)) =
      Except.ok ({ st with passing := insertKey st.passing d },
        Node.extension pref Node.empty) := by
  rw [degenerate]
  rw [show recoverFromDb { st with passing := insertKey st.passing d } d =
      Except.ok Node.empty from by
    rw [recoverFromDb]
    rw [show ({ st with passing := insertKey st.passing d } : TrieState).db =
      st.db from rfl, h]]
  dsimp only
  rw [degenerate.eq_def]
  dsimp only [Node.fromExtension]

/-- Witness for the amended C8 on a fresh trie and the digest `[9]`. -/
theorem claim_c8_amended_missing_child_digest_witness :
    degenerate 1 (Trie.new ⟨true, []⟩) (Node.extension [0] (Node.hash [9])) =
      Except.ok ({ Trie.new ⟨true, []⟩ with passing := insertKey [] [9] },
        Node.extension [0] Node.empty) :=
  claim_c8_amended_missing_child_digest (Trie.new ⟨true, []⟩) [0] [9] 0 rfl

/-- C8 counterexample: on a fresh (empty) store, `degenerate` of an
Extension over a dangling `HashRef` returns ok with an Empty child and in
particular raises no error at all. -/
theorem claim_c8_counterexample :
    ∃ st2 : TrieState,
      degenerate 1 (Trie.new ⟨true, []⟩) (Node.extension [0] (Node.hash [9])) =
        Except.ok (st2, Node.extension [0] Node.empty) ∧
      ∀ e : TrieError,
        degenerate 1 (Trie.new ⟨true, []⟩) (Node.extension [0] (Node.hash [9])) ≠
          Except.error e := by
  have hok : ∀ (st : TrieState), st.db.get [9] = none →
      degenerate 1 st (Node.extension [0] (Node.hash [9])) =
        Except.ok ({ st with passing := insertKey st.passing [9] },
          Node.extension [0] Node.empty) := by
    intro st h
    rw [degenerate]
    rw [show recoverFromDb { st with passing := insertKey st.passing [9] } [9] =
        Except.ok Node.empty from by
      rw [recoverFromDb]
      rw [show ({ st with passing := insertKey st.passing [9] } : TrieState).db =
        st.db from rfl, h]]
    dsimp only
    rw [degenerate.eq_def]
    dsimp only [Node.fromExtension]
  have h1 := hok (Trie.new ⟨true, []⟩) rfl
  exact ⟨_, h1, fun e hc => Except.noConfusion (h1.symm.trans hc)⟩

/-- C6: after a successful `root()` whose digest is still present in the
store, `from(store, r)` succeeds and reconstructs exactly the state that
`root()` returned, so iterating the reconstruction yields exactly the same
key/value pairs as iterating the committed trie. -/
theorem claim_c6_root_then_from (st st2 : TrieState) (r : Digest)
    (h : rootOp st = Except.ok (st2, r)) (hsome : st2.db.get r ≠ none) :
    Trie.fromDb st2.db r = Except.ok st2 ∧
    ∀ st3, Trie.fromDb st2.db r = Except.ok st3 →
      ∀ f, Trie.iterAll f st3 = Trie.iterAll f st2 := by
  have hfrom : Trie.fromDb st2.db r = Except.ok st2 := by
    rw [rootOp] at h
    split at h
    · exact Except.noConfusion h
    · rename_i newRoot hrec
      injection h with h2
      injection h2 with ha hb
      have hrec2 : recoverFromDb st2 r = Except.ok newRoot := by
        rw [recoverFromDb] at hrec ⊢
        rw [← ha, ← hb]
        exact hrec
      cases hd : st2.db.get r with
      | none => exact absurd hd hsome
      | some data =>
        rw [recoverFromDb, hd] at hrec2
        dsimp only at hrec2
        rw [Trie.fromDb, hd]
        dsimp only
        rw [hrec2]
        dsimp only
        rw [← ha, ← hb]
  refine ⟨hfrom, ?_⟩
  intro st3 h3 f
  have h4 := hfrom.symm.trans h3
  injection h4 with h5
  rw [← h5]

theorem claim_c6_root_then_from_witness :
    ∃ st2 : TrieState, ∃ r : Digest,
      rootOp (Trie.new ⟨false, []⟩) = Except.ok (st2, r) ∧
      st2.db.get r ≠ none ∧
      Trie.fromDb st2.db r = Except.ok st2 ∧
      ∀ st3, Trie.fromDb st2.db r = Except.ok st3 →
        ∀ f, Trie.iterAll f st3 = Trie.iterAll f st2 := by
  have henc : encodeNode { cache := [], gen := [] } Node.empty =
      ({ cache := [], gen := [] }, RawNodeOrHash.rawNode nullRlp) := by
    rw [encodeNode, encodeRaw]
    rfl
  have hroot : rootOp (Trie.new ⟨false, []⟩) =
      Except.ok
        ({ root := Node.empty,
           rootHash := keccak256 nullRlp,
           db := ⟨false, [(keccak256 nullRlp, nullRlp)]⟩,
           cache := [],
           passing := [],
           gen := [] }, keccak256 nullRlp) := by
    rw [rootOp]
    rw [show (Trie.new ⟨false, []⟩).cache = [] from rfl,
      show (Trie.new ⟨false, []⟩).gen = [] from rfl,
      show (Trie.new ⟨false, []⟩).root = Node.empty from rfl]
    rw [henc]
    dsimp only
    rw [show recoverFromDb
        { root := Node.empty,
          rootHash := keccak256 nullRlp,
          db := MemDB.removeBatch
                  (List.foldl (fun db kv => db.insert kv.1 kv.2)
                    (Trie.new ⟨false, []⟩).db
                    (assocInsert [] (keccak256 nullRlp) nullRlp))
                  (List.filter (fun h => !List.contains [] h)
                    (Trie.new ⟨false, []⟩).passing),
          cache := [],
          passing := [],
          gen := [] } (keccak256 nullRlp) =
        Except.ok Node.empty from by
      rw [recoverFromDb]
      rw [show MemDB.get (MemDB.removeBatch
          (List.foldl (fun db kv => db.insert kv.1 kv.2) (Trie.new ⟨false, []⟩).db
            (assocInsert [] (keccak256 nullRlp) nullRlp))
          (List.filter (fun h => !List.contains [] h) (Trie.new ⟨false, []⟩).passing))
          (keccak256 nullRlp) = some nullRlp from by
        simp [MemDB.get, MemDB.removeBatch, MemDB.insert, assocInsert, Trie.new,
          List.lookup]]
      dsimp only
      simp +decide [decodeNode, decodeNodeF, rlpProto, rlpHeadInfo, nullRlp]]
    dsimp only
    rfl
  have hsome : ({ root := Node.empty,
                  rootHash := keccak256 nullRlp,
                  db := ⟨false, [(keccak256 nullRlp, nullRlp)]⟩,
                  cache := [],
                  passing := [],
                  gen := [] } : TrieState).db.get (keccak256 nullRlp) ≠ none := by
    simp [MemDB.get, List.lookup]
  obtain ⟨hfrom, hiter⟩ :=
    claim_c6_root_then_from (Trie.new ⟨false, []⟩) _ _ hroot hsome
  exact ⟨_, _, hroot, hsome, hfrom, hiter⟩

/-- A node is `Empty` exactly when `isEmptyN` holds. -/
theorem isEmptyN_iff (c : Node) : c.isEmptyN = true ↔ c = Node.empty := by
  cases c <;> simp [Node.isEmptyN]

/-- Membership in the used-slot index list. -/
theorem mem_usedIndexesOf (cs : List Node) (j : Nat) :
    j ∈ usedIndexesOf cs ↔
      j < cs.length ∧ cs.getD j Node.empty ≠ Node.empty := by
  rw [usedIndexesOf]
  constructor
  · intro h
    rcases List.mem_map.mp h with ⟨⟨i, c⟩, hmemf, hfst⟩
    rcases List.mem_filter.mp hmemf with ⟨hmem, hpred⟩
    have hj := List.mk_mem_enum_iff_getElem?.mp hmem
    simp only at hfst
    subst hfst
    have hlt : i < cs.length := by
      by_contra hge
      rw [List.getElem?_eq_none (Nat.le_of_not_lt hge)] at hj
      exact Option.noConfusion hj
    refine ⟨hlt, ?_⟩
    rw [List.getD_eq_getElem _ _ hlt]
    have hc : cs[i] = c := by
      rw [List.getElem?_eq_getElem hlt] at hj
      injection hj
    rw [hc]
    intro hce
    rw [hce] at hpred
    simp [Node.isEmptyN] at hpred
  · rintro ⟨hlt, hne⟩
    apply List.mem_map.mpr
    refine ⟨(j, cs.getD j Node.empty), ?_, rfl⟩
    apply List.mem_filter.mpr
    constructor
    · rw [List.mk_mem_enum_iff_getElem?]
      show cs[j]? = some (cs.getD j Node.empty)
      rw [List.getElem?_eq_getElem hlt, List.getD_eq_getElem _ _ hlt]
    · simp only [Bool.not_eq_true']
      rw [← Bool.not_eq_true]
      intro hc
      exact hne ((isEmptyN_iff _).mp hc)

/-- With no used slot every child is Empty. -/
theorem usedIndexes_nil (cs : List Node) (h : usedIndexesOf cs = []) (j : Nat) :
    cs.getD j Node.empty = Node.empty := by
  by_cases hlt : j < cs.length
  · by_contra hne
    have hmem := (mem_usedIndexesOf cs j).mpr ⟨hlt, hne⟩
    rw [h] at hmem
    exact absurd hmem (List.not_mem_nil j)
  · rw [List.getD_eq_default _ _ (Nat.le_of_not_lt hlt)]

/-- With a single used slot every other child is Empty. -/
theorem usedIndexes_single (cs : List Node) (i : Nat)
    (h : usedIndexesOf cs = [i]) (j : Nat) (hne : j ≠ i) :
    cs.getD j Node.empty = Node.empty := by
  by_cases hlt : j < cs.length
  · by_contra hne2
    have hmem := (mem_usedIndexesOf cs j).mpr ⟨hlt, hne2⟩
    rw [h] at hmem
    exact hne (List.mem_singleton.mp hmem)
  · rw [List.getD_eq_default _ _ (Nat.le_of_not_lt hlt)]

/-- Valid suffixes absorb terminator-free prefixes. -/
theorem validSuffix_append (a k : List Nat) (ha : ∀ x ∈ a, x < 16)
    (hk : validSuffixB k = true) : validSuffixB (a ++ k) = true := by
  rcases (validSuffix_iff k).mp hk with ⟨s, rfl, hs⟩
  rw [validSuffix_iff]
  refine ⟨a ++ s, by rw [List.append_assoc], ?_⟩
  intro x hx
  rcases List.mem_append.mp hx with h | h
  · exact ha x h
  · exact hs x h

/-- Collapsing two stacked extensions preserves lookup. -/
theorem ext_join_get (p1 p2 : List Nat) (c : Node) (q : List Nat)
    (f : Nat) (s : TrieState) :
    getAt f s (Node.extension (p1 ++ p2) c) q =
      getAt f s (Node.extension p1 (Node.extension p2 c)) q := by
  rw [getAt_ext_eq, getAt_ext_eq]
  by_cases h1 : Nibbles.commonLen q p1 = p1.length
  · rw [if_pos h1, getAt_ext_eq]
    by_cases h2 : Nibbles.commonLen (q.drop p1.length) p2 = p2.length
    · rw [if_pos h2]
      rw [if_pos ((commonLen_append_full q p1 p2).mpr ⟨h1, h2⟩)]
      rw [List.drop_drop, List.length_append]
    · rw [if_neg h2, if_neg (fun hc => h2 ((commonLen_append_full q p1 p2).mp hc).2)]
  · rw [if_neg h1, if_neg (fun hc => h1 ((commonLen_append_full q p1 p2).mp hc).1)]

/-- Folding an extension into a leaf preserves lookup. -/
theorem ext_leaf_get (pref k : List Nat) (v : Bytes) (q : List Nat)
    (f : Nat) (s : TrieState) :
    getAt f s (Node.leaf (pref ++ k) v) q =
      getAt f s (Node.extension pref (Node.leaf k v)) q := by
  rw [getAt_leaf_eq, getAt_ext_eq]
  by_cases h1 : Nibbles.commonLen q pref = pref.length
  · rw [if_pos h1, getAt_leaf_eq]
    have hpre := (commonLen_eq_right_iff q pref).mp h1
    have htake : q.take pref.length = pref := (List.prefix_iff_eq_take.mp hpre).symm
    have hiff : q = pref ++ k ↔ q.drop pref.length = k := by
      rw [takeDrop_ext q (pref ++ k) pref.length]
      rw [List.take_left, List.drop_left, htake]
      simp
    by_cases h2 : q.drop pref.length = k
    · rw [if_pos h2, if_pos (hiff.mpr h2)]
    · rw [if_neg h2, if_neg (fun hc => h2 (hiff.mp hc))]
  · rw [if_neg h1]
    rw [if_neg (fun hc : q = pref ++ k => h1 (by
      rw [hc]
      exact (commonLen_eq_right_iff (pref ++ k) pref).mpr ⟨k, rfl⟩))]

theorem degenerate_spec (fuel : Nat) (st : TrieState) (n : Node) :
    hashFreeN n = true → wfN n = true →
    ∃ n2,
      (∀ f (s : TrieState), degenerate f s n = Except.ok (s, n2)) ∧
      hashFreeN n2 = true ∧ wfN n2 = true ∧
      ∀ q, validSuffixB q = true → ∀ f (s : TrieState),
        getAt f s n2 q = getAt f s n q := by
  induction fuel, st, n using degenerate.induct with
  | case1 fuel st children value h =>
    intro hf hw
    rcases Bool.and_eq_true_iff.mp h with ⟨hempty, hsome⟩
    rw [List.isEmpty_iff] at hempty
    rcases Option.isSome_iff_exists.mp hsome with ⟨v, rfl⟩
    refine ⟨Node.leaf [16] v, ?_, by simp [hashFreeN], ?_, ?_⟩
    · intro f s
      rw [degenerate, if_pos h]
      rfl
    · simp only [wfN]
      exact validSuffix_term
    · intro q hq f s
      rw [getAt_leaf_eq, getAt_branch_eq f s _ _ q hq]
      by_cases hq16 : q = [16]
      · rw [if_pos hq16, if_pos hq16]
      · rw [if_neg hq16, if_neg hq16, usedIndexes_nil children hempty,
          getAt_empty_eq]
  | case2 fuel st children value hnot1 h1 ih =>
    intro hf hw
    rcases Bool.and_eq_true_iff.mp h1 with ⟨hlen, hnone⟩
    simp only [beq_iff_eq] at hlen
    rcases List.length_eq_one.mp hlen with ⟨i, hused⟩
    have hi0 : (usedIndexesOf children).getD 0 0 = i := by rw [hused]; rfl
    have hilt : i < children.length :=
      usedIndexesOf_lt children i (by rw [hused]; simp)
    rw [Option.isNone_iff_eq_none] at hnone
    subst hnone
    simp only [hashFreeN] at hf
    simp only [wfN, Bool.and_eq_true, beq_iff_eq] at hw
    have hi16 : i < 16 := by rw [hw.1] at hilt; exact hilt
    have hfe : hashFreeN (Node.fromExtension
        (Nibbles.fromHex [(usedIndexesOf children).getD 0 0])
        (children.getD ((usedIndexesOf children).getD 0 0) Node.empty)) = true := by
      simp only [Node.fromExtension, hashFreeN]
      exact hashFreeL_getD children _ hf
    have hwe : wfN (Node.fromExtension
        (Nibbles.fromHex [(usedIndexesOf children).getD 0 0])
        (children.getD ((usedIndexesOf children).getD 0 0) Node.empty)) = true := by
      simp only [Node.fromExtension, wfN, Bool.and_eq_true]
      refine ⟨⟨by simp [Nibbles.fromHex], ?_⟩, wfL_getD children _ hw.2⟩
      rw [hi0]
      simp only [Nibbles.fromHex, List.all_cons, List.all_nil, Bool.and_true,
        decide_eq_true_eq]
      exact hi16
    rcases ih hfe hwe with ⟨n2, huniv, hn2f, hn2w, hget⟩
    refine ⟨n2, ?_, hn2f, hn2w, ?_⟩
    · intro f s
      rw [degenerate]
      rw [if_neg hnot1, dif_pos h1]
      exact huniv f s
    · intro q hq f s
      rw [hget q hq f s]
      rw [hi0]
      rw [getAt_branch_eq f s _ _ q hq]
      simp only [Node.fromExtension, Nibbles.fromHex]
      rw [getAt_ext_eq]
      by_cases hq16 : q = [16]
      · rw [if_pos hq16]
        have hc0 : Nibbles.commonLen q [i] = 0 := by
          rw [hq16, commonLen_cons_cons]
          rw [if_neg (by omega)]
        rw [if_neg (by rw [hc0]; simp)]
      · rw [if_neg hq16]
        rcases validSuffix_step q hq hq16 with ⟨hqlt, hqval, hqlen⟩
        rcases q with _ | ⟨x, t⟩
        · exact absurd rfl (validSuffix_ne_nil _ hq)
        · rw [commonLen_cons_cons]
          have hxj : Nibbles.hexAt (x :: t) 0 = x := rfl
          by_cases hxa : x = i
          · rw [if_pos hxa, if_pos (by simp [Nibbles.commonLen])]
            rw [hxj, hxa]
            rfl
          · rw [if_neg hxa, if_neg (by simp)]
            rw [hxj, usedIndexes_single children i hused x hxa, getAt_empty_eq]
  | case3 fuel st children value hnot1 hnot2 =>
    intro hf hw
    refine ⟨Node.branch children value, ?_, hf, hw, fun q hq f s => rfl⟩
    intro f s
    rw [degenerate, if_neg (by simpa using hnot1), dif_neg hnot2]
  | case4 fuel st pref pref2 child2 ih =>
    intro hf hw
    simp only [hashFreeN] at hf
    simp only [wfN, Bool.and_eq_true] at hw
    rcases hw with ⟨⟨h1a, h1b⟩, ⟨⟨h2a, h2b⟩, h2c⟩⟩
    have hfe : hashFreeN (Node.fromExtension (Nibbles.joinN pref pref2) child2) =
        true := by simpa [Node.fromExtension, hashFreeN] using hf
    have hwe : wfN (Node.fromExtension (Nibbles.joinN pref pref2) child2) =
        true := by
      simp only [Node.fromExtension, wfN, Bool.and_eq_true, Nibbles.joinN]
      refine ⟨⟨?_, ?_⟩, h2c⟩
      · have hne : pref ++ pref2 ≠ [] := by
          intro hc
          rcases List.append_eq_nil.mp hc with ⟨hc1, hc2⟩
          rw [hc1] at h1a
          simp at h1a
        simpa [List.isEmpty_iff] using hne
      · simp [List.all_append, h1b, h2b]
    rcases ih hfe hwe with ⟨n2, huniv, hn2f, hn2w, hget⟩
    refine ⟨n2, ?_, hn2f, hn2w, ?_⟩
    · intro f s
      rw [degenerate]
      exact huniv f s
    · intro q hq f s
      rw [hget q hq f s]
      simp only [Node.fromExtension, Nibbles.joinN]
      exact ext_join_get pref pref2 child2 q f s
  | case5 fuel st pref k v =>
    intro hf hw
    simp only [wfN, Bool.and_eq_true] at hw
    rcases hw with ⟨⟨h1a, h1b⟩, hkv⟩
    have h1blt : ∀ x ∈ pref, x < 16 := by
      intro x hx
      simpa using List.all_eq_true.mp h1b x hx
    refine ⟨Node.leaf (pref ++ k) v, ?_, by simp [hashFreeN], ?_, ?_⟩
    · intro f s
      rw [degenerate]
      rfl
    · simp only [wfN]
      exact validSuffix_append pref k h1blt hkv
    · intro q hq f s
      exact ext_leaf_get pref k v q f s
  | case6 st pref d =>
    intro hf hw
    simp [hashFreeN] at hf
  | case7 st pref d st1 f e hx =>
    intro hf hw
    simp [hashFreeN] at hf
  | case8 st pref d st1 f nn hx ih =>
    intro hf hw
    simp [hashFreeN] at hf
  | case9 fuel st pref child hx1 hx2 hx3 =>
    intro hf hw
    refine ⟨Node.extension pref child, ?_, hf, hw, fun q hq f s => rfl⟩
    intro f s
    cases child with
    | extension p2 c2 => exact absurd rfl (hx1 p2 c2)
    | leaf k v => exact absurd rfl (hx2 k v)
    | hash d => exact absurd rfl (hx3 d)
    | empty =>
      rw [degenerate.eq_def]
    | branch cs v =>
      rw [degenerate.eq_def]
  | case10 fuel st n hx1 hx2 =>
    intro hf hw
    refine ⟨n, ?_, hf, hw, fun q hq f s => rfl⟩
    intro f s
    cases n with
    | branch cs v => exact absurd rfl (hx1 cs v)
    | extension p c => exact absurd rfl (hx2 p c)
    | empty => rw [degenerate.eq_def]
    | leaf k v => rw [degenerate.eq_def]
    | hash d => rw [degenerate.eq_def]

theorem deleteAt_spec (fuel : Nat) (st : TrieState) (n : Node) (p : List Nat) :
    hashFreeN n = true → wfN n = true → validSuffixB p = true →
    ∃ n2 del,
      (∀ f (s : TrieState), deleteAt f s n p = Except.ok (s, n2, del)) ∧
      hashFreeN n2 = true ∧ wfN n2 = true ∧
      (∀ q, validSuffixB q = true → ∀ f (s : TrieState),
        getAt f s n2 q = if q = p then Except.ok none else getAt f s n q) ∧
      (del = false → ∀ f (s : TrieState), getAt f s n p = Except.ok none) := by
  induction fuel, st, n, p using deleteAt.induct with
  | case1 fuel st part =>
    intro hf hw hp
    refine ⟨Node.empty, false, ?_, by simp [hashFreeN], by simp [wfN], ?_, ?_⟩
    · intro f s
      rw [deleteAt]
    · intro q hq f s
      rw [getAt_empty_eq, ite_self]
    · intro hfalse f s
      exact getAt_empty_eq f s part
  | case2 fuel st part key value h =>
    intro hf hw hp
    simp only [beq_iff_eq] at h
    refine ⟨Node.empty, true, ?_, by simp [hashFreeN], by simp [wfN], ?_, ?_⟩
    · intro f s
      rw [deleteAt]
      rw [if_pos (by simpa using h)]
    · intro q hq f s
      rw [getAt_empty_eq, getAt_leaf_eq]
      by_cases hqp : q = part
      · rw [if_pos hqp]
      · rw [if_neg hqp, if_neg (fun hc => hqp (hc.trans h))]
    · intro hc
      exact Bool.noConfusion hc
  | case3 fuel st part key value h =>
    intro hf hw hp
    simp only [beq_iff_eq] at h
    refine ⟨Node.leaf key value, false, ?_, hf, hw, ?_, ?_⟩
    · intro f s
      rw [deleteAt]
      rw [if_neg (by simpa using h)]
    · intro q hq f s
      by_cases hqp : q = part
      · rw [if_pos hqp, getAt_leaf_eq, if_neg (fun hc => h ((hqp.symm.trans hc).symm))]
      · rw [if_neg hqp]
    · intro hfalse f s
      rw [getAt_leaf_eq]
      rw [if_neg (fun hc : part = key => h hc.symm)]
  | case4 fuel st part children value h =>
    intro hf hw hp
    simp only [beq_iff_eq] at h
    have hpart : part = [16] := (validSuffix_head16 part hp).mp h
    simp only [hashFreeN] at hf
    simp only [wfN, Bool.and_eq_true, beq_iff_eq] at hw
    refine ⟨Node.branch children none, true, ?_, by simpa [hashFreeN] using hf,
      ?_, ?_, ?_⟩
    · intro f s
      rw [deleteAt]
      rw [if_pos (by simpa using h)]
    · simp only [wfN, Bool.and_eq_true, beq_iff_eq]
      exact hw
    · intro q hq f s
      rw [getAt_branch_eq f s _ _ q hq, getAt_branch_eq f s _ _ q hq]
      by_cases hq16 : q = [16]
      · rw [if_pos hq16, if_pos (hq16.trans hpart.symm)]
      · rw [if_neg hq16, if_neg hq16, if_neg (fun hc => hq16 (hc.trans hpart))]
    · intro hc
      exact Bool.noConfusion hc
  | case5 fuel st part children value h e hx ih =>
    intro hf hw hp
    exfalso
    have h16 : Nibbles.hexAt part 0 ≠ 16 := by simpa using h
    have hpne : part ≠ [16] := fun hc => h16 (by rw [hc]; rfl)
    rcases validSuffix_step part hp hpne with ⟨hlt, hval, hlen⟩
    simp only [hashFreeN] at hf
    simp only [wfN, Bool.and_eq_true, beq_iff_eq] at hw
    rcases ih (hashFreeL_getD children _ hf) (wfL_getD children _ hw.2) hval with
      ⟨n2, del, huniv, _⟩
    exact Except.noConfusion ((huniv fuel st).symm.trans hx)
  | case6 fuel st part children value h st1 newChild e hx1 b hx ih =>
    intro hf hw hp
    exfalso
    have h16 : Nibbles.hexAt part 0 ≠ 16 := by simpa using h
    have hpne : part ≠ [16] := fun hc => h16 (by rw [hc]; rfl)
    rcases validSuffix_step part hp hpne with ⟨hlt, hval, hlen⟩
    simp only [hashFreeN] at hf
    simp only [wfN, Bool.and_eq_true, beq_iff_eq] at hw
    rcases ih (hashFreeL_getD children _ hf) (wfL_getD children _ hw.2) hval with
      ⟨n2, del, huniv, hn2f, hn2w, hget, hdel⟩
    have hinj := (huniv fuel st).symm.trans hx1
    injection hinj with hinj2
    injection hinj2 with ha hinj3
    injection hinj3 with hb hc
    rcases degenerate_spec 0 st (Node.branch (children.set (Nibbles.hexAt part 0) n2) value)
      (by simp only [hashFreeN]; exact hashFreeL_set children _ _ hf hn2f)
      (by simp only [wfN, Bool.and_eq_true, beq_iff_eq]
          exact ⟨by rw [List.length_set]; exact hw.1, wfL_set children _ _ hw.2 hn2w⟩)
      with ⟨n2d, huniv2, _⟩
    have hx2 : degenerate fuel st1
        (Node.branch (children.set (Nibbles.hexAt part 0) newChild) value) =
          Except.error e := hx
    rw [← ha, ← hb] at hx2
    exact Except.noConfusion ((huniv2 fuel st).symm.trans hx2)
  | case7 fuel st part children value h st1 newChild st2 n2deg hx1 b hx ih =>
    intro hf hw hp
    have h16 : Nibbles.hexAt part 0 ≠ 16 := by simpa using h
    have hpne : part ≠ [16] := fun hc => h16 (by rw [hc]; rfl)
    rcases validSuffix_step part hp hpne with ⟨hlt, hval, hlen⟩
    simp only [hashFreeN] at hf
    simp only [wfN, Bool.and_eq_true, beq_iff_eq] at hw
    rcases ih (hashFreeL_getD children _ hf) (wfL_getD children _ hw.2) hval with
      ⟨n2, del, huniv, hn2f, hn2w, hget, hdel⟩
    have hinj := (huniv fuel st).symm.trans hx1
    injection hinj with hinj2
    injection hinj2 with ha hinj3
    injection hinj3 with hb hc
    have hjlt : Nibbles.hexAt part 0 < children.length := by
      rw [hw.1]
      exact hlt
    rcases degenerate_spec 0 st
      (Node.branch (children.set (Nibbles.hexAt part 0) n2) value)
      (by simp only [hashFreeN]; exact hashFreeL_set children _ _ hf hn2f)
      (by simp only [wfN, Bool.and_eq_true, beq_iff_eq]
          exact ⟨by rw [List.length_set]; exact hw.1, wfL_set children _ _ hw.2 hn2w⟩)
      with ⟨n2d, huniv2, hdf, hdw, hdget⟩
    refine ⟨n2d, true, ?_, hdf, hdw, ?_, ?_⟩
    · intro f s
      rw [deleteAt]
      rw [if_neg (by simpa using h)]
      rw [huniv f s]
      simp only [hc, if_true]
      rw [huniv2 f s]
    · intro q hq f s
      rw [hdget q hq f s]
      rw [getAt_branch_eq f s _ _ q hq, getAt_branch_eq f s _ _ q hq]
      by_cases hq16 : q = [16]
      · rw [if_pos hq16, if_neg (fun hcq => hpne (hcq.symm.trans hq16)), if_pos hq16]
      · rw [if_neg hq16]
        rcases validSuffix_step q hq hq16 with ⟨hqlt, hqval, hqlen⟩
        rw [getD_set_node _ _ _ _ hjlt]
        by_cases hj : Nibbles.hexAt q 0 = Nibbles.hexAt part 0
        · rw [if_pos hj, hget (q.drop 1) hqval f s]
          have hiff : q = part ↔ q.drop 1 = Nibbles.offsetBy part 1 := by
            rw [headTail_ext q part (validSuffix_ne_nil q hq) (validSuffix_ne_nil part hp)]
            simp [hj, Nibbles.offsetBy]
          by_cases ht : q.drop 1 = Nibbles.offsetBy part 1
          · rw [if_pos ht, if_pos (hiff.mpr ht)]
          · rw [if_neg ht, if_neg (fun hcq => ht (hiff.mp hcq)), if_neg hq16, hj]
        · rw [if_neg hj, if_neg (fun hcq : q = part => hj (by rw [hcq])), if_neg hq16]
    · intro hc
      exact Bool.noConfusion hc
  | case8 fuel st part children value h st1 newChild deleted hx hdel2 ih =>
    intro hf hw hp
    have h16 : Nibbles.hexAt part 0 ≠ 16 := by simpa using h
    have hpne : part ≠ [16] := fun hc => h16 (by rw [hc]; rfl)
    rcases validSuffix_step part hp hpne with ⟨hlt, hval, hlen⟩
    simp only [hashFreeN] at hf
    simp only [wfN, Bool.and_eq_true, beq_iff_eq] at hw
    rcases ih (hashFreeL_getD children _ hf) (wfL_getD children _ hw.2) hval with
      ⟨n2, del, huniv, hn2f, hn2w, hget, hdel⟩
    have hinj := (huniv fuel st).symm.trans hx
    injection hinj with hinj2
    injection hinj2 with ha hinj3
    injection hinj3 with hb hc
    have hdelf : deleted = false := by
      cases deleted
      · rfl
      · exact absurd rfl hdel2
    have hnone : ∀ f (s : TrieState),
        getAt f s (children.getD (Nibbles.hexAt part 0) Node.empty)
          (Nibbles.offsetBy part 1) = Except.ok none := by
      apply hdel
      rw [hc, hdelf]
    refine ⟨Node.branch children value, false, ?_, by simpa [hashFreeN] using hf,
      by simp only [wfN, Bool.and_eq_true, beq_iff_eq]; exact hw, ?_, ?_⟩
    · intro f s
      rw [deleteAt]
      rw [if_neg (by simpa using h)]
      rw [huniv f s]
      rw [hc, hdelf]
      rfl
    · intro q hq f s
      by_cases hqp : q = part
      · rw [if_pos hqp, hqp, getAt_branch_eq f s _ _ part hp, if_neg hpne]
        exact hnone f s
      · rw [if_neg hqp]
    · intro hfalse f s
      rw [getAt_branch_eq f s _ _ part hp, if_neg hpne]
      exact hnone f s
  | case13 fuel st part pref child h =>
    intro hf hw hp
    have hne : Nibbles.commonLen part pref ≠ pref.length := by simpa using h
    refine ⟨Node.extension pref child, false, ?_, hf, hw, ?_, ?_⟩
    · intro f s
      rw [deleteAt]
      rw [if_neg (by simpa using h)]
    · intro q hq f s
      by_cases hqp : q = part
      · rw [if_pos hqp, hqp, getAt_ext_eq, if_neg hne]
      · rw [if_neg hqp]
    · intro hfalse f s
      rw [getAt_ext_eq, if_neg hne]
  | case14 st part d =>
    intro hf hw hp
    simp [hashFreeN] at hf
  | case15 st part d st1 f e hx =>
    intro hf hw hp
    simp [hashFreeN] at hf
  | case16 st part d st1 f nn hx1 e hx ih =>
    intro hf hw hp
    simp [hashFreeN] at hf
  | case17 st part d st1 f nn hx2 st2 newChild e hx1 hx ih =>
    intro hf hw hp
    simp [hashFreeN] at hf
  | case18 st part d st1 f nn hx2 st2 newChild st3 n3 hx1 hx ih =>
    intro hf hw hp
    simp [hashFreeN] at hf
  | case19 st part d st1 f nn hx1 st2 newChild deleted hx hdel ih =>
    intro hf hw hp
    simp [hashFreeN] at hf
  | case9 fuel st part pref child h e hx ih =>
    intro hf hw hp
    exfalso
    have hm : Nibbles.commonLen part pref = pref.length := by simpa using h
    simp only [hashFreeN] at hf
    simp only [wfN, Bool.and_eq_true] at hw
    rcases hw with ⟨⟨h1, h2⟩, h3⟩
    have hplt : ∀ x ∈ pref, x < 16 := by
      intro x hx2
      simpa using List.all_eq_true.mp h2 x hx2
    have hml : pref.length < part.length := by
      have hx2 := validSuffix_commonLen_lt part pref hp hplt
      rw [hm] at hx2
      exact hx2
    have hval2 : validSuffixB (Nibbles.offsetBy part (Nibbles.commonLen part pref)) =
        true := by
      show validSuffixB (part.drop (Nibbles.commonLen part pref)) = true
      rw [hm]
      exact validSuffix_drop part _ hp hml
    rcases ih hf h3 hval2 with ⟨n2, del, huniv, _⟩
    exact Except.noConfusion ((huniv fuel st).symm.trans hx)
  | case10 fuel st part pref child h st1 newChild e1 hx1 enode hx ih =>
    intro hf hw hp
    exfalso
    have hm : Nibbles.commonLen part pref = pref.length := by simpa using h
    simp only [hashFreeN] at hf
    simp only [wfN, Bool.and_eq_true] at hw
    rcases hw with ⟨⟨h1, h2⟩, h3⟩
    have hplt : ∀ x ∈ pref, x < 16 := by
      intro x hx2
      simpa using List.all_eq_true.mp h2 x hx2
    have hml : pref.length < part.length := by
      have hx2 := validSuffix_commonLen_lt part pref hp hplt
      rw [hm] at hx2
      exact hx2
    have hval2 : validSuffixB (Nibbles.offsetBy part (Nibbles.commonLen part pref)) =
        true := by
      show validSuffixB (part.drop (Nibbles.commonLen part pref)) = true
      rw [hm]
      exact validSuffix_drop part _ hp hml
    rcases ih hf h3 hval2 with ⟨n2, del, huniv, hn2f, hn2w, hget, hdel⟩
    have hinj := (huniv fuel st).symm.trans hx1
    injection hinj with hinj2
    injection hinj2 with ha hinj3
    injection hinj3 with hb hc
    rcases degenerate_spec 0 st (Node.extension pref n2)
      (by simpa [hashFreeN] using hn2f)
      (by simp only [wfN, Bool.and_eq_true]
          exact ⟨⟨h1, h2⟩, hn2w⟩)
      with ⟨n2d, huniv2, _⟩
    have hx2 : degenerate fuel st1 (Node.extension pref newChild) =
        Except.error e1 := hx
    rw [← ha, ← hb] at hx2
    exact Except.noConfusion ((huniv2 fuel st).symm.trans hx2)
  | case11 fuel st part pref child h st1 newChild st2 n2deg hx1 enode hx ih =>
    intro hf hw hp
    have hm : Nibbles.commonLen part pref = pref.length := by simpa using h
    simp only [hashFreeN] at hf
    simp only [wfN, Bool.and_eq_true] at hw
    rcases hw with ⟨⟨h1, h2⟩, h3⟩
    have hplt : ∀ x ∈ pref, x < 16 := by
      intro x hx2
      simpa using List.all_eq_true.mp h2 x hx2
    have hml : pref.length < part.length := by
      have hx2 := validSuffix_commonLen_lt part pref hp hplt
      rw [hm] at hx2
      exact hx2
    have hval2 : validSuffixB (Nibbles.offsetBy part (Nibbles.commonLen part pref)) =
        true := by
      show validSuffixB (part.drop (Nibbles.commonLen part pref)) = true
      rw [hm]
      exact validSuffix_drop part _ hp hml
    rcases ih hf h3 hval2 with ⟨n2, del, huniv, hn2f, hn2w, hget, hdel⟩
    have hinj := (huniv fuel st).symm.trans hx1
    injection hinj with hinj2
    injection hinj2 with ha hinj3
    injection hinj3 with hb hc
    rcases degenerate_spec 0 st (Node.extension pref n2)
      (by simpa [hashFreeN] using hn2f)
      (by simp only [wfN, Bool.and_eq_true]
          exact ⟨⟨h1, h2⟩, hn2w⟩)
      with ⟨n2d, huniv2, hdf, hdw, hdget⟩
    have hget2 : ∀ q2, validSuffixB q2 = true → ∀ f (s : TrieState),
        getAt f s n2 q2 =
          if q2 = part.drop pref.length then Except.ok none
          else getAt f s child q2 := by
      intro q2 hq2 f2 s2
      have hx0 := hget q2 hq2 f2 s2
      rwa [show Nibbles.offsetBy part (Nibbles.commonLen part pref) =
          part.drop pref.length from by
        show part.drop (Nibbles.commonLen part pref) = part.drop pref.length
        rw [hm]] at hx0
    refine ⟨n2d, true, ?_, hdf, hdw, ?_, ?_⟩
    · intro f s
      rw [deleteAt]
      rw [if_pos h]
      rw [huniv f s]
      simp only [hc, if_true]
      rw [huniv2 f s]
    · intro q hq f s
      rw [hdget q hq f s]
      rw [getAt_ext_eq, getAt_ext_eq]
      by_cases hmq : Nibbles.commonLen q pref = pref.length
      · rw [if_pos hmq, if_pos hmq]
        have hqml : pref.length < q.length := by
          have hx2 := validSuffix_commonLen_lt q pref hq hplt
          rw [hmq] at hx2
          exact hx2
        have hqval : validSuffixB (q.drop pref.length) = true :=
          validSuffix_drop q _ hq hqml
        rw [hget2 (q.drop pref.length) hqval f s]
        have h1q : q.take pref.length = pref := by
          have hpre := (commonLen_eq_right_iff q pref).mp hmq
          exact (List.prefix_iff_eq_take.mp hpre).symm
        have h1p : part.take pref.length = pref := by
          have hpre := (commonLen_eq_right_iff part pref).mp hm
          exact (List.prefix_iff_eq_take.mp hpre).symm
        have hiff : q = part ↔ q.drop pref.length = part.drop pref.length := by
          rw [takeDrop_ext q part pref.length]
          simp [h1q, h1p]
        by_cases ht : q.drop pref.length = part.drop pref.length
        · rw [if_pos ht, if_pos (hiff.mpr ht)]
        · rw [if_neg ht, if_neg (fun hcq => ht (hiff.mp hcq))]
      · rw [if_neg hmq, if_neg hmq,
          if_neg (fun hcq : q = part => hmq (by rw [hcq]; exact hm))]
    · intro hcf
      exact Bool.noConfusion hcf
  | case12 fuel st part pref child h st1 newChild deleted hx hdel2 ih =>
    intro hf hw hp
    have hm : Nibbles.commonLen part pref = pref.length := by simpa using h
    simp only [hashFreeN] at hf
    simp only [wfN, Bool.and_eq_true] at hw
    rcases hw with ⟨⟨h1, h2⟩, h3⟩
    have hplt : ∀ x ∈ pref, x < 16 := by
      intro x hx2
      simpa using List.all_eq_true.mp h2 x hx2
    have hml : pref.length < part.length := by
      have hx2 := validSuffix_commonLen_lt part pref hp hplt
      rw [hm] at hx2
      exact hx2
    have hval2 : validSuffixB (Nibbles.offsetBy part (Nibbles.commonLen part pref)) =
        true := by
      show validSuffixB (part.drop (Nibbles.commonLen part pref)) = true
      rw [hm]
      exact validSuffix_drop part _ hp hml
    rcases ih hf h3 hval2 with ⟨n2, del, huniv, hn2f, hn2w, hget, hdel⟩
    have hinj := (huniv fuel st).symm.trans hx
    injection hinj with hinj2
    injection hinj2 with ha hinj3
    injection hinj3 with hb hc
    have hdelf : deleted = false := by
      cases deleted
      · rfl
      · exact absurd rfl hdel2
    have hnone : ∀ f (s : TrieState),
        getAt f s child (part.drop pref.length) = Except.ok none := by
      intro f s
      have hx0 := hdel (hc.trans hdelf) f s
      rwa [show Nibbles.offsetBy part (Nibbles.commonLen part pref) =
          part.drop pref.length from by
        show part.drop (Nibbles.commonLen part pref) = part.drop pref.length
        rw [hm]] at hx0
    refine ⟨Node.extension pref child, false, ?_, by simpa [hashFreeN] using hf, ?_, ?_, ?_⟩
    · intro f s
      rw [deleteAt]
      rw [if_pos h]
      rw [huniv f s]
      rw [hc, hdelf]
      rfl
    · simp only [wfN, Bool.and_eq_true]
      exact ⟨⟨h1, h2⟩, h3⟩
    · intro q hq f s
      by_cases hqp : q = part
      · rw [if_pos hqp, hqp, getAt_ext_eq, if_pos hm]
        exact hnone f s
      · rw [if_neg hqp]
    · intro hfalse f s
      rw [getAt_ext_eq, if_pos hm]
      exact hnone f s

/-- C1 amended: on a hash-free well-formed trie, `remove(k)` always
succeeds, `get(k)` is `None` afterwards, and a `false` result means the key
was already absent (a present key always reports `true`); `true` however
does not imply presence. -/
theorem claim_c1_amended_remove (st : TrieState) (k : Bytes)
    (hf : hashFreeN st.root = true) (hw : wfN st.root = true)
    (hk : bytesValid k = true) :
    ∃ st2 del,
      (∀ f, Trie.removeOp f st k = Except.ok (st2, del)) ∧
      hashFreeN st2.root = true ∧ wfN st2.root = true ∧
      (∀ f, Trie.getOp f st2 k = Except.ok none) ∧
      (del = false → ∀ f, Trie.getOp f st k = Except.ok none) := by
  rcases deleteAt_spec 0 st st.root (Nibbles.fromRaw k true) hf hw
    (fromRaw_validSuffix k hk) with ⟨n2, del, huniv, hn2f, hn2w, hget, hdel⟩
  refine ⟨{ st with root := n2 }, del, ?_, hn2f, hn2w, ?_, ?_⟩
  · intro f
    rw [Trie.removeOp, huniv f st]
  · intro f
    rw [Trie.getOp]
    have hx := hget (Nibbles.fromRaw k true) (fromRaw_validSuffix k hk) f
      { st with root := n2 }
    rw [if_pos rfl] at hx
    exact hx
  · intro hdf f
    rw [Trie.getOp]
    exact hdel hdf f st

/-- Witness for the amended C1 on the fresh trie and key `[0]`. -/
theorem claim_c1_amended_remove_witness :
    ∃ st2 del,
      (∀ f, Trie.removeOp f (Trie.new ⟨true, []⟩) [0] = Except.ok (st2, del)) ∧
      hashFreeN st2.root = true ∧ wfN st2.root = true ∧
      (∀ f, Trie.getOp f st2 [0] = Except.ok none) ∧
      (del = false → ∀ f, Trie.getOp f (Trie.new ⟨true, []⟩) [0] = Except.ok none) :=
  claim_c1_amended_remove (Trie.new ⟨true, []⟩) [0]
    (by simp [Trie.new, hashFreeN]) (by simp [Trie.new, wfN]) (by decide)

/-- The child list of the un-collapsed branch reached in the C1
counterexample. -/
def ceChildren : List Node :=
  [Node.empty, Node.leaf [0, 16] [1], Node.leaf [0, 16] [2], Node.empty,
   Node.empty, Node.empty, Node.empty, Node.empty, Node.empty, Node.empty,
   Node.empty, Node.empty, Node.empty, Node.empty, Node.empty, Node.empty]

/-- C1 counterexample: after inserting keys `[0x10]` and `[0x20]` into a
fresh trie, the key `[]` is absent (`get` finds nothing), yet `remove([])`
reports `true`; the state is returned unchanged, so a second `remove([])`
reports `true` again rather than `false`. -/
theorem claim_c1_counterexample :
    runInserts 0 (Trie.new ⟨true, []⟩) [([0x10], [1]), ([0x20], [2])] =
      Except.ok { Trie.new ⟨true, []⟩ with root := Node.branch ceChildren none } ∧
    Trie.getOp 0 { Trie.new ⟨true, []⟩ with root := Node.branch ceChildren none } [] =
      Except.ok none ∧
    Trie.removeOp 0 { Trie.new ⟨true, []⟩ with root := Node.branch ceChildren none } [] =
      Except.ok ({ Trie.new ⟨true, []⟩ with root := Node.branch ceChildren none }, true) := by
  refine ⟨?_, ?_, ?_⟩
  · rw [runInserts]
    rw [show Trie.insertOp 0 (Trie.new ⟨true, []⟩) [0x10] [1] =
        Except.ok { Trie.new ⟨true, []⟩ with root := Node.leaf [1, 0, 16] [1] } from by
      rw [Trie.insertOp, if_neg (by decide)]
      rw [show (Trie.new ⟨true, []⟩).root = Node.empty from rfl]
      rw [show Nibbles.fromRaw [0x10] true = [1, 0, 16] from by decide]
      rw [insertAt]
      rfl]
    dsimp only
    rw [runInserts]
    rw [show Trie.insertOp 0
        { Trie.new ⟨true, []⟩ with root := Node.leaf [1, 0, 16] [1] } [0x20] [2] =
        Except.ok { Trie.new ⟨true, []⟩ with root := Node.branch ceChildren none } from by
      rw [Trie.insertOp, if_neg (by decide)]
      rw [show ({ Trie.new ⟨true, []⟩ with
        root := Node.leaf [1, 0, 16] [1] } : TrieState).root =
          Node.leaf [1, 0, 16] [1] from rfl]
      rw [show Nibbles.fromRaw [0x20] true = [2, 0, 16] from by decide]
      rw [insertAt]
      simp +decide [Nibbles.commonLen, Nibbles.hexAt, Nibbles.offsetBy,
        branchInsert, Node.fromLeaf, emptyChildren, ceChildren]]
    dsimp only
    rw [runInserts]
  · rw [Trie.getOp]
    rw [show ({ Trie.new ⟨true, []⟩ with
      root := Node.branch ceChildren none } : TrieState).root =
        Node.branch ceChildren none from rfl]
    rw [show Nibbles.fromRaw [] true = [16] from by decide]
    rw [getAt]
    simp +decide [Nibbles.hexAt]
  · rw [Trie.removeOp]
    rw [show ({ Trie.new ⟨true, []⟩ with
      root := Node.branch ceChildren none } : TrieState).root =
        Node.branch ceChildren none from rfl]
    rw [show Nibbles.fromRaw [] true = [16] from by decide]
    rw [deleteAt]
    simp +decide [Nibbles.hexAt]

def c3Key : Bytes := [0x74, 0x65, 0x73, 0x74]

def c3Path : List Nat := [7, 4, 6, 5, 7, 3, 7, 4, 16]

def c3Blob : Bytes := [203, 133, 32, 116, 101, 115, 116, 132, 116, 101, 115, 116]

lemma lookup_filter_key_ne (k k' : Digest) (l : List (Digest × Bytes))
    (hne : k ≠ k') :
    List.lookup k (l.filter (fun p => !(p.1 == k'))) = List.lookup k l := by
  induction l with
  | nil => rfl
  | cons p rest ih =>
    obtain ⟨pk, pv⟩ := p
    by_cases h1 : pk = k'
    · have hk : (k == pk) = false := by simp [h1, hne]
      have hk2 : (k == k') = false := by simp [hne]
      simp [List.filter, List.lookup, h1, hk, hk2, ih]
    · have hf : (!(pk == k')) = true := by simp [h1]
      by_cases h2 : k = pk
      · simp [List.filter, List.lookup, hf, h2]
      · have hk : (k == pk) = false := by simp [h2]
        simp [List.filter, List.lookup, hf, hk, ih]

lemma memdb_get_insert_self (db : MemDB) (k : Digest) (v : Bytes) :
    (db.insert k v).get k = some v := by
  simp [MemDB.insert, MemDB.get, List.lookup]

lemma memdb_get_insert_ne (db : MemDB) (k k' : Digest) (v : Bytes)
    (hne : k ≠ k') :
    (db.insert k' v).get k = db.get k := by
  have hk : (k == k') = false := by simp [hne]
  simp only [MemDB.insert, MemDB.get, List.lookup, hk]
  exact lookup_filter_key_ne k k' db.storage hne

lemma memdb_get_remove_ne (db : MemDB) (k k' : Digest) (hne : k ≠ k') :
    (db.remove k').get k = db.get k := by
  rw [MemDB.remove]
  split
  · simp only [MemDB.get]
    exact lookup_filter_key_ne k k' db.storage hne
  · rfl

lemma foldl_insert_get (l : List (Digest × Bytes)) (k : Digest)
    (hl : ∀ p ∈ l, p.1 ≠ k) (db : MemDB) (v : Bytes)
    (hdb : db.get k = some v) :
    (List.foldl (fun db kv => db.insert kv.1 kv.2) db l).get k = some v := by
  induction l generalizing db with
  | nil => exact hdb
  | cons p rest ih =>
    simp only [List.foldl]
    refine ih (fun q hq => hl q (List.mem_cons_of_mem _ hq)) _ ?_
    rw [memdb_get_insert_ne _ _ _ _ (Ne.symm (hl p (List.mem_cons_self _ _)))]
    exact hdb

lemma foldl_remove_get (keys : List Digest) (k : Digest) (hk : k ∉ keys)
    (db : MemDB) :
    (List.foldl MemDB.remove db keys).get k = db.get k := by
  induction keys generalizing db with
  | nil => rfl
  | cons a rest ih =>
    simp only [List.foldl]
    rw [ih (fun hm => hk (List.mem_cons_of_mem _ hm)) _]
    exact memdb_get_remove_ne _ _ _ (fun he => hk (he ▸ List.mem_cons_self _ _))

lemma removeBatch_get (db : MemDB) (keys : List Digest) (k : Digest)
    (hk : k ∉ keys) :
    (db.removeBatch keys).get k = db.get k := by
  rw [MemDB.removeBatch]
  exact foldl_remove_get keys k hk db

lemma encodeNode_empty (es : EncSt) :
    encodeNode es Node.empty = (es, RawNodeOrHash.rawNode nullRlp) := by
  rw [encodeNode, encodeRaw]
  rfl

set_option maxRecDepth 100000 in
/-- Claim C3 (amended): committing via `root()` over an empty in-memory root
always yields the digest `keccak(NULL)` and leaves the store mapping
`keccak(NULL)` to the encoding of the Empty node, with the trie root the
Empty node, provided `keccak(NULL)` is not itself scheduled for pruning
(if it is in `passing` it is also in `gen`; the API never dereferences the
one-byte null blob as a `HashRef`, so this always holds); however, stale
blobs persisted by earlier `root()` calls that were never dereferenced
during the final mutation epoch may remain in the store, so even a light
store need not contain exactly one digest (`claim_c3_counterexample`). -/
theorem claim_c3_amended_null_blob_present (st st2 : TrieState) (r : Digest)
    (hroot : st.root = Node.empty)
    (hpass : keccak256 nullRlp ∈ st.passing → keccak256 nullRlp ∈ st.gen)
    (h : rootOp st = Except.ok (st2, r)) :
    r = keccak256 nullRlp ∧
    st2.db.get (keccak256 nullRlp) = some nullRlp ∧
    st2.root = Node.empty := by
  rw [rootOp] at h
  rw [hroot] at h
  rw [encodeNode_empty] at h
  dsimp only at h
  split at h
  · exact Except.noConfusion h
  · rename_i n hrec
    injection h with h1
    injection h1 with ha hb
    have hnot : keccak256 nullRlp ∉
        List.filter (fun h => !st.gen.contains h) st.passing := by
      intro hm
      obtain ⟨hmem, hcond⟩ := List.mem_filter.mp hm
      have hgen : keccak256 nullRlp ∈ st.gen := hpass hmem
      have hno : ¬ keccak256 nullRlp ∈ st.gen := by simpa using hcond
      exact hno hgen
    have hfold : (List.foldl (fun db kv => db.insert kv.1 kv.2) st.db
        (assocInsert st.cache (keccak256 nullRlp) nullRlp)).get
        (keccak256 nullRlp) = some nullRlp := by
      rw [show assocInsert st.cache (keccak256 nullRlp) nullRlp =
          (keccak256 nullRlp, nullRlp) ::
            List.filter (fun p => !(p.1 == keccak256 nullRlp)) st.cache from
        rfl]
      rw [List.foldl_cons]
      exact foldl_insert_get _ _
        (fun p hp => by
          have h2 := (List.mem_filter.mp hp).2
          intro he
          simp [he] at h2)
        _ _ (memdb_get_insert_self _ _ _)
    have hdec : decodeNode nullRlp = Except.ok Node.empty := by
      simp +decide [decodeNode, decodeNodeF, rlpProto, rlpHeadInfo, nullRlp]
    have hn : n = Node.empty := by
      rw [recoverFromDb] at hrec
      dsimp only at hrec
      split at hrec
      · rename_i v hv
        have hv2 : some nullRlp = some v :=
          ((removeBatch_get _ _ _ hnot).trans hfold).symm.trans hv
        injection hv2 with hv3
        rw [← hv3, hdec] at hrec
        injection hrec with h4
        exact h4.symm
      · injection hrec with h4
        exact h4.symm
    refine ⟨hb.symm, ?_, ?_⟩
    · rw [← ha]
      exact (removeBatch_get _ _ _ hnot).trans hfold
    · rw [← ha]
      exact hn


set_option maxRecDepth 100000 in
theorem claim_c3_amended_null_blob_present_witness :
    ∃ st2 : TrieState, ∃ r : Digest,
      rootOp { root := Node.empty, rootHash := [9], db := (⟨true, []⟩ : MemDB),
               cache := [], passing := [], gen := [] } =
        Except.ok (st2, r) ∧
      (r = keccak256 nullRlp ∧
       st2.db.get (keccak256 nullRlp) = some nullRlp ∧
       st2.root = Node.empty) := by
  have henc : encodeNode { cache := [], gen := [] } Node.empty =
      ({ cache := [], gen := [] }, RawNodeOrHash.rawNode nullRlp) := by
    rw [encodeNode, encodeRaw]
    rfl
  have hroot : rootOp { root := Node.empty, rootHash := [9],
                        db := (⟨true, []⟩ : MemDB),
                        cache := [], passing := [], gen := [] } =
      Except.ok
        ({ root := Node.empty,
           rootHash := keccak256 nullRlp,
           db := ⟨true, [(keccak256 nullRlp, nullRlp)]⟩,
           cache := [],
           passing := [],
           gen := [] }, keccak256 nullRlp) := by
    rw [rootOp]
    rw [henc]
    dsimp only
    rw [show recoverFromDb
        { root := Node.empty,
          rootHash := keccak256 nullRlp,
          db := MemDB.removeBatch
                  (List.foldl (fun db kv => db.insert kv.1 kv.2)
                    (⟨true, []⟩ : MemDB)
                    (assocInsert [] (keccak256 nullRlp) nullRlp))
                  (List.filter (fun h => !List.contains [] h)
                    ([] : List Digest)),
          cache := [],
          passing := [],
          gen := [] } (keccak256 nullRlp) =
        Except.ok Node.empty from by
      rw [recoverFromDb]
      rw [show MemDB.get (MemDB.removeBatch
          (List.foldl (fun db kv => db.insert kv.1 kv.2) (⟨true, []⟩ : MemDB)
            (assocInsert [] (keccak256 nullRlp) nullRlp))
          (List.filter (fun h => !List.contains [] h) ([] : List Digest)))
          (keccak256 nullRlp) = some nullRlp from by
        simp [MemDB.get, MemDB.removeBatch, MemDB.insert, assocInsert,
          List.lookup]]
      dsimp only
      simp +decide [decodeNode, decodeNodeF, rlpProto, rlpHeadInfo, nullRlp]]
    dsimp only
    rfl
  exact ⟨_, _, hroot,
    claim_c3_amended_null_blob_present _ _ _ rfl
      (fun hmem => absurd hmem (by simp)) hroot⟩


set_option maxRecDepth 100000 in
theorem claim_c3_counterexample :
    Trie.insertOp 0 (Trie.new ⟨true, []⟩) c3Key c3Key =
      Except.ok { Trie.new ⟨true, []⟩ with root := Node.leaf c3Path c3Key } ∧
    rootOp { Trie.new ⟨true, []⟩ with root := Node.leaf c3Path c3Key } =
      Except.ok
        ({ root := Node.leaf c3Path c3Key,
           rootHash := keccak256 c3Blob,
           db := ⟨true, [(keccak256 c3Blob, c3Blob)]⟩,
           cache := [],
           passing := [],
           gen := [] }, keccak256 c3Blob) ∧
    Trie.removeOp 0
        { root := Node.leaf c3Path c3Key,
          rootHash := keccak256 c3Blob,
          db := ⟨true, [(keccak256 c3Blob, c3Blob)]⟩,
          cache := [],
          passing := [],
          gen := [] } c3Key =
      Except.ok
        ({ root := Node.empty,
           rootHash := keccak256 c3Blob,
           db := ⟨true, [(keccak256 c3Blob, c3Blob)]⟩,
           cache := [],
           passing := [],
           gen := [] }, true) ∧
    rootOp
        { root := Node.empty,
          rootHash := keccak256 c3Blob,
          db := ⟨true, [(keccak256 c3Blob, c3Blob)]⟩,
          cache := [],
          passing := [],
          gen := [] } =
      Except.ok
        ({ root := Node.empty,
           rootHash := keccak256 nullRlp,
           db := ⟨true, [(keccak256 nullRlp, nullRlp), (keccak256 c3Blob, c3Blob)]⟩,
           cache := [],
           passing := [],
           gen := [] }, keccak256 nullRlp) ∧
    (⟨true, [(keccak256 nullRlp, nullRlp),
             (keccak256 c3Blob, c3Blob)]⟩ : MemDB).storage.length = 2 := by
  have henc1 : encodeNode { cache := [], gen := [] } (Node.leaf c3Path c3Key) =
      ({ cache := [], gen := [] }, RawNodeOrHash.rawNode c3Blob) := by
    rw [encodeNode, encodeRaw]
    rfl
  have henc2 : encodeNode { cache := [], gen := [] } Node.empty =
      ({ cache := [], gen := [] }, RawNodeOrHash.rawNode nullRlp) := by
    rw [encodeNode, encodeRaw]
    rfl
  have hdec1 : decodeNode c3Blob = Except.ok (Node.leaf c3Path c3Key) := by
    rw [decodeNode]
    rw [show c3Blob.length + 1 = 13 from rfl]
    rw [decodeNodeF]
    simp +decide [rlpProto, rlpHeadInfo, rlpItems, rlpListItems, rlpAtRaw,
      rlpDataOf, Nibbles.fromCompact, Nibbles.unpackBytes, Nibbles.isLeafN,
      Node.fromLeaf, c3Blob, c3Path, c3Key]
  refine ⟨?_, ?_, ?_, ?_, rfl⟩
  · rw [Trie.insertOp, if_neg (by decide)]
    rw [show (Trie.new ⟨true, []⟩).root = Node.empty from rfl]
    rw [show Nibbles.fromRaw c3Key true = c3Path from by decide]
    rw [insertAt]
    rfl
  · rw [rootOp]
    rw [show ({ Trie.new ⟨true, []⟩ with
          root := Node.leaf c3Path c3Key } : TrieState).cache = [] from rfl]
    rw [show ({ Trie.new ⟨true, []⟩ with
          root := Node.leaf c3Path c3Key } : TrieState).gen = [] from rfl]
    rw [show ({ Trie.new ⟨true, []⟩ with
          root := Node.leaf c3Path c3Key } : TrieState).root =
        Node.leaf c3Path c3Key from rfl]
    rw [henc1]
    dsimp only
    rw [show recoverFromDb
        { root := Node.leaf c3Path c3Key,
          rootHash := keccak256 c3Blob,
          db := MemDB.removeBatch
                  (List.foldl (fun db kv => db.insert kv.1 kv.2)
                    ({ Trie.new ⟨true, []⟩ with
                        root := Node.leaf c3Path c3Key } : TrieState).db
                    (assocInsert [] (keccak256 c3Blob) c3Blob))
                  (List.filter (fun h => !List.contains [] h)
                    ({ Trie.new ⟨true, []⟩ with
                        root := Node.leaf c3Path c3Key } : TrieState).passing),
          cache := [],
          passing := [],
          gen := [] } (keccak256 c3Blob) =
        Except.ok (Node.leaf c3Path c3Key) from by
      rw [recoverFromDb]
      rw [show MemDB.get (MemDB.removeBatch
          (List.foldl (fun db kv => db.insert kv.1 kv.2)
            ({ Trie.new ⟨true, []⟩ with
                root := Node.leaf c3Path c3Key } : TrieState).db
            (assocInsert [] (keccak256 c3Blob) c3Blob))
          (List.filter (fun h => !List.contains [] h)
            ({ Trie.new ⟨true, []⟩ with
                root := Node.leaf c3Path c3Key } : TrieState).passing))
          (keccak256 c3Blob) = some c3Blob from by
        simp [MemDB.get, MemDB.removeBatch, MemDB.insert, assocInsert, Trie.new,
          List.lookup]]
      dsimp only
      exact hdec1]
    dsimp only
    have hdb : MemDB.removeBatch
        (List.foldl (fun db kv => db.insert kv.1 kv.2)
          ({ Trie.new ⟨true, []⟩ with
              root := Node.leaf c3Path c3Key } : TrieState).db
          (assocInsert [] (keccak256 c3Blob) c3Blob))
        (List.filter (fun h => !List.contains [] h)
          ({ Trie.new ⟨true, []⟩ with
              root := Node.leaf c3Path c3Key } : TrieState).passing) =
        (⟨true, [(keccak256 c3Blob, c3Blob)]⟩ : MemDB) := by
      simp [MemDB.removeBatch, MemDB.insert, assocInsert, Trie.new]
    rw [hdb]
  · rw [Trie.removeOp]
    rw [show ({ root := Node.leaf c3Path c3Key,
                rootHash := keccak256 c3Blob,
                db := ⟨true, [(keccak256 c3Blob, c3Blob)]⟩,
                cache := [],
                passing := [],
                gen := [] } : TrieState).root = Node.leaf c3Path c3Key from rfl]
    rw [show Nibbles.fromRaw c3Key true = c3Path from by decide]
    rw [deleteAt]
    rw [if_pos (by decide)]
  · rw [rootOp]
    dsimp only
    rw [henc2]
    dsimp only
    have hdb2 : MemDB.removeBatch
        (List.foldl (fun db kv => db.insert kv.1 kv.2)
          (⟨true, [(keccak256 c3Blob, c3Blob)]⟩ : MemDB)
          (assocInsert [] (keccak256 nullRlp) nullRlp))
        (List.filter (fun h => !List.contains [] h) ([] : List Digest)) =
        (⟨true, [(keccak256 nullRlp, nullRlp),
                 (keccak256 c3Blob, c3Blob)]⟩ : MemDB) := by
      simp only [MemDB.removeBatch, assocInsert, List.foldl, MemDB.insert,
        List.filter]
      rw [show (keccak256 c3Blob == keccak256 nullRlp) = false from by decide]
      rfl
    rw [hdb2]
    rw [show recoverFromDb
        { root := Node.empty,
          rootHash := keccak256 nullRlp,
          db := (⟨true, [(keccak256 nullRlp, nullRlp),
                         (keccak256 c3Blob, c3Blob)]⟩ : MemDB),
          cache := [],
          passing := [],
          gen := [] } (keccak256 nullRlp) = Except.ok Node.empty from by
      rw [recoverFromDb]
      rw [show MemDB.get (⟨true, [(keccak256 nullRlp, nullRlp),
          (keccak256 c3Blob, c3Blob)]⟩ : MemDB) (keccak256 nullRlp) =
          some nullRlp from by
        simp [MemDB.get, List.lookup]]
      dsimp only
      simp +decide [decodeNode, decodeNodeF, rlpProto, rlpHeadInfo, nullRlp]]


def c5Key : Bytes := [0x74, 0x65, 0x73, 0x74]

def c5Path : List Nat := [7, 4, 6, 5, 7, 3, 7, 4, 16]

def c5Blob : Bytes := [203, 133, 32, 116, 101, 115, 116, 132, 116, 101, 115, 116]

set_option maxRecDepth 100000 in
/-- Claim C5 counterexample: on the fresh (empty) trie `T = new(store)` with
root digest `r = keccak(NULL)` and key `k = []`, `T.get_proof(k)` succeeds
with the empty proof list and `T.get(k)` is `None`, yet
`verify_proof(r, k, [])` fails with the invalid-proof error instead of
returning `T.get(k)`. -/
theorem claim_c5_counterexample :
    Trie.getProofOp 1 (Trie.new ⟨true, []⟩) [] =
      Except.ok (Trie.new ⟨true, []⟩, []) ∧
    Trie.getOp 1 (Trie.new ⟨true, []⟩) [] = Except.ok none ∧
    Trie.verifyProof 1 (Trie.new ⟨true, []⟩) (Trie.new ⟨true, []⟩).rootHash []
      [] = Except.error TrieError.invalidProof := by
  refine ⟨?_, ?_, rfl⟩
  · rw [Trie.getProofOp]
    rw [show (Trie.new ⟨true, []⟩).root = Node.empty from rfl]
    rw [getPathAt]
    dsimp only
    simp only [List.reverse_nil, List.foldl_nil]
    rfl
  · rw [Trie.getOp]
    rw [show (Trie.new ⟨true, []⟩).root = Node.empty from rfl]
    rw [getAt]

set_option maxRecDepth 100000 in
/-- Claim C5 (amended): `verify_proof(r, k, T.get_proof(k)) == T.get(k)`
fails for the empty trie: `get_proof` then yields the empty proof list, and
`verify_proof` of an empty proof always returns the invalid-proof error no
matter the digest or key, while `get` returns `None`.  On a non-empty trie
the equation can hold: for the one-leaf trie holding `"test" ↦ "test"` the
produced proof is the encoded root, and verifying it at the root digest
returns exactly `get`'s answer. -/
theorem claim_c5_amended_proof_verification :
    (∀ (f : Nat) (selfSt : TrieState) (rootHash : Digest) (key : Bytes),
        Trie.verifyProof f selfSt rootHash key [] =
          Except.error TrieError.invalidProof) ∧
    (∀ (f : Nat) (st : TrieState) (key : Bytes), st.root = Node.empty →
        Trie.getProofOp f st key = Except.ok (st, []) ∧
        Trie.getOp f st key = Except.ok none) ∧
    (Trie.insertOp 0 (Trie.new ⟨true, []⟩) c5Key c5Key =
        Except.ok { Trie.new ⟨true, []⟩ with root := Node.leaf c5Path c5Key } ∧
      Trie.getProofOp 1
          { Trie.new ⟨true, []⟩ with root := Node.leaf c5Path c5Key } c5Key =
        Except.ok
          ({ Trie.new ⟨true, []⟩ with root := Node.leaf c5Path c5Key },
            [c5Blob]) ∧
      Trie.getOp 1
          { Trie.new ⟨true, []⟩ with root := Node.leaf c5Path c5Key } c5Key =
        Except.ok (some c5Key) ∧
      ∀ selfSt : TrieState,
        Trie.verifyProof 1 selfSt (keccak256 c5Blob) c5Key [c5Blob] =
          Except.ok (some c5Key)) := by
  refine ⟨fun f selfSt rootHash key => rfl, ?_, ?_, ?_, ?_, ?_⟩
  · intro f st key hroot
    constructor
    · rw [Trie.getProofOp, hroot, getPathAt]
      dsimp only
      simp only [List.reverse_nil, List.foldl_nil]
      rw [← hroot]
    · rw [Trie.getOp, hroot, getAt]
  · rw [Trie.insertOp, if_neg (by decide)]
    rw [show (Trie.new ⟨true, []⟩).root = Node.empty from rfl]
    rw [show Nibbles.fromRaw c5Key true = c5Path from by decide]
    rw [insertAt]
    rfl
  · rw [Trie.getProofOp]
    rw [show ({ Trie.new ⟨true, []⟩ with
          root := Node.leaf c5Path c5Key } : TrieState).root =
        Node.leaf c5Path c5Key from rfl]
    rw [getPathAt]
    dsimp only
    simp only [List.nil_append, List.reverse_cons, List.reverse_nil,
      List.foldl_cons, List.foldl_nil]
    rw [show encodeRaw { cache := (Trie.new ⟨true, []⟩).cache,
                         gen := (Trie.new ⟨true, []⟩).gen }
        (Node.leaf c5Path c5Key) =
        ({ cache := [], gen := [] }, c5Blob) from by
      rw [encodeRaw]
      rfl]
    rfl
  · rw [Trie.getOp]
    rw [show ({ Trie.new ⟨true, []⟩ with
          root := Node.leaf c5Path c5Key } : TrieState).root =
        Node.leaf c5Path c5Key from rfl]
    rw [show Nibbles.fromRaw c5Key true = c5Path from by decide]
    rw [getAt]
    rw [if_pos (by decide)]
  · intro selfSt
    rw [Trie.verifyProof]
    dsimp only
    simp only [List.foldl]
    rw [if_pos (Or.inl trivial)]
    rw [show Trie.fromDb ((MemDB.new true).insert (keccak256 c5Blob) c5Blob)
        (keccak256 c5Blob) =
        Except.ok
          { root := Node.leaf c5Path c5Key,
            rootHash := keccak256 c5Blob,
            db := (MemDB.new true).insert (keccak256 c5Blob) c5Blob,
            cache := [],
            passing := [],
            gen := [] } from by
      rw [Trie.fromDb]
      rw [show MemDB.get ((MemDB.new true).insert (keccak256 c5Blob) c5Blob)
          (keccak256 c5Blob) = some c5Blob from by
        simp [MemDB.get, MemDB.insert, MemDB.new, List.lookup]]
      dsimp only
      rw [show decodeNode c5Blob = Except.ok (Node.leaf c5Path c5Key) from by
        rw [decodeNode]
        rw [show c5Blob.length + 1 = 13 from rfl]
        rw [decodeNodeF]
        simp +decide [rlpProto, rlpHeadInfo, rlpItems, rlpListItems, rlpAtRaw,
          rlpDataOf, Nibbles.fromCompact, Nibbles.unpackBytes, Nibbles.isLeafN,
          Node.fromLeaf, c5Blob, c5Path, c5Key]]]
    dsimp only
    rw [show Nibbles.fromRaw c5Key true = c5Path from by decide]
    rw [getAt]
    rw [if_pos (by decide)]

end EthTrie
